import Mathlib

/-!
# Verification of the path-weaver shortest-path visualization core

This file gives a shallow embedding, in Lean 4, of the algorithmic core of the
path-weaver repository:

* the graph value type and its edit operations (`src/core/graph.ts`),
* the binary min-heap priority queue shared by both engines,
* the two step-generating engines `generateDijkstraSteps` (`dijkstra.ts`) and
  `generateAStarSteps` (`astar.ts`) together with `reconstructPath` and
  `findEdgeId`,
* the step-collecting wrapper `generateSteps` of
  `src/hooks/useAlgorithmVisualizer.ts`.

Modelling conventions:

* A JavaScript `Map` is modelled as an association list in insertion order
  (`jsGet`, `jsSet`, `jsDelete`), a JavaScript `Set` as a duplicate-free list
  in insertion order (`jsAdd`, `jsErase`).  This matches the iteration order
  semantics of JS `Map`/`Set`.
* JS numbers are modelled as `ℤ` for edge weights and `WithTop ℤ` (`⊤` is
  `Infinity`) for distances.  The engines use numbers only through `+` and
  order comparisons, which this model supports exactly; fractional values add
  nothing to any of the verified properties.  A value read from a map at an
  absent key (`undefined` in JS, which propagates to `NaN` under `+` and makes
  every `<` comparison false) is modelled by `Option`, with `none` making the
  relaxation comparison false, exactly as `NaN`/`undefined` do in JS.
* The TS generator functions are modelled as functions returning the full
  emitted list of steps (the repository's hook materializes the generator into
  an array in exactly this way).  The main loops run on explicit fuel; the
  exported entry points supply a fuel value that is proved sufficient.
* Explanation strings are built from the same data as in the source, but the
  prose is abbreviated and `toFixed` number formatting is omitted; they are
  display-only and no claim depends on their exact content.
-/

/-- JS numbers as used for distances/priorities: an integer or `Infinity`. -/
abbrev ENum := WithTop ℤ

/-! ## JS `Map` and `Set` model -/

/-- `m.get(k)` on a JS `Map` (association list in insertion order). -/
def jsGet {α : Type} (m : List (String × α)) (k : String) : Option α :=
  (m.find? (fun p => p.1 = k)).map (fun p => p.2)

/-- `m.set(k, v)`: overwrite in place if the key is present, else append. -/
def jsSet {α : Type} (m : List (String × α)) (k : String) (v : α) :
    List (String × α) :=
  if m.any (fun p => p.1 = k) then
    m.map (fun p => if p.1 = k then (k, v) else p)
  else
    m ++ [(k, v)]

/-- `m.delete(k)` on a JS `Map`. -/
def jsDelete {α : Type} (m : List (String × α)) (k : String) :
    List (String × α) :=
  m.filter (fun p => ¬ p.1 = k)

/-- `s.add(x)` on a JS `Set` (no-op when present, else append). -/
def jsAdd (s : List String) (x : String) : List String :=
  if x ∈ s then s else s ++ [x]

/-- `s.delete(x)` on a JS `Set`. -/
def jsErase (s : List String) (x : String) : List String :=
  s.filter (fun y => ¬ y = x)

/-! ## Graph data model (`src/core/types.ts`) -/

/-- `Node`: id, planar coordinates, optional label. -/
structure Node where
  id : String
  x : ℤ
  y : ℤ
  label : Option String := none
deriving DecidableEq

/-- `Edge`: id, endpoints, weight, optional directedness flag. -/
structure Edge where
  id : String
  source : String
  target : String
  weight : ℤ
  directed : Option Bool := none
deriving DecidableEq

/-- `Graph`: node map, edge map, adjacency index, directed flag.
This is the value type consumed (read-only) by the engines. -/
structure Graph where
  nodes : List (String × Node)
  edges : List (String × Edge)
  adjacencyList : List (String × List String)
  directed : Bool
deriving DecidableEq

/-- One element of the list returned by `getNeighbors`. -/
structure NeighborRec where
  nodeId : String
  edgeId : String
  weight : ℤ
deriving DecidableEq

/-- `getNeighbors(graph, nodeId)` from `src/core/graph.ts`: walk the adjacency
set of `nodeId` in insertion order, resolving each edge id through the edge
map, skipping dangling ids and directed edges pointing the wrong way. -/
def getNeighbors (g : Graph) (nodeId : String) : List NeighborRec :=
  match jsGet g.adjacencyList nodeId with
  | none => []
  | some edgeIds =>
    edgeIds.filterMap (fun edgeId =>
      match jsGet g.edges edgeId with
      | none => none
      | some e =>
        if e.source = nodeId then
          some ⟨e.target, edgeId, e.weight⟩
        else if g.directed = false ∧ e.target = nodeId then
          some ⟨e.source, edgeId, e.weight⟩
        else
          none)

/-- `findEdgeId(graph, nodeA, nodeB)` (identical helper in `dijkstra.ts` and
`astar.ts`): first edge joining `a` to `b` (either direction if undirected). -/
def findEdgeId (g : Graph) (a b : String) : Option String :=
  (g.edges.find? (fun p =>
    (p.2.source = a ∧ p.2.target = b) ∨
    (g.directed = false ∧ p.2.source = b ∧ p.2.target = a))).map (fun p => p.1)

/-! ## Binary min-heap (`PriorityQueue` in `dijkstra.ts` / `astar.ts`)

Both files contain the same class; the payload type is always the node id
`String`, priorities are JS numbers. -/

/-- One heap slot: `{ item, priority }`. -/
abbrev PQEntry := String × ENum

/-- Placeholder for out-of-range reads (never produced by in-range code). -/
def pqDefault : PQEntry := ("", (0 : ℤ))

/-- Read slot `i` of the heap array. -/
def hget (l : List PQEntry) (i : Nat) : PQEntry :=
  l.getD i pqDefault

/-- Priority at slot `i`. -/
def prio (l : List PQEntry) (i : Nat) : ENum :=
  (hget l i).2

/-- Swap slots `i` and `j` (the destructuring swap in the TS code). -/
def hswap (l : List PQEntry) (i j : Nat) : List PQEntry :=
  (l.set i (hget l j)).set j (hget l i)

/-- Body of `bubbleUp`, with the sift index bounded by explicit fuel so the
recursion is structural (the kernel can evaluate it).  The index strictly
decreases at each step, so calling with `fuel = index` (as `bubbleUp` does)
never reaches an exhausted-fuel state with a positive index. -/
def bubbleUpGo : Nat → List PQEntry → Nat → List PQEntry
  | _, l, 0 => l
  | 0, l, _ + 1 => l
  | (f + 1), l, (i + 1) =>
    if prio l (i / 2) ≤ prio l (i + 1) then l
    else bubbleUpGo f (hswap l (i / 2) (i + 1)) (i / 2)

/-- `bubbleUp(index)`: sift the slot up while it beats its parent. -/
def bubbleUp (l : List PQEntry) (i : Nat) : List PQEntry :=
  bubbleUpGo i l i

/-- `enqueue(item, priority)`: push then sift up from the last slot. -/
def enqueue (l : List PQEntry) (item : String) (priority : ENum) :
    List PQEntry :=
  bubbleUp (l ++ [(item, priority)]) l.length

/-- The index the `bubbleDown` loop body would swap slot `i` with:
`smallest` after comparing with both children. -/
def bdTarget (l : List PQEntry) (i : Nat) : Nat :=
  let s1 := if 2 * i + 1 < l.length ∧ prio l (2 * i + 1) < prio l i
    then 2 * i + 1 else i
  if 2 * i + 2 < l.length ∧ prio l (2 * i + 2) < prio l s1
    then 2 * i + 2 else s1

/-- Body of `bubbleDown`, with the iteration count bounded by explicit fuel
(the sift index strictly increases and stays below the length, so
`fuel = length` as supplied by `bubbleDown` is enough; moreover, whenever
fuel could run out the index is already out of range, where the loop would
stop anyway, so the fuel version agrees with the source loop exactly). -/
def bubbleDownGo : Nat → List PQEntry → Nat → List PQEntry
  | 0, l, _ => l
  | (f + 1), l, i =>
    if bdTarget l i = i then l
    else bubbleDownGo f (hswap l i (bdTarget l i)) (bdTarget l i)

/-- `bubbleDown(index)`: sift the slot down while a child beats it. -/
def bubbleDown (l : List PQEntry) (i : Nat) : List PQEntry :=
  bubbleDownGo l.length l i

/-- `dequeue()`: return the root; move the last slot to the root and sift
down.  The TS method returns only the item; the model returns the whole root
entry (the engines use only the item, the proofs also inspect the priority)
together with the new heap array. -/
def dequeue (l : List PQEntry) : Option (PQEntry × List PQEntry) :=
  match l with
  | [] => none
  | root :: rest =>
    match rest with
    | [] => some (root, [])
    | r :: rs =>
      some (root, bubbleDown ((r :: rs).getLast (List.cons_ne_nil r rs)
        :: (r :: rs).dropLast) 0)

/-- The heap shape invariant: every non-root slot is at least its parent. -/
def IsHeap (l : List PQEntry) : Prop :=
  ∀ j, 0 < j → j < l.length → prio l ((j - 1) / 2) ≤ prio l j

/-! ## Step trace model (`AlgorithmStep` in `src/core/types.ts`) -/

/-- Node classification (`NodeState`).  The TS literal `'end'` is a Lean
keyword, rendered here as `endp`. -/
inductive NodeState
  | default | current | visited | inQueue | path | start | endp
deriving DecidableEq

/-- Edge classification (`EdgeState`). -/
inductive EdgeState
  | default | considering | relaxed | rejected | path
deriving DecidableEq

/-- The ten step kinds of `AlgorithmStep.type`. -/
inductive StepType
  | init | selectNode | examineEdge | relaxEdge | skipEdge
  | markVisited | updateQueue | pathFound | noPath | complete
deriving DecidableEq

/-- `AlgorithmStep.currentEdge`.  The TS fields `from`/`to` are Lean keywords,
rendered as `fromNode`/`toNode`.  `oldDistance`/`newDistance` are JS numbers
that can be `undefined`/`NaN` when a phantom id is involved, hence `Option`. -/
structure EdgeInfo where
  edgeId : String
  fromNode : String
  toNode : String
  weight : ℤ
  oldDistance : Option ENum
  newDistance : Option ENum
  wasRelaxed : Bool
deriving DecidableEq

/-- Two-tier explanation.  Prose abbreviated (see header). -/
structure Explanation where
  beginner : String
  advanced : String
deriving DecidableEq

/-- One emitted `AlgorithmStep`.  Maps and sets are snapshotted by value at
emission time (the TS code copies them with `new Map(...)`/`new Set(...)`). -/
structure Step where
  type : StepType
  currentNode : Option String
  distances : List (String × ENum)
  predecessors : List (String × Option String)
  visited : List String
  queue : List PQEntry
  nodeStates : List (String × NodeState)
  edgeStates : List (String × EdgeState)
  pseudocodeLine : Nat
  explanation : Explanation
  currentEdge : Option EdgeInfo := none
  shortestPath : Option (List String) := none
  totalDistance : Option ENum := none
deriving DecidableEq

/-! ## Dijkstra engine (`generateDijkstraSteps` in `dijkstra.ts`) -/

/-- The mutable locals of one engine run. -/
structure DState where
  distances : List (String × ENum)
  predecessors : List (String × Option String)
  visited : List String
  nodeStates : List (String × NodeState)
  edgeStates : List (String × EdgeState)
  pq : List PQEntry
deriving DecidableEq

/-- Snapshot the current state into a step record. -/
def snap (t : StepType) (cur : Option String) (st : DState) (line : Nat)
    (ex : Explanation) : Step :=
  { type := t, currentNode := cur, distances := st.distances,
    predecessors := st.predecessors, visited := st.visited, queue := st.pq,
    nodeStates := st.nodeStates, edgeStates := st.edgeStates,
    pseudocodeLine := line, explanation := ex }

/-- JS `<` on two possibly-`undefined`/`NaN` numbers: false unless both are
actual numbers that compare. -/
def optLt : Option ENum → Option ENum → Bool
  | some a, some b => decide (a < b)
  | _, _ => false

/-- JS truthiness of an optional string (`undefined` and `""` are falsy). -/
def strTruthy : Option String → Bool
  | none => false
  | some s => !(s == "")

def dExplInit (sourceId : String) : Explanation :=
  ⟨"Starting Dijkstra from node " ++ sourceId,
   "Initialization: dist of " ++ sourceId ++ " is 0, all others infinity"⟩

def dExplSelect (cur : String) : Explanation :=
  ⟨"Selecting node " ++ cur ++ " with the smallest known distance",
   "Extract-min: " ++ cur ++ ", its distance is now final"⟩

def dExplVisited (cur : String) : Explanation :=
  ⟨"Node " ++ cur ++ " is now permanently visited",
   "Remove " ++ cur ++ " from Q, its distance is finalized"⟩

def dExplExamine (cur nb : String) : Explanation :=
  ⟨"Looking at neighbor " ++ nb ++ " of " ++ cur,
   "Examining edge from " ++ cur ++ " to " ++ nb⟩

def dExplRelax (cur nb : String) : Explanation :=
  ⟨"Found a shorter path to " ++ nb,
   "Relaxation: updating dist and prev of " ++ nb ++ " via " ++ cur⟩

def dExplSkip (cur nb : String) : Explanation :=
  ⟨"Path through " ++ cur ++ " to " ++ nb ++ " is not better",
   "No relaxation for " ++ nb⟩

def dExplFound (t : String) : Explanation :=
  ⟨"Found the shortest path to " ++ t,
   "Target reached: " ++ t⟩

def dExplNoPath (s t : String) : Explanation :=
  ⟨"No path exists from " ++ s ++ " to " ++ t,
   "Algorithm terminated, target " ++ t ++ " unreachable"⟩

def dExplComplete (s : String) : Explanation :=
  ⟨"Dijkstra complete, shortest paths from " ++ s ++ " found",
   "Single-source shortest paths computed from " ++ s⟩

/-- The neighbor loop of the Dijkstra main loop (`for ... of neighbors`),
returning the steps it yields and the state it leaves behind. -/
def processNeighbors (g : Graph) (targetId : Option String) (cur : String) :
    List NeighborRec → DState → List Step × DState
  | [], st => ([], st)
  | nb :: rest, st =>
    if nb.nodeId ∈ st.visited then
      processNeighbors g targetId cur rest st
    else
      let currentDist := jsGet st.distances cur
      let oldDist := jsGet st.distances nb.nodeId
      let newDist := currentDist.map (fun d => d + ((nb.weight : ℤ) : ENum))
      let st1 : DState :=
        { st with edgeStates := (jsSet st.edgeStates nb.edgeId
            EdgeState.considering) }
      let einfo : EdgeInfo :=
        ⟨nb.edgeId, cur, nb.nodeId, nb.weight, oldDist, newDist,
          optLt newDist oldDist⟩
      let exStep : Step :=
        { snap StepType.examineEdge (some cur) st1 11
            (dExplExamine cur nb.nodeId) with currentEdge := some einfo }
      if optLt newDist oldDist then
        let n := newDist.getD ((0 : ℤ) : ENum)
        let st2 : DState :=
          { st1 with
            distances := jsSet st1.distances nb.nodeId n,
            predecessors := jsSet st1.predecessors nb.nodeId (some cur),
            pq := enqueue st1.pq nb.nodeId n,
            edgeStates := jsSet st1.edgeStates nb.edgeId EdgeState.relaxed,
            nodeStates := (if targetId = some nb.nodeId then st1.nodeStates
              else jsSet st1.nodeStates nb.nodeId NodeState.inQueue) }
        let relaxStep : Step :=
          { snap StepType.relaxEdge (some cur) st2 14
              (dExplRelax cur nb.nodeId) with currentEdge := some einfo }
        let res := processNeighbors g targetId cur rest st2
        (exStep :: relaxStep :: res.1, res.2)
      else
        let st2 : DState :=
          { st1 with edgeStates := (jsSet st1.edgeStates nb.edgeId
              EdgeState.rejected) }
        let skipStep : Step :=
          { snap StepType.skipEdge (some cur) st2 13
              (dExplSkip cur nb.nodeId) with currentEdge := some einfo }
        let st3 : DState :=
          { st2 with edgeStates := (jsSet st2.edgeStates nb.edgeId
              EdgeState.default) }
        let res := processNeighbors g targetId cur rest st3
        (exStep :: skipStep :: res.1, res.2)

/-- The post-neighbor-loop sweep resetting `relaxed` edges to `default`. -/
def resetRelaxed (es : List (String × EdgeState)) :
    List (String × EdgeState) :=
  es.map (fun p => if p.2 = EdgeState.relaxed then (p.1, EdgeState.default)
    else p)

/-- Body of `reconstructPath`, on fuel.  The TS `while` loop would diverge on
a cyclic predecessor map; the engines only call it on acyclic ones, and the
supplied fuel is proved sufficient there. -/
def reconstructGo (preds : List (String × Option String)) :
    Nat → String → List String → List String
  | 0, _, acc => acc
  | (f + 1), cur, acc =>
    match jsGet preds cur with
    | some (some p) => reconstructGo preds f p (cur :: acc)
    | _ => cur :: acc

/-- `reconstructPath(predecessors, targetId)` (identical helper in both
engine files): walk predecessor links back from the target, building the
path front-to-back. -/
def reconstructPath (preds : List (String × Option String))
    (targetId : String) : List String :=
  reconstructGo preds (preds.length + 1) targetId []

/-- The path-marking loop inside the `path-found` branch: walk consecutive
path pairs, classifying edges and interior nodes. -/
def markPath (g : Graph) (sourceId : String) :
    List String → List (String × NodeState) × List (String × EdgeState) →
    List (String × NodeState) × List (String × EdgeState)
  | a :: b :: rest, (ns, es) =>
    let es' := match findEdgeId g a b with
      | some eid => jsSet es eid EdgeState.path
      | none => es
    let ns' := jsSet ns a (if a = sourceId then NodeState.start
      else NodeState.path)
    markPath g sourceId (b :: rest) (ns', es')
  | _, acc => acc

/-- The `while (!pq.isEmpty())` loop of `generateDijkstraSteps`, on fuel
(one unit per iteration; `dijkstraFuel` below is proved sufficient). -/
def dijkstraLoop (g : Graph) (sourceId : String) (targetId : Option String) :
    Nat → DState → List Step
  | 0, _ => []
  | (fuel + 1), st =>
    match dequeue st.pq with
    | none =>
      match targetId with
      | some t =>
        if t ≠ "" ∧ t ∉ st.visited then
          [{ snap StepType.noPath none st 16 (dExplNoPath sourceId t)
              with queue := [] }]
        else
          [{ snap StepType.complete none st 16 (dExplComplete sourceId)
              with queue := [] }]
      | none =>
        [{ snap StepType.complete none st 16 (dExplComplete sourceId)
            with queue := [] }]
    | some (entry, pq') =>
      let cur := entry.1
      let st0 : DState := { st with pq := pq' }
      if cur ∈ st0.visited then
        dijkstraLoop g sourceId targetId fuel st0
      else
        let st1 : DState :=
          { st0 with nodeStates :=
              (if cur ≠ sourceId ∧ targetId ≠ some cur then
                jsSet st0.nodeStates cur NodeState.current
              else st0.nodeStates) }
        let selStep := snap StepType.selectNode (some cur) st1 8
          (dExplSelect cur)
        if targetId = some cur ∧ cur ≠ "" then
          let st2 : DState :=
            { st1 with
              visited := jsAdd st1.visited cur,
              nodeStates := jsSet st1.nodeStates cur NodeState.endp }
          let path := reconstructPath st2.predecessors cur
          let ms := markPath g sourceId path (st2.nodeStates, st2.edgeStates)
          let st3 : DState :=
            { st2 with
              nodeStates := ms.1,
              edgeStates := ms.2 }
          [selStep,
           { snap StepType.pathFound (some cur) st3 16 (dExplFound cur) with
              shortestPath := some path,
              totalDistance := jsGet st3.distances cur }]
        else
          let st2 : DState :=
            { st1 with
              visited := jsAdd st1.visited cur,
              nodeStates :=
                (if cur ≠ sourceId ∧ targetId ≠ some cur then
                  jsSet st1.nodeStates cur NodeState.visited
                else st1.nodeStates) }
          let mvStep := snap StepType.markVisited (some cur) st2 9
            (dExplVisited cur)
          let pr := processNeighbors g targetId cur (getNeighbors g cur) st2
          let st3 : DState :=
            { pr.2 with edgeStates := resetRelaxed pr.2.edgeStates }
          selStep :: mvStep ::
            (pr.1 ++ dijkstraLoop g sourceId targetId fuel st3)

def initDistances (nodes : List (String × Node)) (sourceId : String) :
    List (String × ENum) :=
  nodes.foldl (fun m p =>
    jsSet m p.1 (if p.1 = sourceId then ((0 : ℤ) : ENum) else ⊤)) []

def initPreds (nodes : List (String × Node)) :
    List (String × Option String) :=
  nodes.foldl (fun m p => jsSet m p.1 none) []

def initNodeStates (nodes : List (String × Node)) (sourceId : String) :
    List (String × NodeState) :=
  nodes.foldl (fun m p =>
    jsSet m p.1 (if p.1 = sourceId then NodeState.start
      else NodeState.default)) []

def initEdgeStates (edges : List (String × Edge)) :
    List (String × EdgeState) :=
  edges.foldl (fun m p => jsSet m p.1 EdgeState.default) []

/-- Fuel bound for the Dijkstra main loop: one more than the potential
`|pq| + 2 * Σ_{v unvisited node} (1 + #neighbors v)` of the initial state;
each loop iteration strictly decreases the potential (proved below). -/
def dijkstraFuel (g : Graph) : Nat :=
  2 + 2 * ((g.nodes.map (fun p => 1 + (getNeighbors g p.1).length)).sum)

/-- The initial state built by the prologue of `generateDijkstraSteps`. -/
def dijkstraInit (g : Graph) (sourceId : String)
    (targetId : Option String) : DState :=
  { distances := initDistances g.nodes sourceId,
    predecessors := initPreds g.nodes,
    visited := [],
    nodeStates :=
      (match targetId with
      | some t => if t ≠ "" then
            jsSet (initNodeStates g.nodes sourceId) t NodeState.endp
          else initNodeStates g.nodes sourceId
      | none => initNodeStates g.nodes sourceId),
    edgeStates := initEdgeStates g.edges,
    pq := enqueue [] sourceId ((0 : ℤ) : ENum) }

/-- `generateDijkstraSteps(graph, sourceId, targetId?)`: the full materialized
step sequence of one Dijkstra run. -/
def generateDijkstraSteps (g : Graph) (sourceId : String)
    (targetId : Option String) : List Step :=
  let st := dijkstraInit g sourceId targetId
  snap StepType.init none st 0 (dExplInit sourceId) ::
    dijkstraLoop g sourceId targetId (dijkstraFuel g) st

/-! ## A* engine (`generateAStarSteps` in `astar.ts`) -/

/-- The mutable locals of one A* run. -/
structure AState where
  gScore : List (String × ENum)
  fScore : List (String × ENum)
  predecessors : List (String × Option String)
  visited : List String
  nodeStates : List (String × NodeState)
  edgeStates : List (String × EdgeState)
  openSet : List PQEntry
  inOpenSet : List String
deriving DecidableEq

/-- Snapshot an A* state into a step (`distances` is the g-score map,
`queue` is the open-set heap array). -/
def snapA (t : StepType) (cur : Option String) (st : AState) (line : Nat)
    (ex : Explanation) : Step :=
  { type := t, currentNode := cur, distances := st.gScore,
    predecessors := st.predecessors, visited := st.visited,
    queue := st.openSet, nodeStates := st.nodeStates,
    edgeStates := st.edgeStates, pseudocodeLine := line, explanation := ex }

/-- How a run aborts before yielding a step.  `targetNotFound` is the
explicit `throw` in `astar.ts`; `sourceMissing` models the `TypeError` raised
when `graph.nodes.get(sourceId)!` is `undefined` and the heuristic
dereferences it (all three heuristics in the repository read fields of both
arguments). -/
inductive EngineError
  | targetNotFound (t : String)
  | sourceMissing (s : String)
deriving DecidableEq

/-- Fallback node for the modelled-unreachable `.get(...)!` lookups inside
the main loop (popped ids and relaxed neighbors always name graph nodes,
which is proved below; JS would crash otherwise). -/
def defaultNode : Node := ⟨"", 0, 0, none⟩

def aExplInit (s t : String) : Explanation :=
  ⟨"Starting A-star from " ++ s ++ " to " ++ t,
   "Init g of " ++ s ++ " is 0, f is the heuristic to " ++ t⟩

def aExplSelect (cur : String) : Explanation :=
  ⟨"Selecting node " ++ cur ++ " with the lowest f-score",
   "Pop " ++ cur ++ " from the open set"⟩

def aExplFound (t : String) : Explanation :=
  ⟨"Found the shortest path to " ++ t,
   "Path found, target " ++ t ++ " reached"⟩

def aExplExamine (cur nb : String) : Explanation :=
  ⟨"Checking neighbor " ++ nb ++ " of " ++ cur,
   "Edge from " ++ cur ++ " to " ++ nb ++ ", computing tentative g"⟩

def aExplRelax (nb : String) : Explanation :=
  ⟨"Found better path to " ++ nb,
   "Update g, f and prev of " ++ nb⟩

def aExplSkip (cur nb : String) : Explanation :=
  ⟨"Path through " ++ cur ++ " to " ++ nb ++ " is not better",
   "No update for " ++ nb⟩

def aExplNoPath (s t : String) : Explanation :=
  ⟨"No path exists from " ++ s ++ " to " ++ t,
   "Open set empty, target " ++ t ++ " unreachable"⟩

/-- The neighbor loop of the A* main loop. -/
def aProcessNeighbors (g : Graph) (h : Node → Node → ℤ) (targetNode : Node)
    (targetId : String) (cur : String) :
    List NeighborRec → AState → List Step × AState
  | [], st => ([], st)
  | nb :: rest, st =>
    if nb.nodeId ∈ st.visited then
      aProcessNeighbors g h targetNode targetId cur rest st
    else
      let tentativeG := (jsGet st.gScore cur).map
        (fun d => d + ((nb.weight : ℤ) : ENum))
      let currentNeighborG := jsGet st.gScore nb.nodeId
      let st1 : AState :=
        { st with edgeStates := (jsSet st.edgeStates nb.edgeId
            EdgeState.considering) }
      let einfo : EdgeInfo :=
        ⟨nb.edgeId, cur, nb.nodeId, nb.weight, currentNeighborG, tentativeG,
          optLt tentativeG currentNeighborG⟩
      let exStep : Step :=
        { snapA StepType.examineEdge (some cur) st1 14
            (aExplExamine cur nb.nodeId) with currentEdge := some einfo }
      if optLt tentativeG currentNeighborG then
        let tg := tentativeG.getD ((0 : ℤ) : ENum)
        let neighborNode := (jsGet g.nodes nb.nodeId).getD defaultNode
        let f := tg + ((h neighborNode targetNode : ℤ) : ENum)
        let st2 : AState :=
          { st1 with
            predecessors := jsSet st1.predecessors nb.nodeId (some cur),
            gScore := jsSet st1.gScore nb.nodeId tg,
            fScore := jsSet st1.fScore nb.nodeId f,
            edgeStates := jsSet st1.edgeStates nb.edgeId EdgeState.relaxed,
            openSet :=
              (if nb.nodeId ∈ st1.inOpenSet then st1.openSet
               else enqueue st1.openSet nb.nodeId f),
            inOpenSet :=
              (if nb.nodeId ∈ st1.inOpenSet then st1.inOpenSet
               else jsAdd st1.inOpenSet nb.nodeId),
            nodeStates :=
              (if nb.nodeId = targetId then st1.nodeStates
               else jsSet st1.nodeStates nb.nodeId NodeState.inQueue) }
        let relaxStep : Step :=
          { snapA StepType.relaxEdge (some cur) st2 17
              (aExplRelax nb.nodeId) with
            currentEdge := some { einfo with wasRelaxed := true } }
        let res := aProcessNeighbors g h targetNode targetId cur rest st2
        (exStep :: relaxStep :: res.1, res.2)
      else
        let st2 : AState :=
          { st1 with edgeStates := (jsSet st1.edgeStates nb.edgeId
              EdgeState.rejected) }
        let skipStep : Step :=
          { snapA StepType.skipEdge (some cur) st2 15
              (aExplSkip cur nb.nodeId) with currentEdge := some einfo }
        let st3 : AState :=
          { st2 with edgeStates := (jsSet st2.edgeStates nb.edgeId
              EdgeState.default) }
        let res := aProcessNeighbors g h targetNode targetId cur rest st3
        (exStep :: skipStep :: res.1, res.2)

/-- The `while (!openSet.isEmpty())` loop of `generateAStarSteps`. -/
def astarLoop (g : Graph) (h : Node → Node → ℤ) (sourceId : String)
    (targetNode : Node) (targetId : String) :
    Nat → AState → List Step
  | 0, _ => []
  | (fuel + 1), st =>
    match dequeue st.openSet with
    | none =>
      [{ snapA StepType.noPath none st 21 (aExplNoPath sourceId targetId)
          with queue := [] }]
    | some (entry, pq') =>
      let cur := entry.1
      let st0 : AState :=
        { st with
          openSet := pq',
          inOpenSet := jsErase st.inOpenSet cur }
      if cur ∈ st0.visited then
        astarLoop g h sourceId targetNode targetId fuel st0
      else
        let st1 : AState :=
          { st0 with nodeStates :=
              (if cur ≠ sourceId ∧ cur ≠ targetId then
                jsSet st0.nodeStates cur NodeState.current
              else st0.nodeStates) }
        let selStep := snapA StepType.selectNode (some cur) st1 8
          (aExplSelect cur)
        if cur = targetId then
          let path := reconstructPath st1.predecessors targetId
          let ms := markPath g sourceId path (st1.nodeStates, st1.edgeStates)
          let st2 : AState :=
            { st1 with
              nodeStates := jsSet ms.1 targetId NodeState.endp,
              edgeStates := ms.2 }
          [selStep,
           { snapA StepType.pathFound (some cur) st2 10
              (aExplFound targetId) with
              shortestPath := some path,
              totalDistance := jsGet st2.gScore targetId }]
        else
          let st2 : AState :=
            { st1 with
              visited := jsAdd st1.visited cur,
              nodeStates :=
                (if cur ≠ sourceId then
                  jsSet st1.nodeStates cur NodeState.visited
                else st1.nodeStates) }
          let pr := aProcessNeighbors g h targetNode targetId cur
            (getNeighbors g cur) st2
          let st3 : AState :=
            { pr.2 with edgeStates := resetRelaxed pr.2.edgeStates }
          selStep :: (pr.1 ++
            astarLoop g h sourceId targetNode targetId fuel st3)

/-- The initial A* state (given that both lookups succeeded). -/
def astarInit (g : Graph) (sourceId targetId : String) (hValue : ℤ) :
    AState :=
  { gScore := jsSet
      (g.nodes.foldl (fun m p => jsSet m p.1 (⊤ : ENum)) []) sourceId
      ((0 : ℤ) : ENum),
    fScore := jsSet
      (g.nodes.foldl (fun m p => jsSet m p.1 (⊤ : ENum)) []) sourceId
      ((hValue : ℤ) : ENum),
    predecessors := initPreds g.nodes,
    visited := [],
    nodeStates := jsSet
      (jsSet (g.nodes.foldl (fun m p => jsSet m p.1 NodeState.default) [])
        sourceId NodeState.start) targetId NodeState.endp,
    edgeStates := initEdgeStates g.edges,
    openSet := enqueue [] sourceId ((hValue : ℤ) : ENum),
    inOpenSet := jsAdd [] sourceId }

/-- `generateAStarSteps(graph, sourceId, targetId, heuristic)`: the emitted
step list, plus the abort error if the generator threw before its first
yield (in which case the step list is empty). -/
def generateAStarSteps (g : Graph) (sourceId targetId : String)
    (h : Node → Node → ℤ) : List Step × Option EngineError :=
  match jsGet g.nodes targetId with
  | none => ([], some (EngineError.targetNotFound targetId))
  | some targetNode =>
    match jsGet g.nodes sourceId with
    | none => ([], some (EngineError.sourceMissing sourceId))
    | some sourceNode =>
      let st := astarInit g sourceId targetId (h sourceNode targetNode)
      (snapA StepType.init none st 0 (aExplInit sourceId targetId) ::
        astarLoop g h sourceId targetNode targetId (dijkstraFuel g) st,
       none)

/-! ## The hook wrapper (`generateSteps` in `useAlgorithmVisualizer.ts`) -/

/-- `AlgorithmType` from `src/core/types.ts`. -/
inductive AlgorithmType
  | dijkstra
  | astar
deriving DecidableEq

/-- The step materialization of the visualizer hook: bail out with an empty
list when there is no source id (JS falsiness: `null` or `""`) or the graph
has no nodes; otherwise run the chosen engine and collect every step.  The
hook fixes the A* heuristic to `euclideanDistance`, whose real-valued
square root lies outside this integer model; the heuristic is therefore a
parameter here.  An A* abort (`targetId!` absent, which includes the
`targetId = null` case) propagates as the error component. -/
def generateSteps (g : Graph) (sourceId targetId : Option String)
    (algorithm : AlgorithmType) (h : Node → Node → ℤ) :
    List Step × Option EngineError :=
  if strTruthy sourceId = false ∨ g.nodes.length = 0 then ([], none)
  else
    let s := sourceId.getD ""
    match algorithm with
    | AlgorithmType.dijkstra => (generateDijkstraSteps g s targetId, none)
    | AlgorithmType.astar =>
      match targetId with
      | some t => generateAStarSteps g s t h
      | none => ([], some (EngineError.targetNotFound ""))

/-! ## Graph edit operations (`src/core/graph.ts`)

The edit operations copy the node/edge maps and the adjacency `Map`, but the
adjacency map copy is shallow: the `Set` objects holding incident edge ids
are shared between the copy and the original.  To capture this, adjacency
sets live in an explicit `Store` of mutable `Set` objects, and a graph value
holds references (store indices) to them.  `observe` reads a store-level
graph back into the plain `Graph` value consumed by the engines. -/

/-- The JS heap fragment holding adjacency `Set` objects. -/
structure Store where
  sets : List (List String)
deriving DecidableEq

/-- Dereference a set (out-of-range reads yield the empty set; allocation
only ever hands out valid references). -/
def storeGet (s : Store) (r : Nat) : List String :=
  s.sets.getD r []

def storeSet (s : Store) (r : Nat) (v : List String) : Store :=
  ⟨s.sets.set r v⟩

/-- `new Set()`: allocate a fresh empty set, returning its reference. -/
def storeAlloc (s : Store) : Store × Nat :=
  (⟨s.sets ++ [[]]⟩, s.sets.length)

/-- `set.add(x)` through a reference (mutates the store). -/
def storeAdd (s : Store) (r : Nat) (x : String) : Store :=
  storeSet s r (jsAdd (storeGet s r) x)

/-- `set.delete(x)` through a reference (mutates the store). -/
def storeDel (s : Store) (r : Nat) (x : String) : Store :=
  storeSet s r (jsErase (storeGet s r) x)

/-- A graph value as built by `graph.ts`: adjacency maps node ids to
references into the store. -/
structure StoreGraph where
  nodes : List (String × Node)
  edges : List (String × Edge)
  adjacencyList : List (String × Nat)
  directed : Bool
deriving DecidableEq

/-- `createGraph(directed = false)`. -/
def createGraph (directed : Bool) : StoreGraph :=
  ⟨[], [], [], directed⟩

/-- The empty initial heap. -/
def emptyStore : Store := ⟨[]⟩

/-- Read the adjacency index of a graph value through the store. -/
def observeAdj (s : Store) (g : StoreGraph) : List (String × List String) :=
  g.adjacencyList.map (fun p => (p.1, storeGet s p.2))

/-- The observable contents of a store-level graph: exactly the `Graph`
value the engines consume. -/
def observe (s : Store) (g : StoreGraph) : Graph :=
  ⟨g.nodes, g.edges, observeAdj s g, g.directed⟩

/-- `addNode(graph, node)`. -/
def addNode (s : Store) (g : StoreGraph) (n : Node) : Store × StoreGraph :=
  let newNodes := jsSet g.nodes n.id n
  match jsGet g.adjacencyList n.id with
  | some _ => (s, { g with nodes := newNodes })
  | none =>
    let al := storeAlloc s
    (al.1,
     { g with
       nodes := newNodes,
       adjacencyList := jsSet g.adjacencyList n.id al.2 })

/-- `removeNode(graph, nodeId)`: drop the node, every incident edge, and the
incident edge ids from the other endpoints' (shared!) adjacency sets. -/
def removeNode (s : Store) (g : StoreGraph) (nodeId : String) :
    Store × StoreGraph :=
  let newNodes := jsDelete g.nodes nodeId
  let folded := g.edges.foldl
    (fun acc p =>
      if p.2.source = nodeId ∨ p.2.target = nodeId then
        let edges' := jsDelete acc.2 p.1
        let otherId := if p.2.source = nodeId then p.2.target else p.2.source
        match jsGet g.adjacencyList otherId with
        | some r => (storeDel acc.1 r p.1, edges')
        | none => (acc.1, edges')
      else acc)
    (s, g.edges)
  (folded.1,
   { g with
     nodes := newNodes,
     edges := folded.2,
     adjacencyList := jsDelete g.adjacencyList nodeId })

/-- `addEdge(graph, edge)`: store the edge (stamping the graph's directed
flag), then add its id to the source's adjacency set — and, when undirected,
to the target's — allocating missing sets on the fly.  The `.add` calls
mutate sets shared with the input graph. -/
def addEdge (s : Store) (g : StoreGraph) (e : Edge) : Store × StoreGraph :=
  let newEdges := jsSet g.edges e.id { e with directed := some g.directed }
  let a1 :=
    match jsGet g.adjacencyList e.source with
    | some _ => (s, g.adjacencyList)
    | none =>
      let al := storeAlloc s
      (al.1, jsSet g.adjacencyList e.source al.2)
  let s2 := storeAdd a1.1 ((jsGet a1.2 e.source).getD 0) e.id
  let a3 :=
    if g.directed then (s2, a1.2)
    else
      match jsGet a1.2 e.target with
      | some _ =>
        (storeAdd s2 ((jsGet a1.2 e.target).getD 0) e.id, a1.2)
      | none =>
        let al := storeAlloc s2
        (storeAdd al.1 al.2 e.id, jsSet a1.2 e.target al.2)
  (a3.1, { g with edges := newEdges, adjacencyList := a3.2 })

/-- `removeEdge(graph, edgeId)`: no-op for an unknown id; otherwise drop the
edge and its id from the endpoint adjacency sets (shared with the input). -/
def removeEdge (s : Store) (g : StoreGraph) (edgeId : String) :
    Store × StoreGraph :=
  match jsGet g.edges edgeId with
  | none => (s, g)
  | some e =>
    let newEdges := jsDelete g.edges edgeId
    let s1 :=
      match jsGet g.adjacencyList e.source with
      | some r => storeDel s r edgeId
      | none => s
    let s2 :=
      if g.directed then s1
      else
        match jsGet g.adjacencyList e.target with
        | some r => storeDel s1 r edgeId
        | none => s1
    (s2, { g with edges := newEdges })

/-- One edit operation, for reasoning about arbitrary edit sequences. -/
inductive GOp
  | addNodeOp (n : Node)
  | removeNodeOp (id : String)
  | addEdgeOp (e : Edge)
  | removeEdgeOp (id : String)
deriving DecidableEq

def applyOp (sg : Store × StoreGraph) : GOp → Store × StoreGraph
  | GOp.addNodeOp n => addNode sg.1 sg.2 n
  | GOp.removeNodeOp i => removeNode sg.1 sg.2 i
  | GOp.addEdgeOp e => addEdge sg.1 sg.2 e
  | GOp.removeEdgeOp i => removeEdge sg.1 sg.2 i

/-- A linear edit history applied to a fresh graph. -/
def applyOps (directed : Bool) (ops : List GOp) : Store × StoreGraph :=
  ops.foldl applyOp (emptyStore, createGraph directed)

/-- The node list of `createSampleGraph` in `graph.ts`. -/
def sampleNodes : List Node :=
  [⟨"A", 100, 200, some "A"⟩, ⟨"B", 250, 100, some "B"⟩,
   ⟨"C", 250, 300, some "C"⟩, ⟨"D", 400, 150, some "D"⟩,
   ⟨"E", 400, 250, some "E"⟩, ⟨"F", 550, 200, some "F"⟩]

/-- The edge list of `createSampleGraph` (the TS code omits `directed`;
`addEdge` stamps it). -/
def sampleEdges : List Edge :=
  [⟨"AB", "A", "B", 4, none⟩, ⟨"AC", "A", "C", 2, none⟩,
   ⟨"BD", "B", "D", 5, none⟩, ⟨"CD", "C", "D", 8, none⟩,
   ⟨"CE", "C", "E", 3, none⟩, ⟨"DE", "D", "E", 2, none⟩,
   ⟨"DF", "D", "F", 6, none⟩, ⟨"EF", "E", "F", 3, none⟩]

/-- `createSampleGraph()`: the undirected six-node demo graph (this is also
the concrete graph of the spec's test scenarios). -/
def createSampleGraph : Store × StoreGraph :=
  applyOps false
    (sampleNodes.map GOp.addNodeOp ++ sampleEdges.map GOp.addEdgeOp)

/-- The observable sample graph consumed by the engines. -/
def sampleGraph : Graph :=
  observe createSampleGraph.1 createSampleGraph.2

/-! ## Derived predicates used by the claims -/

/-- `v` is a key of the node map. -/
def HasNode (g : Graph) (v : String) : Prop :=
  (jsGet g.nodes v).isSome = true

/-- The adjacency set of `v` (empty when absent), as `getNeighbors` reads it. -/
def AdjSetOf (g : Graph) (v : String) : List String :=
  (jsGet g.adjacencyList v).getD []

/-- One traversable hop: edge id `k` resolves (through the edge map, exactly
as `getNeighbors` resolves it) to an edge of weight `w` leading from `u` to
`v` — forwards always, backwards only when the graph is undirected. -/
def CanStep (g : Graph) (u k v : String) (w : ℤ) : Prop :=
  ∃ e, jsGet g.edges k = some e ∧ e.weight = w ∧
    ((e.source = u ∧ e.target = v) ∨
     (g.directed = false ∧ e.target = u ∧ e.source = v))

/-- A walk from `u` to `v` of total edge-weight `c`.  (Under non-negative
weights the minimum over walks equals the minimum over simple paths, so this
is the right notion for "minimum over all paths of the sum of weights".) -/
inductive IsWalk (g : Graph) : String → String → ℤ → Prop
  | nil (u : String) : IsWalk g u u 0
  | cons {u v x : String} {w c : ℤ} (k : String)
      (h : CanStep g u k v w) (rest : IsWalk g v x c) : IsWalk g u x (w + c)

/-- `d` is the minimum over all walks from `s` to `v` of the sum of edge
weights: attained by some walk, and a lower bound on all walks. -/
def IsMinDist (g : Graph) (s v : String) (d : ℤ) : Prop :=
  IsWalk g s v d ∧ ∀ c, IsWalk g s v c → d ≤ c

/-- The node list `l` is linked, hop by hop, by edges of the graph, with
total weight `c`. -/
inductive ChainCost (g : Graph) : List String → ℤ → Prop
  | single (v : String) : ChainCost g [v] 0
  | cons {u v : String} {rest : List String} {w c : ℤ} (k : String)
      (h : CanStep g u k v w) (hr : ChainCost g (v :: rest) c) :
      ChainCost g (u :: v :: rest) (w + c)

/-- All edge weights of the graph are non-negative. -/
def NonnegWeights (g : Graph) : Prop :=
  ∀ p ∈ g.edges, 0 ≤ p.2.weight

/-- The adjacency index is complete and the edge maps sane: every edge's
endpoints are nodes, and its id appears in its source's adjacency set (and
its target's, when undirected).  This is the documented graph invariant; the
engines need it so that every traversable edge is actually examined. -/
def WellFormed (g : Graph) : Prop :=
  ∀ p ∈ g.edges, jsGet g.edges p.1 = some p.2 →
    HasNode g p.2.source ∧ HasNode g p.2.target ∧
    p.1 ∈ AdjSetOf g p.2.source ∧
    (g.directed = false → p.1 ∈ AdjSetOf g p.2.target)

/-- The three-part invariant of claim C6, over the observable graph:
adjacency entries name real edges; edge endpoints are real nodes; for
undirected graphs an edge's id is in both endpoints' adjacency sets. -/
def GraphInv (g : Graph) : Prop :=
  (∀ p ∈ g.adjacencyList, ∀ eid ∈ p.2, (jsGet g.edges eid).isSome = true) ∧
  (∀ p ∈ g.edges, HasNode g p.2.source ∧ HasNode g p.2.target) ∧
  (g.directed = false →
    ∀ p ∈ g.edges, p.1 ∈ AdjSetOf g p.2.source ∧ p.1 ∈ AdjSetOf g p.2.target)

/-- Sanity of the reference structure of a store-level graph: adjacency keys
are distinct, distinct keys hold distinct set references, and every
reference is live.  Holds for every graph built by the edit operations. -/
def GoodRefs (s : Store) (g : StoreGraph) : Prop :=
  (g.adjacencyList.map Prod.fst).Nodup ∧
  (g.adjacencyList.map Prod.snd).Nodup ∧
  ∀ p ∈ g.adjacencyList, p.2 < s.sets.length

/-- Application-time precondition of one edit (claim C6, amended): an added
edge must join existing nodes and use a fresh edge id. -/
def OpOk (g : Graph) : GOp → Prop
  | GOp.addEdgeOp e =>
      HasNode g e.source ∧ HasNode g e.target ∧ jsGet g.edges e.id = none
  | _ => True

/-- Every edit in the sequence satisfies its precondition at the moment it
is applied (starting from the given store/graph). -/
def ValidSeq : Store × StoreGraph → List GOp → Prop
  | _, [] => True
  | sg, op :: rest =>
      OpOk (observe sg.1 sg.2) op ∧ ValidSeq (applyOp sg op) rest

/-- Snapshot monotonicity between two steps of one run (claim C10): the
visited set only grows, and recorded distances never increase. -/
def StepsMono (s1 s2 : Step) : Prop :=
  (∀ v ∈ s1.visited, v ∈ s2.visited) ∧
  (∀ id d2, jsGet s2.distances id = some d2 →
    ∃ d1, jsGet s1.distances id = some d1 ∧ d2 ≤ d1)

/-- Dijkstra relaxation push discipline between adjacent steps (claim C3):
a `relax-edge` step follows its `examine-edge` step and its queue snapshot
is the previous queue plus one fresh entry for the relaxed node carrying the
new distance as priority. -/
def RelaxPushD (s1 s2 : Step) : Prop :=
  s2.type = StepType.relaxEdge →
    s1.type = StepType.examineEdge ∧
    ∃ ei, s2.currentEdge = some ei ∧ ei.wasRelaxed = true ∧
      ∃ pr, ei.newDistance = some pr ∧
        Multiset.ofList s2.queue =
          (ei.toNode, pr) ::ₘ Multiset.ofList s1.queue

/-- A* relaxation push discipline between adjacent steps (claim C3,
amended): on a `relax-edge` step, either the relaxed node already had an
entry in the open set — in which case the queue snapshot is unchanged, no
duplicate is pushed and the surviving entry keeps its stale priority — or a
single fresh entry for it is pushed. -/
def RelaxPushA (s1 s2 : Step) : Prop :=
  s2.type = StepType.relaxEdge →
    s1.type = StepType.examineEdge ∧
    ∃ ei, s2.currentEdge = some ei ∧ ei.wasRelaxed = true ∧
      ((ei.toNode ∈ s1.queue.map Prod.fst ∧ s2.queue = s1.queue) ∨
       (ei.toNode ∉ s1.queue.map Prod.fst ∧
        ∃ pr, Multiset.ofList s2.queue =
          (ei.toNode, pr) ::ₘ Multiset.ofList s1.queue))

/-- Core run invariant of the single-source engine, relative to graph `g`
and source `s`.  It packages: key-sets of the distance/predecessor maps; the
heap shape invariant; soundness of finite distances (each is a walk cost);
optimality of visited nodes; a live queue entry at or below the current
distance for every reached unvisited node; priority-queue entry
bookkeeping; and predecessor-link soundness (links point into the visited
set, strictly back in visit order, and carry the cost equation used for
path reconstruction). -/
structure DCore (g : Graph) (s : String) (st : DState) : Prop where
  keys : ∀ v, (jsGet st.distances v).isSome = true ↔ HasNode g v
  pkeys : ∀ v, (jsGet st.predecessors v).isSome = true ↔ HasNode g v
  heap : IsHeap st.pq
  vnodup : st.visited.Nodup
  vsub : ∀ v ∈ st.visited, HasNode g v
  qkeys : ∀ e ∈ st.pq, HasNode g e.1
  qfin : ∀ e ∈ st.pq, e.2 ≠ ⊤
  qsound : ∀ e ∈ st.pq, ∃ dv, jsGet st.distances e.1 = some dv ∧ dv ≤ e.2
  qpred : ∀ e ∈ st.pq, e.1 ≠ s →
    ∃ u, jsGet st.predecessors e.1 = some (some u)
  src0 : jsGet st.distances s = some ((0 : ℤ) : ENum)
  sound : ∀ v (d : ℤ), jsGet st.distances v = some ((d : ℤ) : ENum) →
    IsWalk g s v d
  opt : ∀ v ∈ st.visited, ∃ d : ℤ,
    jsGet st.distances v = some ((d : ℤ) : ENum) ∧ IsMinDist g s v d
  fresh : ∀ x, x ∉ st.visited → ∀ dx, jsGet st.distances x = some dx →
    dx ≠ ⊤ → ∃ e ∈ st.pq, e.1 = x ∧ e.2 ≤ dx
  predSound : ∀ v u, jsGet st.predecessors v = some (some u) →
    u ∈ st.visited ∧ st.visited.indexOf u < st.visited.indexOf v ∧
    ∃ (k : String) (w du : ℤ), CanStep g u k v w ∧
      jsGet st.distances u = some ((du : ℤ) : ENum) ∧
      jsGet st.distances v = some (((du + w : ℤ)) : ENum)
  vpred : ∀ v ∈ st.visited, v ≠ s →
    ∃ u, jsGet st.predecessors v = some (some u)
  start : s ∈ st.visited ∨
    (st.visited = [] ∧ st.pq = [(s, ((0 : ℤ) : ENum))])

/-- Every traversable edge out of a node of `vs` into an unvisited node has
been relaxed: the head's recorded distance is at most the tail's recorded
distance plus the edge weight. -/
def DCover (g : Graph) (st : DState) (vs : List String) : Prop :=
  ∀ u ∈ vs, ∀ k x w, CanStep g u k x w → x ∉ st.visited →
    ∃ dx du, jsGet st.distances x = some dx ∧
      jsGet st.distances u = some du ∧ dx ≤ du + ((w : ℤ) : ENum)

/-- The full run invariant: the core plus full relaxation of the boundary of
the visited set. -/
def DInv (g : Graph) (s : String) (st : DState) : Prop :=
  DCore g s st ∧ DCover g st st.visited

/-- Evolution order between two engine states of the same run: the visited
list grows by appending, recorded distances only decrease, and the distance
and predecessor entries of already-visited nodes are frozen. -/
def DEvol (a b : DState) : Prop :=
  (∃ ext, b.visited = a.visited ++ ext) ∧
  (∀ id d2, jsGet b.distances id = some d2 →
    ∃ d1, jsGet a.distances id = some d1 ∧ d2 ≤ d1) ∧
  (∀ v ∈ a.visited, jsGet b.distances v = jsGet a.distances v ∧
    jsGet b.predecessors v = jsGet a.predecessors v)

/-- The state recorded in a step's snapshot fields. -/
def stepDState (stp : Step) : DState :=
  ⟨stp.distances, stp.predecessors, stp.visited, stp.nodeStates,
    stp.edgeStates, stp.queue⟩

/-- Claim C1's per-step property: every node in the step's visited snapshot
has, in the step's distance snapshot, the minimal walk cost from `s`. -/
def OptSnap (g : Graph) (s : String) (stp : Step) : Prop :=
  ∀ v ∈ stp.visited, ∃ d : ℤ,
    jsGet stp.distances v = some ((d : ℤ) : ENum) ∧ IsMinDist g s v d

/-- Loop potential of the single-source engine: queue length plus, for every
unvisited node, twice (one plus its neighbor count).  Strictly decreases at
every loop iteration; `dijkstraFuel` exceeds its initial value. -/
def dPotential (g : Graph) (st : DState) : Nat :=
  st.pq.length + 2 *
    (((g.nodes.filter (fun p => ¬ p.1 ∈ st.visited)).map
      (fun p => 1 + (getNeighbors g p.1).length)).sum)

/-! ### Named intermediate states of the Dijkstra engine

The following definitions name the intermediate states and steps built by
`processNeighbors` and `dijkstraLoop`; proved-below equation lemmas restate
the two functions in terms of them, which keeps the many inductions over
runs readable.  Each is a verbatim transcription of the corresponding
`let` in the function bodies above. -/

/-- `newDist` of the neighbor iteration. -/
def dNewDist (st : DState) (cur : String) (nb : NeighborRec) : Option ENum :=
  (jsGet st.distances cur).map (fun d => d + ((nb.weight : ℤ) : ENum))

/-- The `currentEdge` record of the neighbor iteration. -/
def dEInfo (st : DState) (cur : String) (nb : NeighborRec) : EdgeInfo :=
  ⟨nb.edgeId, cur, nb.nodeId, nb.weight, jsGet st.distances nb.nodeId,
    dNewDist st cur nb,
    optLt (dNewDist st cur nb) (jsGet st.distances nb.nodeId)⟩

/-- State after marking the edge `considering`. -/
def dSt1 (st : DState) (nb : NeighborRec) : DState :=
  { st with edgeStates := (jsSet st.edgeStates nb.edgeId
      EdgeState.considering) }

/-- The emitted `examine-edge` step. -/
def dExStep (st : DState) (cur : String) (nb : NeighborRec) : Step :=
  { snap StepType.examineEdge (some cur) (dSt1 st nb) 11
      (dExplExamine cur nb.nodeId) with
    currentEdge := some (dEInfo st cur nb) }

/-- State after a successful relaxation. -/
def dRelaxSt2 (t : Option String) (st : DState) (cur : String)
    (nb : NeighborRec) : DState :=
  { distances := jsSet st.distances nb.nodeId
      ((dNewDist st cur nb).getD ((0 : ℤ) : ENum)),
    predecessors := jsSet st.predecessors nb.nodeId (some cur),
    visited := st.visited,
    nodeStates := (if t = some nb.nodeId then st.nodeStates
      else jsSet st.nodeStates nb.nodeId NodeState.inQueue),
    edgeStates := jsSet (jsSet st.edgeStates nb.edgeId
      EdgeState.considering) nb.edgeId EdgeState.relaxed,
    pq := enqueue st.pq nb.nodeId
      ((dNewDist st cur nb).getD ((0 : ℤ) : ENum)) }

/-- The emitted `relax-edge` step. -/
def dRelaxStep (t : Option String) (st : DState) (cur : String)
    (nb : NeighborRec) : Step :=
  { snap StepType.relaxEdge (some cur) (dRelaxSt2 t st cur nb) 14
      (dExplRelax cur nb.nodeId) with
    currentEdge := some (dEInfo st cur nb) }

/-- The emitted `skip-edge` step. -/
def dSkipStep (st : DState) (cur : String) (nb : NeighborRec) : Step :=
  { snap StepType.skipEdge (some cur)
      { dSt1 st nb with edgeStates := (jsSet (dSt1 st nb).edgeStates
          nb.edgeId EdgeState.rejected) } 13
      (dExplSkip cur nb.nodeId) with
    currentEdge := some (dEInfo st cur nb) }

/-- State left behind by a skipped neighbor. -/
def dSkipSt3 (st : DState) (nb : NeighborRec) : DState :=
  { st with edgeStates := (jsSet (jsSet (jsSet st.edgeStates nb.edgeId
      EdgeState.considering) nb.edgeId EdgeState.rejected) nb.edgeId
      EdgeState.default) }

/-- Loop state after the `node-states` update preceding `select-node`
(`st` here already carries the popped queue). -/
def dLoopSt1 (s : String) (t : Option String) (st0 : DState)
    (cur : String) : DState :=
  { st0 with nodeStates := (if cur ≠ s ∧ t ≠ some cur then
      jsSet st0.nodeStates cur NodeState.current else st0.nodeStates) }

/-- The emitted `select-node` step. -/
def dSelStep (s : String) (t : Option String) (st0 : DState)
    (cur : String) : Step :=
  snap StepType.selectNode (some cur) (dLoopSt1 s t st0 cur) 8
    (dExplSelect cur)

/-- Loop state after marking `cur` visited (non-target branch). -/
def dLoopSt2 (s : String) (t : Option String) (st0 : DState)
    (cur : String) : DState :=
  { dLoopSt1 s t st0 cur with
    visited := jsAdd (dLoopSt1 s t st0 cur).visited cur,
    nodeStates := (if cur ≠ s ∧ t ≠ some cur then
      jsSet (dLoopSt1 s t st0 cur).nodeStates cur NodeState.visited
      else (dLoopSt1 s t st0 cur).nodeStates) }

/-- The emitted `mark-visited` step. -/
def dMvStep (s : String) (t : Option String) (st0 : DState)
    (cur : String) : Step :=
  snap StepType.markVisited (some cur) (dLoopSt2 s t st0 cur) 9
    (dExplVisited cur)

/-- Loop state entering the next iteration: neighbor processing followed by
the `relaxed`-to-`default` sweep. -/
def dLoopSt3 (g : Graph) (s : String) (t : Option String) (st0 : DState)
    (cur : String) : DState :=
  { (processNeighbors g t cur (getNeighbors g cur)
      (dLoopSt2 s t st0 cur)).2 with
    edgeStates := resetRelaxed (processNeighbors g t cur (getNeighbors g cur)
      (dLoopSt2 s t st0 cur)).2.edgeStates }

/-- Final state of the `path-found` branch (visited target, marked path). -/
def dTgtSt3 (g : Graph) (s : String) (t : Option String) (st0 : DState)
    (cur : String) : DState :=
  { dLoopSt1 s t st0 cur with
    visited := jsAdd (dLoopSt1 s t st0 cur).visited cur,
    nodeStates := (markPath g s
      (reconstructPath (dLoopSt1 s t st0 cur).predecessors cur)
      (jsSet (dLoopSt1 s t st0 cur).nodeStates cur NodeState.endp,
       (dLoopSt1 s t st0 cur).edgeStates)).1,
    edgeStates := (markPath g s
      (reconstructPath (dLoopSt1 s t st0 cur).predecessors cur)
      (jsSet (dLoopSt1 s t st0 cur).nodeStates cur NodeState.endp,
       (dLoopSt1 s t st0 cur).edgeStates)).2 }

/-- The emitted `path-found` step. -/
def dFoundStep (g : Graph) (s : String) (t : Option String) (st0 : DState)
    (cur : String) : Step :=
  { snap StepType.pathFound (some cur) (dTgtSt3 g s t st0 cur) 16
      (dExplFound cur) with
    shortestPath := some (reconstructPath
      (dLoopSt1 s t st0 cur).predecessors cur),
    totalDistance := jsGet (dTgtSt3 g s t st0 cur).distances cur }

/-- The terminal step emitted when the queue runs empty. -/
def dTermSteps (s : String) (t : Option String) (st : DState) :
    List Step :=
  match t with
  | some tv =>
    if tv ≠ "" ∧ tv ∉ st.visited then
      [{ snap StepType.noPath none st 16 (dExplNoPath s tv)
          with queue := [] }]
    else
      [{ snap StepType.complete none st 16 (dExplComplete s)
          with queue := [] }]
  | none =>
    [{ snap StepType.complete none st 16 (dExplComplete s)
        with queue := [] }]

/-! ### Named intermediate states of the A* engine

Mirror of the Dijkstra equation-lemma layer for `aProcessNeighbors` and
`astarLoop`. -/

/-- `tentativeG` of the A* neighbor iteration. -/
def aNewDist (st : AState) (cur : String) (nb : NeighborRec) : Option ENum :=
  (jsGet st.gScore cur).map (fun d => d + ((nb.weight : ℤ) : ENum))

/-- The `currentEdge` record of the A* neighbor iteration. -/
def aEInfo (st : AState) (cur : String) (nb : NeighborRec) : EdgeInfo :=
  ⟨nb.edgeId, cur, nb.nodeId, nb.weight, jsGet st.gScore nb.nodeId,
    aNewDist st cur nb,
    optLt (aNewDist st cur nb) (jsGet st.gScore nb.nodeId)⟩

/-- A* state after marking the edge `considering`. -/
def aSt1 (st : AState) (nb : NeighborRec) : AState :=
  { st with edgeStates := (jsSet st.edgeStates nb.edgeId
      EdgeState.considering) }

/-- The emitted A* `examine-edge` step. -/
def aExStep (st : AState) (cur : String) (nb : NeighborRec) : Step :=
  { snapA StepType.examineEdge (some cur) (aSt1 st nb) 14
      (aExplExamine cur nb.nodeId) with
    currentEdge := some (aEInfo st cur nb) }

/-- The accepted tentative g-score. -/
def aTg (st : AState) (cur : String) (nb : NeighborRec) : ENum :=
  (aNewDist st cur nb).getD ((0 : ℤ) : ENum)

/-- The f-score pushed for the relaxed neighbor. -/
def aF (g : Graph) (h : Node → Node → ℤ) (tNode : Node) (st : AState)
    (cur : String) (nb : NeighborRec) : ENum :=
  aTg st cur nb +
    ((h ((jsGet g.nodes nb.nodeId).getD defaultNode) tNode : ℤ) : ENum)

/-- A* state after a successful relaxation. -/
def aRelaxSt2 (g : Graph) (h : Node → Node → ℤ) (tNode : Node)
    (tId : String) (st : AState) (cur : String) (nb : NeighborRec) :
    AState :=
  { gScore := jsSet st.gScore nb.nodeId (aTg st cur nb),
    fScore := jsSet st.fScore nb.nodeId (aF g h tNode st cur nb),
    predecessors := jsSet st.predecessors nb.nodeId (some cur),
    visited := st.visited,
    nodeStates := (if nb.nodeId = tId then st.nodeStates
      else jsSet st.nodeStates nb.nodeId NodeState.inQueue),
    edgeStates := (jsSet (jsSet st.edgeStates nb.edgeId
      EdgeState.considering) nb.edgeId EdgeState.relaxed),
    openSet := (if nb.nodeId ∈ st.inOpenSet then st.openSet
      else enqueue st.openSet nb.nodeId (aF g h tNode st cur nb)),
    inOpenSet := (if nb.nodeId ∈ st.inOpenSet then st.inOpenSet
      else jsAdd st.inOpenSet nb.nodeId) }

/-- The emitted A* `relax-edge` step. -/
def aRelaxStep (g : Graph) (h : Node → Node → ℤ) (tNode : Node)
    (tId : String) (st : AState) (cur : String) (nb : NeighborRec) : Step :=
  { snapA StepType.relaxEdge (some cur)
      (aRelaxSt2 g h tNode tId st cur nb) 17 (aExplRelax nb.nodeId) with
    currentEdge := some { aEInfo st cur nb with wasRelaxed := true } }

/-- The emitted A* `skip-edge` step. -/
def aSkipStep (st : AState) (cur : String) (nb : NeighborRec) : Step :=
  { snapA StepType.skipEdge (some cur)
      { aSt1 st nb with edgeStates := (jsSet (aSt1 st nb).edgeStates
          nb.edgeId EdgeState.rejected) } 15
      (aExplSkip cur nb.nodeId) with
    currentEdge := some (aEInfo st cur nb) }

/-- A* state left behind by a skipped neighbor. -/
def aSkipSt3 (st : AState) (nb : NeighborRec) : AState :=
  { st with edgeStates := (jsSet (jsSet (jsSet st.edgeStates nb.edgeId
      EdgeState.considering) nb.edgeId EdgeState.rejected) nb.edgeId
      EdgeState.default) }

/-- A* loop state right after the pop (queue and membership set shrunk). -/
def aLoopSt0 (st : AState) (cur : String) (pq' : List PQEntry) : AState :=
  { st with openSet := pq', inOpenSet := jsErase st.inOpenSet cur }

/-- A* loop state after the pre-select `node-states` update. -/
def aLoopSt1 (s tId : String) (st0 : AState) (cur : String) : AState :=
  { st0 with nodeStates := (if cur ≠ s ∧ cur ≠ tId then
      jsSet st0.nodeStates cur NodeState.current else st0.nodeStates) }

/-- The emitted A* `select-node` step. -/
def aSelStep (s tId : String) (st0 : AState) (cur : String) : Step :=
  snapA StepType.selectNode (some cur) (aLoopSt1 s tId st0 cur) 8
    (aExplSelect cur)

/-- Final A* state of the `path-found` branch. -/
def aTgtSt2 (g : Graph) (s tId : String) (st0 : AState) (cur : String) :
    AState :=
  { aLoopSt1 s tId st0 cur with
    nodeStates := jsSet (markPath g s
      (reconstructPath (aLoopSt1 s tId st0 cur).predecessors tId)
      ((aLoopSt1 s tId st0 cur).nodeStates,
       (aLoopSt1 s tId st0 cur).edgeStates)).1 tId NodeState.endp,
    edgeStates := (markPath g s
      (reconstructPath (aLoopSt1 s tId st0 cur).predecessors tId)
      ((aLoopSt1 s tId st0 cur).nodeStates,
       (aLoopSt1 s tId st0 cur).edgeStates)).2 }

/-- The emitted A* `path-found` step. -/
def aFoundStep (g : Graph) (s tId : String) (st0 : AState)
    (cur : String) : Step :=
  { snapA StepType.pathFound (some cur) (aTgtSt2 g s tId st0 cur) 10
      (aExplFound tId) with
    shortestPath := some (reconstructPath
      (aLoopSt1 s tId st0 cur).predecessors tId),
    totalDistance := jsGet (aTgtSt2 g s tId st0 cur).gScore tId }

/-- A* loop state after marking `cur` visited (non-target branch). -/
def aLoopSt2 (s tId : String) (st0 : AState) (cur : String) : AState :=
  { aLoopSt1 s tId st0 cur with
    visited := jsAdd (aLoopSt1 s tId st0 cur).visited cur,
    nodeStates := (if cur ≠ s then
      jsSet (aLoopSt1 s tId st0 cur).nodeStates cur NodeState.visited
      else (aLoopSt1 s tId st0 cur).nodeStates) }

/-- A* loop state entering the next iteration. -/
def aLoopSt3 (g : Graph) (h : Node → Node → ℤ) (tNode : Node)
    (s tId : String) (st0 : AState) (cur : String) : AState :=
  { (aProcessNeighbors g h tNode tId cur (getNeighbors g cur)
      (aLoopSt2 s tId st0 cur)).2 with
    edgeStates := resetRelaxed (aProcessNeighbors g h tNode tId cur
      (getNeighbors g cur) (aLoopSt2 s tId st0 cur)).2.edgeStates }

/-- The emitted A* `no-path` step. -/
def aNoPathStep (s tId : String) (st : AState) : Step :=
  { snapA StepType.noPath none st 21 (aExplNoPath s tId)
      with queue := [] }

/-- The engine-state view of an A* state, for sharing the snapshot
evolution order `DEvol` between engines (`distances` is the g-score map,
`pq` the open-set heap). -/
def aStateD (st : AState) : DState :=
  ⟨st.gScore, st.predecessors, st.visited, st.nodeStates, st.edgeStates,
    st.openSet⟩

/-- Bookkeeping invariant of the A* open set: `inOpenSet` holds exactly the
ids with an entry in the `openSet` heap, and no id has two entries. -/
structure AQ (st : AState) : Prop where
  mem : ∀ x, x ∈ st.inOpenSet ↔ x ∈ st.openSet.map Prod.fst
  nodup : (st.openSet.map Prod.fst).Nodup

/-- Four-node undirected graph exhibiting the A* open-set behavior: S-A
weight 5, S-B weight 1, B-A weight 1, A-T weight 10. -/
def gC3 : Graph :=
  { nodes := [("S", ⟨"S", 0, 0, none⟩), ("A", ⟨"A", 0, 0, none⟩),
      ("B", ⟨"B", 0, 0, none⟩), ("T", ⟨"T", 0, 0, none⟩)],
    edges := [("e1", ⟨"e1", "S", "A", 5, none⟩),
      ("e2", ⟨"e2", "S", "B", 1, none⟩),
      ("e3", ⟨"e3", "B", "A", 1, none⟩),
      ("e4", ⟨"e4", "A", "T", 10, none⟩)],
    adjacencyList := [("S", ["e1", "e2"]), ("A", ["e1", "e3", "e4"]),
      ("B", ["e2", "e3"]), ("T", ["e4"])],
    directed := false }

/-- The A* bookkeeping invariant used for the path-found claim: the source
g-score is pinned at 0, visited ids are distinct and have predecessor-map
entries, open-set entries have predecessor-map entries, finite g-scores and
(except the source) actual predecessor links, and every predecessor link
points at an earlier-visited node and carries the relaxation cost
equation. -/
structure AI (g : Graph) (s : String) (st : AState) : Prop where
  src0 : jsGet st.gScore s = some ((0 : ℤ) : ENum)
  vnodup : st.visited.Nodup
  vkey : ∀ v ∈ st.visited, (jsGet st.predecessors v).isSome = true
  qkey : ∀ e ∈ st.openSet, (jsGet st.predecessors e.1).isSome = true
  qfing : ∀ e ∈ st.openSet, ∃ dv : ℤ,
    jsGet st.gScore e.1 = some ((dv : ℤ) : ENum)
  qpred : ∀ e ∈ st.openSet, e.1 ≠ s →
    ∃ u, jsGet st.predecessors e.1 = some (some u)
  predSound : ∀ v u, jsGet st.predecessors v = some (some u) →
    u ∈ st.visited ∧ st.visited.indexOf u < st.visited.indexOf v ∧
    ∃ (k : String) (w du : ℤ), CanStep g u k v w ∧
      jsGet st.gScore u = some ((du : ℤ) : ENum) ∧
      jsGet st.gScore v = some (((du + w : ℤ)) : ENum)
  vpred : ∀ v ∈ st.visited, v ≠ s →
    ∃ u, jsGet st.predecessors v = some (some u)
  start : s ∈ st.visited ∨
    (st.visited = [] ∧ ∃ p0, st.openSet = [(s, p0)])

/-- The Dijkstra bookkeeping invariant used for the path-found claim —
the exact analog of `AI`, requiring neither non-negative weights nor the
adjacency invariant (path reconstruction is cost-consistent regardless). -/
structure DI (g : Graph) (s : String) (st : DState) : Prop where
  src0 : jsGet st.distances s = some ((0 : ℤ) : ENum)
  vnodup : st.visited.Nodup
  vkey : ∀ v ∈ st.visited, (jsGet st.predecessors v).isSome = true
  qkey : ∀ e ∈ st.pq, (jsGet st.predecessors e.1).isSome = true
  qfing : ∀ e ∈ st.pq, ∃ dv : ℤ,
    jsGet st.distances e.1 = some ((dv : ℤ) : ENum)
  qpred : ∀ e ∈ st.pq, e.1 ≠ s →
    ∃ u, jsGet st.predecessors e.1 = some (some u)
  predSound : ∀ v u, jsGet st.predecessors v = some (some u) →
    u ∈ st.visited ∧ st.visited.indexOf u < st.visited.indexOf v ∧
    ∃ (k : String) (w du : ℤ), CanStep g u k v w ∧
      jsGet st.distances u = some ((du : ℤ) : ENum) ∧
      jsGet st.distances v = some (((du + w : ℤ)) : ENum)
  vpred : ∀ v ∈ st.visited, v ≠ s →
    ∃ u, jsGet st.predecessors v = some (some u)
  start : s ∈ st.visited ∨
    (st.visited = [] ∧ st.pq = [(s, ((0 : ℤ) : ENum))])

/-- The loop body of `removeNode` (the `for` over `graph.edges`), as a named
function for reasoning about the fold. -/
def rmStep (adj : List (String × Nat)) (nodeId : String)
    (acc : Store × List (String × Edge)) (p : String × Edge) :
    Store × List (String × Edge) :=
  if p.2.source = nodeId ∨ p.2.target = nodeId then
    let edges' := jsDelete acc.2 p.1
    let otherId := if p.2.source = nodeId then p.2.target else p.2.source
    match jsGet adj otherId with
    | some r => (storeDel acc.1 r p.1, edges')
    | none => (acc.1, edges')
  else acc

/-- Store-level strengthening of the C6 invariant, maintained by every edit
operation applied under its precondition: node keys and adjacency keys
coincide, edge keys are duplicate-free, the reference structure is sane,
every edge id in an adjacency set names a live edge listing that node as an
endpoint (its source, or its target when the graph is undirected), and every
edge is indexed in its endpoints' adjacency sets. -/
def SInv (s : Store) (g : StoreGraph) : Prop :=
  g.nodes.map Prod.fst = g.adjacencyList.map Prod.fst ∧
  (g.edges.map Prod.fst).Nodup ∧
  GoodRefs s g ∧
  (∀ p ∈ g.adjacencyList, ∀ k ∈ storeGet s p.2,
    ∃ e, jsGet g.edges k = some e ∧
      (p.1 = e.source ∨ (g.directed = false ∧ p.1 = e.target))) ∧
  (∀ q ∈ g.edges,
    (jsGet g.nodes q.2.source).isSome = true ∧
    (jsGet g.nodes q.2.target).isSome = true ∧
    (∃ r, jsGet g.adjacencyList q.2.source = some r ∧ q.1 ∈ storeGet s r) ∧
    (g.directed = false →
      ∃ r, jsGet g.adjacencyList q.2.target = some r ∧ q.1 ∈ storeGet s r))

/-! ## Basic lemmas about the JS `Map`/`Set` model -/

theorem findCongr {α : Type} {p q : α → Bool} (l : List α)
    (h : ∀ a ∈ l, p a = q a) : l.find? p = l.find? q := by
  induction l with
  | nil => rfl
  | cons a t ih =>
    have ha := h a (List.mem_cons_self a t)
    rcases hpa : p a with _ | _
    · rw [List.find?_cons_of_neg t (by simp [hpa]),
        List.find?_cons_of_neg t (by simp [← ha, hpa])]
      exact ih (fun x hx => h x (List.mem_cons_of_mem a hx))
    · rw [List.find?_cons_of_pos t (by simp [hpa]),
        List.find?_cons_of_pos t (by simp [← ha, hpa])]

theorem jsGet_jsSet {α : Type} (m : List (String × α)) (k k' : String)
    (v : α) :
    jsGet (jsSet m k v) k' = if k' = k then some v else jsGet m k' := by
  unfold jsGet jsSet
  by_cases hany : m.any (fun p => p.1 = k)
  · rw [if_pos hany, List.find?_map]
    by_cases hk : k' = k
    · subst hk
      rw [List.any_eq_true] at hany
      obtain ⟨q, hq, hqk⟩ := hany
      simp only [decide_eq_true_eq] at hqk
      have hfind : m.find? ((fun p => decide (p.1 = k')) ∘
          (fun p => if p.1 = k' then (k', v) else p)) = m.find? (fun p => decide (p.1 = k')) := by
        apply findCongr
        intro p _
        by_cases hp : p.1 = k' <;> simp [hp]
      rw [hfind, if_pos rfl]
      obtain ⟨b, hb⟩ : ∃ b, m.find? (fun p => decide (p.1 = k')) = some b := by
        rcases hfb : m.find? (fun p => decide (p.1 = k')) with _ | b
        · rw [List.find?_eq_none] at hfb
          exact absurd (by simpa using hqk) (by simpa using hfb q hq)
        · exact ⟨b, hfb⟩
      have hbk : b.1 = k' := by
        have := List.find?_some hb
        simpa using this
      rw [hb]
      simp [hbk]
    · have hfind : m.find? ((fun p => decide (p.1 = k')) ∘
          (fun p => if p.1 = k then (k, v) else p)) = m.find? (fun p => decide (p.1 = k')) := by
        apply findCongr
        intro p _
        by_cases hp : p.1 = k
        · have hkk : ¬ (k = k') := fun hh => hk hh.symm
          simp [hp, hkk]
        · simp [hp]
      rw [hfind, if_neg hk]
      rcases hfb : m.find? (fun p => decide (p.1 = k')) with _ | b
      · rw [hfb]
        simp
      · have hbk : b.1 = k' := by simpa using List.find?_some hfb
        have hbk2 : ¬ b.1 = k := by rw [hbk]; exact hk
        rw [hfb]
        simp [hbk2]
  · rw [if_neg hany, List.find?_append]
    rw [List.any_eq_true] at hany
    push_neg at hany
    by_cases hk : k' = k
    · subst hk
      have hnone : m.find? (fun p => decide (p.1 = k')) = none := by
        rw [List.find?_eq_none]
        intro x hx
        simpa using hany x hx
      simp [hnone]
    · rcases hfb : m.find? (fun p => decide (p.1 = k')) with _ | b
      · have hne : ¬ (k = k') := fun h => hk h.symm
        simp [hfb, Option.or, List.find?, hne, if_neg hk]
      · simp [hfb, Option.or, if_neg hk]

theorem jsGet_mem {α : Type} {m : List (String × α)} {k : String} {v : α}
    (h : jsGet m k = some v) : (k, v) ∈ m := by
  unfold jsGet at h
  rcases hf : m.find? (fun p => p.1 = k) with _ | p
  · rw [hf] at h
    exact absurd h (by simp)
  · rw [hf] at h
    have hp := List.find?_some hf
    have hm := List.mem_of_find?_eq_some hf
    simp only [decide_eq_true_eq] at hp
    obtain ⟨p1, p2⟩ := p
    have h2 : p2 = v := by simpa using h
    simp only at hp
    rw [← hp, ← h2]
    exact hm

theorem jsGet_eq_none {α : Type} {m : List (String × α)} {k : String} :
    jsGet m k = none ↔ ∀ p ∈ m, ¬ p.1 = k := by
  unfold jsGet
  rcases hf : m.find? (fun p => p.1 = k) with _ | p
  · rw [hf]
    rw [List.find?_eq_none] at hf
    simpa using hf
  · rw [hf]
    have hp := List.find?_some hf
    have hm := List.mem_of_find?_eq_some hf
    simp only [decide_eq_true_eq] at hp
    constructor
    · intro hcon
      exact absurd hcon (by simp)
    · intro hall
      exact absurd hp (hall p hm)

theorem jsGet_isSome_of_mem {α : Type} {m : List (String × α)} {p}
    (h : p ∈ m) : (jsGet m p.1).isSome = true := by
  rcases hg : jsGet m p.1 with _ | v
  · rw [jsGet_eq_none] at hg
    exact absurd rfl (hg p h)
  · rfl

/-- Looking up a key in a fold that sets every key of `l` to `f` of itself. -/
theorem jsGet_initFold {β α : Type} (f : String → α) (l : List (String × β))
    (m0 : List (String × α)) (k : String) :
    jsGet (l.foldl (fun m p => jsSet m p.1 (f p.1)) m0) k =
      if k ∈ l.map Prod.fst then some (f k) else jsGet m0 k := by
  induction l generalizing m0 with
  | nil => simp
  | cons p rest ih =>
    rw [List.foldl_cons, ih (jsSet m0 p.1 (f p.1))]
    by_cases hr : k ∈ rest.map Prod.fst
    · rw [if_pos hr, if_pos (by simp [hr])]
    · rw [if_neg hr, jsGet_jsSet]
      by_cases hk : k = p.1
      · rw [if_pos hk, if_pos (by simp [hk]), hk]
      · rw [if_neg hk, if_neg (by simp [hk, hr])]

theorem mem_jsAdd {s : List String} {x y : String} :
    y ∈ jsAdd s x ↔ y ∈ s ∨ y = x := by
  unfold jsAdd
  by_cases h : x ∈ s
  · rw [if_pos h]
    constructor
    · exact Or.inl
    · rintro (hy | rfl)
      · exact hy
      · exact h
  · rw [if_neg h]
    simp

theorem jsAdd_sub {s : List String} {x : String} : s ⊆ jsAdd s x := by
  intro y hy
  rw [mem_jsAdd]
  exact Or.inl hy

theorem jsAdd_append (s : List String) (x : String) :
    jsAdd s x = s ∨ jsAdd s x = s ++ [x] := by
  unfold jsAdd
  by_cases h : x ∈ s
  · exact Or.inl (if_pos h)
  · exact Or.inr (if_neg h)

/-! ## Claim C7: determinism of both engines -/

/-- C7: both engines are deterministic — for a fixed input (graph, source,
target, algorithm choice and heuristic), any two runs produce the very same
step sequence, identical in every field.  In this embedding each engine is a
pure function of its inputs, so two runs are definitionally equal; this is
the faithful image of the TS code, which reads no ambient state. -/
theorem engines_deterministic (g : Graph) (s : String) (t : Option String)
    (t2 : String) (h : Node → Node → ℤ)
    (r1 r2 : List Step) (a1 a2 : List Step × Option EngineError)
    (h1 : r1 = generateDijkstraSteps g s t)
    (h2 : r2 = generateDijkstraSteps g s t)
    (h3 : a1 = generateAStarSteps g s t2 h)
    (h4 : a2 = generateAStarSteps g s t2 h) :
    r1 = r2 ∧ a1 = a2 := by
  subst h1
  subst h2
  subst h3
  subst h4
  exact ⟨rfl, rfl⟩

theorem engines_deterministic_witness :
    generateDijkstraSteps sampleGraph "A" (some "F") =
      generateDijkstraSteps sampleGraph "A" (some "F") ∧
    generateAStarSteps sampleGraph "A" "F" (fun _ _ => 0) =
      generateAStarSteps sampleGraph "A" "F" (fun _ _ => 0) :=
  engines_deterministic sampleGraph "A" (some "F") "F" (fun _ _ => 0)
    _ _ _ _ rfl rfl rfl rfl

/-! ## Claim C5: behavior on an absent source -/

/-- C5 counterexample: the source id `Z` is absent from the sample graph, yet
the single-source engine emits a four-step sequence (init, select of the
phantom source, mark-visited, complete) — it neither fails with any error nor
keeps the emitted sequence empty. -/
theorem dijkstra_missing_source_emits_steps :
    jsGet sampleGraph.nodes "Z" = none ∧
    (generateDijkstraSteps sampleGraph "Z" none).length = 4 := by
  decide

/-- C5 (amended): the single-source engine performs no source-presence check
at all — for every graph, source and target it emits the `init` step first
and never fails.  Only the heuristic engine aborts before emitting any step,
and the only membership check it makes is on the target id: an absent target
yields the not-found error with an empty step list (an absent source instead
aborts inside the heuristic call). -/
theorem source_check_behavior (g : Graph) (s t2 : String)
    (t : Option String) (h : Node → Node → ℤ)
    (ht : jsGet g.nodes t2 = none) :
    (generateDijkstraSteps g s t).head?.map Step.type =
      some StepType.init ∧
    generateDijkstraSteps g s t ≠ [] ∧
    generateAStarSteps g s t2 h =
      ([], some (EngineError.targetNotFound t2)) := by
  refine ⟨rfl, by simp [generateDijkstraSteps], ?_⟩
  unfold generateAStarSteps
  rw [ht]

theorem source_check_behavior_witness :
    (generateDijkstraSteps sampleGraph "A" (some "F")).head?.map Step.type =
      some StepType.init ∧
    generateDijkstraSteps sampleGraph "A" (some "F") ≠ [] ∧
    generateAStarSteps sampleGraph "A" "Z" (fun _ _ => 0) =
      ([], some (EngineError.targetNotFound "Z")) :=
  source_check_behavior sampleGraph "A" "Z" (some "F") (fun _ _ => 0)
    (by decide)

/-! ## Claim C9: zero-node graphs -/

/-- C9 counterexample: on the zero-node graph the Dijkstra engine itself
emits four steps (for the phantom source seeded into the queue), not an
empty sequence — the emptiness guard is not in the engine. -/
theorem engine_empty_graph_emits_steps :
    (observe emptyStore (createGraph false)).nodes.length = 0 ∧
    (generateDijkstraSteps (observe emptyStore (createGraph false)) "A"
      none).length = 4 := by
  decide

/-- C9 (amended): the zero-node guard lives in the hook wrapper
`generateSteps`, which returns an empty step list and no error for every
source/target selection and either algorithm without invoking an engine;
the raw engines, invoked directly, emit a nonempty trace (counterexample
above). -/
theorem generateSteps_empty_graph (g : Graph) (s t : Option String)
    (alg : AlgorithmType) (h : Node → Node → ℤ) (hg : g.nodes = []) :
    generateSteps g s t alg h = ([], none) := by
  unfold generateSteps
  rw [if_pos (Or.inr (by simp [hg]))]

theorem generateSteps_empty_graph_witness :
    generateSteps (observe emptyStore (createGraph false)) (some "A")
      (some "B") AlgorithmType.dijkstra (fun _ _ => 0) = ([], none) :=
  generateSteps_empty_graph (observe emptyStore (createGraph false))
    (some "A") (some "B") AlgorithmType.dijkstra (fun _ _ => 0) rfl

/-! ## Claim C4: edit operations and the input graph -/

/-- C4 counterexample: `addEdge` returns a new graph value but mutates the
adjacency `Set` object it shares with its input: after adding edge `e`, the
*original* one-node graph observes `e` inside node `A`'s adjacency set. -/
theorem addEdge_mutates_input_adjacency :
    (let p := addNode emptyStore (createGraph false) ⟨"A", 0, 0, none⟩
     let q := addEdge p.1 p.2 ⟨"e", "A", "B", 1, none⟩
     observeAdj p.1 p.2 = [("A", [])] ∧
     observeAdj q.1 p.2 = [("A", ["e"])]) := by
  decide

theorem storeGet_storeSet_ne (s : Store) (r r' : Nat) (v : List String)
    (h : r' ≠ r) : storeGet (storeSet s r v) r' = storeGet s r' := by
  unfold storeGet storeSet
  rcases s with ⟨sets⟩
  simp only
  rw [List.getD_eq_getElem?_getD, List.getD_eq_getElem?_getD,
    List.getElem?_set_ne (fun hh => h hh.symm)]

theorem storeGet_append_sets (s : Store) (ext : List (List String))
    (r : Nat) (hext : ∀ x ∈ ext, x = []) :
    storeGet ⟨s.sets ++ ext⟩ r = storeGet s r := by
  unfold storeGet
  rcases s with ⟨sets⟩
  simp only
  rw [List.getD_eq_getElem?_getD, List.getD_eq_getElem?_getD]
  by_cases hr : r < sets.length
  · rw [List.getElem?_append_left hr]
  · rw [List.getElem?_append_right (by omega),
      List.getElem?_eq_none (le_of_not_lt hr)]
    rcases hx : ext[r - sets.length]? with _ | x
    · rfl
    · have hxm : x ∈ ext := by
        have hlt : r - sets.length < ext.length := by
          by_contra hge
          rw [List.getElem?_eq_none (le_of_not_lt hge)] at hx
          exact Option.noConfusion hx
        rw [List.getElem?_eq_getElem hlt] at hx
        have hx2 := Option.some.inj hx
        rw [← hx2]
        exact List.getElem_mem hlt
      simp [hext x hxm]


theorem storeGet_alloc (s : Store) (r : Nat) :
    storeGet (storeAlloc s).1 r = storeGet s r :=
  storeGet_append_sets s [[]] r (by simp)

theorem storeGet_storeAdd_ne (s : Store) (r r' : Nat) (x : String)
    (h : r' ≠ r) : storeGet (storeAdd s r x) r' = storeGet s r' :=
  storeGet_storeSet_ne s r r' _ h

theorem storeGet_storeDel_ne (s : Store) (r r' : Nat) (x : String)
    (h : r' ≠ r) : storeGet (storeDel s r x) r' = storeGet s r' :=
  storeGet_storeSet_ne s r r' _ h

theorem storeLen_storeSet (s : Store) (r : Nat) (v : List String) :
    (storeSet s r v).sets.length = s.sets.length := by
  simp [storeSet]

theorem storeLen_alloc (s : Store) :
    (storeAlloc s).1.sets.length = s.sets.length + 1 := by
  simp [storeAlloc]

theorem jsGet_observeAdj (s : Store) (g : StoreGraph) (k : String) :
    jsGet (observeAdj s g) k =
      (jsGet g.adjacencyList k).map (storeGet s) := by
  unfold observeAdj jsGet
  rw [List.find?_map]
  have hpred : ((fun p : String × List String => decide (p.1 = k)) ∘
      (fun p : String × Nat => (p.1, storeGet s p.2))) =
      (fun p : String × Nat => decide (p.1 = k)) := rfl
  rw [hpred]
  rcases hf : g.adjacencyList.find? (fun p => decide (p.1 = k)) with _ | p
  · rw [hf]
    rfl
  · rw [hf]
    rfl

theorem goodRefs_bound {s : Store} {g : StoreGraph} (hg : GoodRefs s g)
    {k : String} {r : Nat} (h : jsGet g.adjacencyList k = some r) :
    r < s.sets.length :=
  hg.2.2 (k, r) (jsGet_mem h)

theorem goodRefs_inj {s : Store} {g : StoreGraph} (hg : GoodRefs s g)
    {k1 k2 : String} {r1 r2 : Nat}
    (h1 : jsGet g.adjacencyList k1 = some r1)
    (h2 : jsGet g.adjacencyList k2 = some r2) (hk : k1 ≠ k2) : r1 ≠ r2 := by
  intro hr
  have m1 := jsGet_mem h1
  have m2 := jsGet_mem h2
  have hinj := List.inj_on_of_nodup_map hg.2.1
  have heq := hinj m1 m2 (by simp [hr])
  exact hk (congrArg Prod.fst heq)

/-- Frame of `addNode` on the input: nothing observable about the input graph
changes (the allocated set, if any, is fresh). -/
theorem addNode_frame (s : Store) (g : StoreGraph) (n : Node) :
    observe (addNode s g n).1 g = observe s g := by
  unfold addNode
  rcases hadj : jsGet g.adjacencyList n.id with _ | r
  · unfold observe
    simp only
    have : observeAdj (storeAlloc s).1 g = observeAdj s g := by
      unfold observeAdj
      apply List.map_congr_left
      intro p _
      rw [storeGet_alloc]
    rw [this]
  · rfl

theorem storeLen_storeAdd (s : Store) (r : Nat) (x : String) :
    (storeAdd s r x).sets.length = s.sets.length :=
  storeLen_storeSet s r _

theorem addEdge_frame (s : Store) (g : StoreGraph) (e : Edge) (k : String)
    (hg : GoodRefs s g) (hks : k ≠ e.source) (hkt : k ≠ e.target) :
    jsGet (observeAdj (addEdge s g e).1 g) k =
      jsGet (observeAdj s g) k := by
  rw [jsGet_observeAdj, jsGet_observeAdj]
  rcases hk : jsGet g.adjacencyList k with _ | rk
  · rfl
  · simp only [Option.map_some', Option.some.injEq]
    have hrk : rk < s.sets.length := goodRefs_bound hg hk
    have halloc2 : (storeAlloc s).2 = s.sets.length := rfl
    unfold addEdge
    rcases hsrc : jsGet g.adjacencyList e.source with _ | rs
    · simp only [jsGet_jsSet, if_pos rfl, Option.getD_some, if_true]
      split
      · rw [storeGet_storeAdd_ne _ _ _ _ (by omega), storeGet_alloc]
      · split
        · rename_i rt hrt
          dsimp only
          rw [hrt, Option.getD_some]
          have hne : rk ≠ rt := by
            by_cases hts : e.target = e.source
            · rw [if_pos hts] at hrt
              have := Option.some.inj hrt
              omega
            · rw [if_neg hts] at hrt
              exact goodRefs_inj hg hk hrt hkt
          rw [storeGet_storeAdd_ne _ _ _ _ hne,
            storeGet_storeAdd_ne _ _ _ _ (by omega), storeGet_alloc]
        · dsimp only
          have hlen : (storeAdd (storeAlloc s).1 (storeAlloc s).2
              e.id).sets.length = s.sets.length + 1 := by
            rw [storeLen_storeAdd, storeLen_alloc]
          rw [storeGet_storeAdd_ne _ _ _ _ (by
              rw [show (storeAlloc (storeAdd (storeAlloc s).1
                (storeAlloc s).2 e.id)).2 = (storeAdd (storeAlloc s).1
                  (storeAlloc s).2 e.id).sets.length from rfl, hlen]
              omega),
            storeGet_alloc,
            storeGet_storeAdd_ne _ _ _ _ (by omega), storeGet_alloc]
    · have hnes : rk ≠ rs := goodRefs_inj hg hk hsrc hks
      simp only [hsrc, Option.getD_some]
      split
      · rw [storeGet_storeAdd_ne _ _ _ _ hnes]
      · split
        · rename_i rt hrt
          dsimp only
          rw [hrt, Option.getD_some]
          have hnet : rk ≠ rt := goodRefs_inj hg hk hrt hkt
          rw [storeGet_storeAdd_ne _ _ _ _ hnet,
            storeGet_storeAdd_ne _ _ _ _ hnes]
        · dsimp only
          have hlen : (storeAdd s rs e.id).sets.length = s.sets.length :=
            storeLen_storeAdd s rs e.id
          rw [storeGet_storeAdd_ne _ _ _ _ (by
              rw [show (storeAlloc (storeAdd s rs e.id)).2 =
                (storeAdd s rs e.id).sets.length from rfl, hlen]
              omega),
            storeGet_alloc, storeGet_storeAdd_ne _ _ _ _ hnes]

/-- Frame of `removeEdge` on the input's observable adjacency: only the
removed edge's endpoints' sets can change. -/
theorem removeEdge_frame (s : Store) (g : StoreGraph) (eid : String)
    (k : String) (hg : GoodRefs s g)
    (hend : ∀ e, jsGet g.edges eid = some e →
      k ≠ e.source ∧ k ≠ e.target) :
    jsGet (observeAdj (removeEdge s g eid).1 g) k =
      jsGet (observeAdj s g) k := by
  rw [jsGet_observeAdj, jsGet_observeAdj]
  rcases hk : jsGet g.adjacencyList k with _ | rk
  · rfl
  · simp only [Option.map_some', Option.some.injEq]
    unfold removeEdge
    rcases he : jsGet g.edges eid with _ | e
    · rfl
    · obtain ⟨hks, hkt⟩ := hend e he
      simp only
      rcases hsrc : jsGet g.adjacencyList e.source with _ | rs
      · simp only
        split
        · rfl
        · rcases htgt : jsGet g.adjacencyList e.target with _ | rt
          · rfl
          · exact storeGet_storeDel_ne _ _ _ _
              (goodRefs_inj hg hk htgt hkt)
      · simp only
        have hnes : rk ≠ rs := goodRefs_inj hg hk hsrc hks
        split
        · exact storeGet_storeDel_ne _ _ _ _ hnes
        · rcases htgt : jsGet g.adjacencyList e.target with _ | rt
          · exact storeGet_storeDel_ne _ _ _ _ hnes
          · have hnet : rk ≠ rt := goodRefs_inj hg hk htgt hkt
            rw [storeGet_storeDel_ne _ _ _ _ hnet,
              storeGet_storeDel_ne _ _ _ _ hnes]

theorem removeNode_fold_frame (g : StoreGraph) (nid : String) (rk : Nat)
    (edges : List (String × Edge)) (acc : Store × List (String × Edge))
    (hsafe : ∀ p ∈ edges, (p.2.source = nid ∨ p.2.target = nid) →
      ∀ r, jsGet g.adjacencyList
        (if p.2.source = nid then p.2.target else p.2.source) = some r →
        rk ≠ r) :
    storeGet (edges.foldl
      (fun acc p =>
        if p.2.source = nid ∨ p.2.target = nid then
          let edges' := jsDelete acc.2 p.1
          let otherId := if p.2.source = nid then p.2.target else p.2.source
          match jsGet g.adjacencyList otherId with
          | some r => (storeDel acc.1 r p.1, edges')
          | none => (acc.1, edges')
        else acc) acc).1 rk = storeGet acc.1 rk := by
  induction edges generalizing acc with
  | nil => rfl
  | cons p rest ih =>
    rw [List.foldl_cons,
      ih _ (fun q hq => hsafe q (List.mem_cons_of_mem p hq))]
    by_cases hp : p.2.source = nid ∨ p.2.target = nid
    · rw [if_pos hp]
      rcases hr : jsGet g.adjacencyList
          (if p.2.source = nid then p.2.target else p.2.source) with _ | r
      · simp only [hr]
      · simp only [hr]
        exact storeGet_storeDel_ne _ _ _ _
          (hsafe p (List.mem_cons_self p rest) hp r hr)
    · rw [if_neg hp]

/-- Frame of `removeNode` on the input's observable adjacency: only the
adjacency sets of nodes incident (through some edge) to the removed node can
change. -/
theorem removeNode_frame (s : Store) (g : StoreGraph) (nid k : String)
    (hg : GoodRefs s g)
    (hsafe : ∀ p ∈ g.edges, (p.2.source = nid ∨ p.2.target = nid) →
      k ≠ p.2.source ∧ k ≠ p.2.target) :
    jsGet (observeAdj (removeNode s g nid).1 g) k =
      jsGet (observeAdj s g) k := by
  rw [jsGet_observeAdj, jsGet_observeAdj]
  rcases hk : jsGet g.adjacencyList k with _ | rk
  · rfl
  · simp only [Option.map_some', Option.some.injEq]
    unfold removeNode
    dsimp only
    rw [removeNode_fold_frame g nid rk g.edges (s, g.edges)]
    intro p hp hinc r hr
    have hkother : k ≠ (if p.2.source = nid then p.2.target
        else p.2.source) := by
      obtain ⟨h1, h2⟩ := hsafe p hp hinc
      by_cases hcase : p.2.source = nid
      · rw [if_pos hcase]
        exact h2
      · rw [if_neg hcase]
        exact h1
    exact goodRefs_inj hg hk hr hkother

/-- C4 (amended): every edit operation returns a new graph value and leaves
the input graph's node map, edge map and adjacency key set unchanged (those
are plain fields of the input value); `addNode` leaves the input completely
unchanged, including every adjacency set, but `addEdge`, `removeEdge` and
`removeNode` mutate the adjacency `Set` objects shared with the input graph
— the counterexample above exhibits this — and that mutation is confined to
the adjacency sets of the endpoints they touch: every other node's adjacency
set observes exactly the entries it held before the call. -/
theorem edit_operations_frame :
    (∀ s g n, observe (addNode s g n).1 g = observe s g) ∧
    (∀ s g e k, GoodRefs s g → k ≠ e.source → k ≠ e.target →
      jsGet (observeAdj (addEdge s g e).1 g) k =
        jsGet (observeAdj s g) k) ∧
    (∀ s g eid k, GoodRefs s g →
      (∀ e, jsGet g.edges eid = some e → k ≠ e.source ∧ k ≠ e.target) →
      jsGet (observeAdj (removeEdge s g eid).1 g) k =
        jsGet (observeAdj s g) k) ∧
    (∀ s g nid k, GoodRefs s g →
      (∀ p ∈ g.edges, (p.2.source = nid ∨ p.2.target = nid) →
        k ≠ p.2.source ∧ k ≠ p.2.target) →
      jsGet (observeAdj (removeNode s g nid).1 g) k =
        jsGet (observeAdj s g) k) :=
  ⟨addNode_frame, addEdge_frame, removeEdge_frame, removeNode_frame⟩

theorem edit_operations_frame_witness :
    jsGet (observeAdj (removeEdge createSampleGraph.1 createSampleGraph.2
      "AB").1 createSampleGraph.2) "F" =
      jsGet (observeAdj createSampleGraph.1 createSampleGraph.2) "F" :=
  edit_operations_frame.2.2.1 createSampleGraph.1 createSampleGraph.2 "AB"
    "F" (by unfold GoodRefs; exact ⟨by decide, by decide, by decide⟩)
    (by
      intro e he
      have hc : jsGet createSampleGraph.2.edges "AB" =
          some ⟨"AB", "A", "B", 4, some false⟩ := by decide
      rw [hc] at he
      rw [← Option.some.inj he]
      exact ⟨by decide, by decide⟩)

/-! ## Binary heap verification -/

theorem hget_cons_succ (b : PQEntry) (u : List PQEntry) (n : Nat) :
    hget (b :: u) (n + 1) = hget u n := rfl

theorem hget_cons_zero (b : PQEntry) (u : List PQEntry) :
    hget (b :: u) 0 = b := rfl

theorem cons_set_perm :
    ∀ (t : List PQEntry) (j : Nat) (a : PQEntry), j < t.length →
      (hget t j :: t.set j a).Perm (a :: t) := by
  intro t
  induction t with
  | nil =>
    intro j a h
    exact absurd h (by simp)
  | cons b u ih =>
    intro j a h
    cases j with
    | zero => exact List.Perm.swap a b u
    | succ m =>
      have hm : m < u.length := by simpa using h
      have e1 : hget (b :: u) (m + 1) :: (b :: u).set (m + 1) a
          = hget u m :: b :: u.set m a := rfl
      rw [e1]
      exact ((List.Perm.swap b (hget u m) (u.set m a)).trans
        (List.Perm.cons b (ih m a hm))).trans
        (List.Perm.swap a b u)

theorem hswap_perm :
    ∀ (l : List PQEntry) (i j : Nat), i < l.length → j < l.length →
      (hswap l i j).Perm l := by
  intro l
  induction l with
  | nil =>
    intro i j hi _
    exact absurd hi (by simp)
  | cons b u ih =>
    intro i j hi hj
    cases i with
    | zero =>
      cases j with
      | zero =>
        have e1 : hswap (b :: u) 0 0 = b :: u := by
          unfold hswap
          rw [hget_cons_zero]
          rfl
        rw [e1]
      | succ n =>
        have hn : n < u.length := by simpa using hj
        have e1 : hswap (b :: u) 0 (n + 1) = hget u n :: u.set n b := by
          unfold hswap
          rw [hget_cons_succ, hget_cons_zero]
          rfl
        rw [e1]
        exact cons_set_perm u n b hn
    | succ m =>
      have hm : m < u.length := by simpa using hi
      cases j with
      | zero =>
        have e1 : hswap (b :: u) (m + 1) 0 = hget u m :: u.set m b := by
          unfold hswap
          rw [hget_cons_succ, hget_cons_zero]
          rfl
        rw [e1]
        exact cons_set_perm u m b hm
      | succ n =>
        have hn : n < u.length := by simpa using hj
        have e1 : hswap (b :: u) (m + 1) (n + 1) = b :: hswap u m n := by
          unfold hswap
          rw [hget_cons_succ, hget_cons_succ]
          rfl
        rw [e1]
        exact List.Perm.cons b (ih m n hm hn)

theorem bubbleUpGo_length (f : Nat) :
    ∀ (l : List PQEntry) (i : Nat), (bubbleUpGo f l i).length = l.length := by
  induction f with
  | zero =>
    intro l i
    cases i with
    | zero => rfl
    | succ i => rfl
  | succ f ih =>
    intro l i
    cases i with
    | zero => rfl
    | succ i =>
      simp only [bubbleUpGo]
      by_cases hc : prio l (i / 2) ≤ prio l (i + 1)
      · rw [if_pos hc]
      · rw [if_neg hc, ih]
        simp [hswap]

theorem bubbleUpGo_perm (f : Nat) :
    ∀ (l : List PQEntry) (i : Nat), i < l.length →
      (bubbleUpGo f l i).Perm l := by
  induction f with
  | zero =>
    intro l i _
    cases i with
    | zero => exact List.Perm.refl l
    | succ i => exact List.Perm.refl l
  | succ f ih =>
    intro l i hi
    cases i with
    | zero => exact List.Perm.refl l
    | succ i =>
      simp only [bubbleUpGo]
      by_cases hc : prio l (i / 2) ≤ prio l (i + 1)
      · rw [if_pos hc]
      · rw [if_neg hc]
        have h2 : i / 2 < l.length := by omega
        have h3 : i / 2 < (hswap l (i / 2) (i + 1)).length := by
          rw [show (hswap l (i / 2) (i + 1)).length = l.length by
            simp [hswap]]
          omega
        exact (ih (hswap l (i / 2) (i + 1)) (i / 2) h3).trans
          (hswap_perm l (i / 2) (i + 1) h2 hi)

theorem enqueue_perm (l : List PQEntry) (x : String) (p : ENum) :
    (enqueue l x p).Perm ((x, p) :: l) := by
  unfold enqueue bubbleUp
  have h : l.length < (l ++ [(x, p)]).length := by simp
  exact (bubbleUpGo_perm l.length (l ++ [(x, p)]) l.length h).trans
    (List.perm_append_singleton _ _)

theorem bdTarget_lt {l : List PQEntry} {i : Nat} (hc : ¬ bdTarget l i = i) :
    i < bdTarget l i ∧ bdTarget l i < l.length := by
  unfold bdTarget at hc ⊢
  dsimp only at hc ⊢
  by_cases h1 : 2 * i + 1 < l.length ∧ prio l (2 * i + 1) < prio l i
  · rw [if_pos h1] at hc ⊢
    by_cases h2 : 2 * i + 2 < l.length ∧
        prio l (2 * i + 2) < prio l (2 * i + 1)
    · rw [if_pos h2]
      exact ⟨by omega, h2.1⟩
    · rw [if_neg h2]
      exact ⟨by omega, h1.1⟩
  · rw [if_neg h1] at hc ⊢
    by_cases h2 : 2 * i + 2 < l.length ∧ prio l (2 * i + 2) < prio l i
    · rw [if_pos h2]
      exact ⟨by omega, h2.1⟩
    · rw [if_neg h2] at hc
      exact absurd rfl hc

theorem bubbleDownGo_perm (f : Nat) :
    ∀ (l : List PQEntry) (i : Nat), (bubbleDownGo f l i).Perm l := by
  induction f with
  | zero =>
    intro l i
    exact List.Perm.refl l
  | succ f ih =>
    intro l i
    simp only [bubbleDownGo]
    by_cases hc : bdTarget l i = i
    · rw [if_pos hc]
    · rw [if_neg hc]
      have hr := bdTarget_lt hc
      exact (ih (hswap l i (bdTarget l i)) (bdTarget l i)).trans
        (hswap_perm l i (bdTarget l i) (by omega) hr.2)

theorem dequeue_perm {l l' : List PQEntry} {e : PQEntry}
    (h : dequeue l = some (e, l')) : l.Perm (e :: l') := by
  match l with
  | [] => exact absurd h (by simp [dequeue])
  | [x] =>
    unfold dequeue at h
    simp only [Option.some.injEq, Prod.mk.injEq] at h
    rw [← h.1, ← h.2]
  | root :: r :: rs =>
    unfold dequeue at h
    simp only [Option.some.injEq, Prod.mk.injEq] at h
    rw [← h.1, ← h.2]
    have hlast := List.dropLast_append_getLast (List.cons_ne_nil r rs)
    have e1 : root :: r :: rs
        = root :: ((r :: rs).dropLast ++ [(r :: rs).getLast
            (List.cons_ne_nil r rs)]) := by rw [hlast]
    rw [e1]
    exact (List.Perm.cons root (List.perm_append_singleton _ _)).trans
      (List.Perm.cons root (bubbleDownGo_perm _ _ _).symm)
theorem prio_set_ne (l : List PQEntry) (i k : Nat) (v : PQEntry)
    (h : k ≠ i) : prio (l.set i v) k = prio l k := by
  unfold prio hget
  rw [List.getD_eq_getElem?_getD, List.getD_eq_getElem?_getD,
    List.getElem?_set_ne (fun hh => h hh.symm)]

theorem prio_set_self (l : List PQEntry) (i : Nat) (v : PQEntry)
    (h : i < l.length) : prio (l.set i v) i = v.2 := by
  unfold prio hget
  rw [List.getD_eq_getElem?_getD, List.getElem?_set_self h]
  rfl

theorem prio_hswap_left {l : List PQEntry} {i j : Nat} (hi : i < l.length)
    (hj : j < l.length) : prio (hswap l i j) i = prio l j := by
  unfold hswap
  by_cases hij : i = j
  · subst hij
    rw [prio_set_self _ _ _ (by simpa using hi)]
    unfold prio
    rfl
  · rw [prio_set_ne _ _ _ _ hij, prio_set_self _ _ _ hi]
    unfold prio
    rfl

theorem prio_hswap_right {l : List PQEntry} {i j : Nat}
    (hj : j < l.length) : prio (hswap l i j) j = prio l i := by
  unfold hswap
  rw [prio_set_self _ _ _ (by simpa using hj)]
  unfold prio
  rfl

theorem prio_hswap_other {l : List PQEntry} {i j k : Nat} (hki : k ≠ i)
    (hkj : k ≠ j) : prio (hswap l i j) k = prio l k := by
  unfold hswap
  rw [prio_set_ne _ _ _ _ hkj, prio_set_ne _ _ _ _ hki]

theorem prio_append {l l2 : List PQEntry} {j : Nat} (h : j < l.length) :
    prio (l ++ l2) j = prio l j := by
  unfold prio hget
  rw [List.getD_eq_getElem?_getD, List.getD_eq_getElem?_getD,
    List.getElem?_append_left h]

theorem hswap_length' (l : List PQEntry) (i j : Nat) :
    (hswap l i j).length = l.length := by
  simp [hswap]

theorem bubbleUpGo_heap (f : Nat) :
    ∀ (l : List PQEntry) (i : Nat), i < l.length → i ≤ f →
      (∀ j, 0 < j → j < l.length → j ≠ i →
        prio l ((j - 1) / 2) ≤ prio l j) →
      (∀ j, j < l.length → (j - 1) / 2 = i → 0 < i →
        prio l ((i - 1) / 2) ≤ prio l j) →
      IsHeap (bubbleUpGo f l i) := by
  induction f with
  | zero =>
    intro l i hil hif a1 _
    cases i with
    | zero =>
      intro j hj0 hjl
      exact a1 j hj0 hjl (by omega)
    | succ i => omega
  | succ f ih =>
    intro l i hil hif a1 a2
    cases i with
    | zero =>
      intro j hj0 hjl
      exact a1 j hj0 hjl (by omega)
    | succ i =>
      simp only [bubbleUpGo]
      by_cases hc : prio l (i / 2) ≤ prio l (i + 1)
      · rw [if_pos hc]
        intro j hj0 hjl
        by_cases hji : j = i + 1
        · subst hji
          rw [show (i + 1 - 1) / 2 = i / 2 by omega]
          exact hc
        · exact a1 j hj0 hjl hji
      · rw [if_neg hc]
        have hlt : prio l (i + 1) < prio l (i / 2) := lt_of_not_ge hc
        have hp : i / 2 < l.length := by omega
        have hlen : (hswap l (i / 2) (i + 1)).length = l.length :=
          hswap_length' _ _ _
        apply ih _ _ (by omega) (by omega)
        · -- a1 for the swapped array at index i / 2
          intro j hj0 hjl hjp
          rw [hlen] at hjl
          by_cases hjc : j = i + 1
          · subst hjc
            rw [show (i + 1 - 1) / 2 = i / 2 by omega,
              prio_hswap_left hp hil, prio_hswap_right hil]
            exact le_of_lt hlt
          · by_cases hparc : (j - 1) / 2 = i + 1
            · rw [hparc, prio_hswap_right hil,
                prio_hswap_other (by omega) hjc]
              exact a2 j hjl hparc (by omega)
            · by_cases hparp : (j - 1) / 2 = i / 2
              · rw [hparp, prio_hswap_left hp hil,
                  prio_hswap_other (by omega) hjc]
                exact le_trans (le_of_lt hlt) (hparp ▸ a1 j hj0 hjl hjc)
              · rw [prio_hswap_other hparp hparc,
                  prio_hswap_other hjp hjc]
                exact a1 j hj0 hjl hjc
        · -- a2 for the swapped array at index i / 2
          intro j hjl hpar hp0
          rw [hlen] at hjl
          have hgp : (i / 2 - 1) / 2 ≠ i / 2 := by omega
          have hgc : (i / 2 - 1) / 2 ≠ i + 1 := by omega
          rw [prio_hswap_other hgp hgc]
          by_cases hjc : j = i + 1
          · subst hjc
            rw [prio_hswap_right hil]
            exact a1 (i / 2) hp0 hp (by omega)
          · have hjp : j ≠ i / 2 := by omega
            rw [prio_hswap_other hjp hjc]
            exact le_trans (a1 (i / 2) hp0 hp (by omega))
              (hpar ▸ a1 j (by omega) hjl hjc)

theorem enqueue_isHeap {l : List PQEntry} (hl : IsHeap l) (x : String)
    (p : ENum) : IsHeap (enqueue l x p) := by
  unfold enqueue bubbleUp
  apply bubbleUpGo_heap l.length (l ++ [(x, p)]) l.length (by simp)
    (le_refl _)
  · intro j hj0 hjl hji
    have hjlen : j < l.length := by
      simp only [List.length_append, List.length_cons, List.length_nil] at hjl
      omega
    rw [prio_append hjlen, prio_append (by omega)]
    exact hl j hj0 hjlen
  · intro j hjl hpar h0
    simp only [List.length_append, List.length_cons, List.length_nil] at hjl
    omega
theorem bdTarget_eq_spec {l : List PQEntry} {i : Nat}
    (h : bdTarget l i = i) :
    (2 * i + 1 < l.length → prio l i ≤ prio l (2 * i + 1)) ∧
    (2 * i + 2 < l.length → prio l i ≤ prio l (2 * i + 2)) := by
  unfold bdTarget at h
  dsimp only at h
  by_cases h1 : 2 * i + 1 < l.length ∧ prio l (2 * i + 1) < prio l i
  · rw [if_pos h1] at h
    by_cases h2 : 2 * i + 2 < l.length ∧
        prio l (2 * i + 2) < prio l (2 * i + 1)
    · rw [if_pos h2] at h
      omega
    · rw [if_neg h2] at h
      omega
  · rw [if_neg h1] at h
    by_cases h2 : 2 * i + 2 < l.length ∧ prio l (2 * i + 2) < prio l i
    · rw [if_pos h2] at h
      omega
    · constructor
      · intro hlen
        rcases (not_and.mp h1 hlen) with hx
        exact le_of_not_lt hx
      · intro hlen
        rcases (not_and.mp h2 hlen) with hx
        exact le_of_not_lt hx

theorem bdTarget_spec {l : List PQEntry} {i : Nat}
    (hc : ¬ bdTarget l i = i) :
    (bdTarget l i = 2 * i + 1 ∨ bdTarget l i = 2 * i + 2) ∧
    bdTarget l i < l.length ∧
    prio l (bdTarget l i) < prio l i ∧
    (2 * i + 1 < l.length → prio l (bdTarget l i) ≤ prio l (2 * i + 1)) ∧
    (2 * i + 2 < l.length → prio l (bdTarget l i) ≤ prio l (2 * i + 2)) := by
  unfold bdTarget at hc ⊢
  dsimp only at hc ⊢
  by_cases h1 : 2 * i + 1 < l.length ∧ prio l (2 * i + 1) < prio l i
  · rw [if_pos h1] at hc ⊢
    by_cases h2 : 2 * i + 2 < l.length ∧
        prio l (2 * i + 2) < prio l (2 * i + 1)
    · rw [if_pos h2]
      exact ⟨Or.inr rfl, h2.1, lt_trans h2.2 h1.2,
        fun _ => le_of_lt h2.2, fun _ => le_refl _⟩
    · rw [if_neg h2]
      refine ⟨Or.inl rfl, h1.1, h1.2, fun _ => le_refl _, ?_⟩
      intro hlen
      exact le_of_not_lt (not_and.mp h2 hlen)
  · rw [if_neg h1] at hc ⊢
    by_cases h2 : 2 * i + 2 < l.length ∧ prio l (2 * i + 2) < prio l i
    · rw [if_pos h2]
      refine ⟨Or.inr rfl, h2.1, h2.2, ?_, fun _ => le_refl _⟩
      intro hlen
      exact le_trans (le_of_lt h2.2) (le_of_not_lt (not_and.mp h1 hlen))
    · rw [if_neg h2] at hc
      exact absurd rfl hc

theorem bubbleDownGo_heap (f : Nat) :
    ∀ (l : List PQEntry) (i : Nat),
      (∀ j, 0 < j → j < l.length → (j - 1) / 2 ≠ i →
        prio l ((j - 1) / 2) ≤ prio l j) →
      (∀ j, j < l.length → (j - 1) / 2 = i → 0 < i →
        prio l ((i - 1) / 2) ≤ prio l j) →
      l.length ≤ f + i →
      IsHeap (bubbleDownGo f l i) := by
  induction f with
  | zero =>
    intro l i a1 _ hfuel
    simp only [bubbleDownGo]
    intro j hj0 hjl
    apply a1 j hj0 hjl
    omega
  | succ f ih =>
    intro l i a1 a2 hfuel
    simp only [bubbleDownGo]
    by_cases hc : bdTarget l i = i
    · rw [if_pos hc]
      intro j hj0 hjl
      by_cases hpar : (j - 1) / 2 = i
      · obtain ⟨hs1, hs2⟩ := bdTarget_eq_spec hc
        rw [hpar]
        have : j = 2 * i + 1 ∨ j = 2 * i + 2 := by omega
        rcases this with hj | hj
        · subst hj
          exact hs1 hjl
        · subst hj
          exact hs2 hjl
      · exact a1 j hj0 hjl hpar
    · rw [if_neg hc]
      obtain ⟨hcase, hslen, hslt, hsc1, hsc2⟩ := bdTarget_spec hc
      have his : i < bdTarget l i := by omega
      have hil : i < l.length := by omega
      have hlen : (hswap l i (bdTarget l i)).length = l.length :=
        hswap_length' _ _ _
      have hschild : (bdTarget l i - 1) / 2 = i := by omega
      apply ih _ _ ?_ ?_ (by omega)
      · intro j hj0 hjl hjpar
        rw [hlen] at hjl
        by_cases hjs : j = bdTarget l i
        · subst hjs
          rw [hschild, prio_hswap_left hil hslen,
            prio_hswap_right hslen]
          exact le_of_lt hslt
        · by_cases hji : j = i
          · subst hji
            have hgp : (j - 1) / 2 ≠ j := by omega
            have hgs : (j - 1) / 2 ≠ bdTarget l j := by omega
            rw [prio_hswap_other hgp hgs, prio_hswap_left hil hslen]
            exact a2 (bdTarget l j) hslen hschild (by omega)
          · by_cases hjpari : (j - 1) / 2 = i
            · have : j = 2 * i + 1 ∨ j = 2 * i + 2 := by omega
              rw [hjpari, prio_hswap_left hil hslen,
                prio_hswap_other hji hjs]
              rcases this with hj | hj
              · subst hj
                exact hsc1 hjl
              · subst hj
                exact hsc2 hjl
            · rw [prio_hswap_other hjpari hjpar,
                prio_hswap_other hji hjs]
              exact a1 j hj0 hjl hjpari
      · intro j hjl hjpar hs0
        rw [hlen] at hjl
        have hji : j ≠ i := by omega
        have hjs : j ≠ bdTarget l i := by omega
        rw [hschild, prio_hswap_left hil hslen,
          prio_hswap_other hji hjs, ← hjpar]
        exact a1 j (by omega) hjl (by omega)
theorem isHeap_prio_zero_le {l : List PQEntry} (hl : IsHeap l) :
    ∀ j, j < l.length → prio l 0 ≤ prio l j := by
  intro j
  induction j using Nat.strong_induction_on with
  | _ j ih =>
    intro hjl
    cases j with
    | zero => exact le_refl _
    | succ m =>
      have hpar : (m + 1 - 1) / 2 < m + 1 := by omega
      exact le_trans (ih _ hpar (by omega)) (hl (m + 1) (by omega) hjl)

theorem dequeue_none_iff {l : List PQEntry} :
    dequeue l = none ↔ l = [] := by
  match l with
  | [] => simp [dequeue]
  | [x] => simp [dequeue]
  | root :: r :: rs => simp [dequeue]

theorem dequeue_root {l l' : List PQEntry} {e : PQEntry}
    (h : dequeue l = some (e, l')) : e = hget l 0 := by
  match l with
  | [] => exact absurd h (by simp [dequeue])
  | [x] =>
    unfold dequeue at h
    simp only [Option.some.injEq, Prod.mk.injEq] at h
    rw [← h.1]
    rfl
  | root :: r :: rs =>
    unfold dequeue at h
    simp only [Option.some.injEq, Prod.mk.injEq] at h
    rw [← h.1]
    rfl

theorem dequeue_min {l l' : List PQEntry} {e : PQEntry} (hl : IsHeap l)
    (h : dequeue l = some (e, l')) : ∀ q ∈ l, e.2 ≤ q.2 := by
  intro q hq
  obtain ⟨j, hjl, hjq⟩ := List.getElem_of_mem hq
  have h0 := isHeap_prio_zero_le hl j hjl
  rw [dequeue_root h]
  have hlen : 0 < l.length := by omega
  have e0 : prio l 0 = (hget l 0).2 := rfl
  have ej : prio l j = q.2 := by
    unfold prio hget
    rw [List.getD_eq_getElem, hjq]
  rw [e0, ej] at h0
  exact h0

theorem dequeue_isHeap {l l' : List PQEntry} {e : PQEntry} (hl : IsHeap l)
    (h : dequeue l = some (e, l')) : IsHeap l' := by
  match l with
  | [] => exact absurd h (by simp [dequeue])
  | [x] =>
    unfold dequeue at h
    simp only [Option.some.injEq, Prod.mk.injEq] at h
    rw [← h.2]
    intro j hj0 hjl
    simp at hjl
  | root :: r :: rs =>
    unfold dequeue at h
    simp only [Option.some.injEq, Prod.mk.injEq] at h
    rw [← h.2]
    unfold bubbleDown
    apply bubbleDownGo_heap _ _ 0 ?_ ?_ (by omega)
    · -- edges whose parent is not the root are inherited from l
      intro j hj0 hjl hjpar
      have hu : ∀ m, 0 < m →
          m < ((r :: rs).getLast (List.cons_ne_nil r rs)
            :: (r :: rs).dropLast).length →
          prio ((r :: rs).getLast (List.cons_ne_nil r rs)
            :: (r :: rs).dropLast) m = prio (root :: r :: rs) m := by
        intro m hm0 hml
        cases m with
        | zero => omega
        | succ k =>
          rw [show prio ((r :: rs).getLast (List.cons_ne_nil r rs)
              :: (r :: rs).dropLast) (k + 1)
              = prio ((r :: rs).dropLast) k from rfl,
            show prio (root :: r :: rs) (k + 1) = prio (r :: rs) k
              from rfl]
          have hkl : k < ((r :: rs).dropLast).length := by
            simp only [List.length_cons] at hml ⊢
            omega
          unfold prio hget
          rw [List.getD_eq_getElem _ _ hkl,
            List.getD_eq_getElem _ _ (by
              have := hkl
              simp only [List.length_dropLast, List.length_cons] at this ⊢
              omega),
            List.getElem_dropLast]
      have hjlen : j < ((r :: rs).getLast (List.cons_ne_nil r rs)
          :: (r :: rs).dropLast).length := hjl
      rw [hu j hj0 hjlen, hu ((j - 1) / 2) (by omega) (by
        have := hjlen
        simp only [List.length_cons] at this ⊢
        omega)]
      apply hl j hj0
      have := hjlen
      simp only [List.length_cons, List.length_dropLast] at this ⊢
      omega
    · intro j hjl hjpar h0
      omega
/-! ## Walks and neighbor enumeration -/

/-- Appending one hop at the end of a walk. -/
theorem walk_snoc {g : Graph} {s u v : String} {c w : ℤ} (k : String)
    (hw : IsWalk g s u c) (hs : CanStep g u k v w) :
    IsWalk g s v (c + w) := by
  induction hw with
  | nil x =>
    have := IsWalk.cons k hs (IsWalk.nil v)
    simpa [add_comm] using this
  | cons k2 h2 rest ih =>
    have := IsWalk.cons k2 h2 (ih hs)
    simpa [add_assoc] using this

/-- A traversable hop has non-negative weight when all edge weights are. -/
theorem canStep_nonneg {g : Graph} {u k v : String} {w : ℤ}
    (hnn : NonnegWeights g) (h : CanStep g u k v w) : 0 ≤ w := by
  obtain ⟨e, hge, hw, _⟩ := h
  have := hnn (k, e) (jsGet_mem hge)
  simpa [hw] using this

/-- Walk costs are non-negative when all edge weights are. -/
theorem walk_cost_nonneg {g : Graph} {u v : String} {c : ℤ}
    (hnn : NonnegWeights g) (h : IsWalk g u v c) : 0 ≤ c := by
  induction h with
  | nil x => exact le_refl 0
  | cons k h2 rest ih =>
    have := canStep_nonneg hnn h2
    omega

/-- Every record returned by `getNeighbors` is a traversable hop. -/
theorem getNeighbors_sound {g : Graph} {u : String} {nb : NeighborRec}
    (h : nb ∈ getNeighbors g u) :
    CanStep g u nb.edgeId nb.nodeId nb.weight := by
  unfold getNeighbors at h
  rcases hadj : jsGet g.adjacencyList u with _ | edgeIds
  · rw [hadj] at h
    simp at h
  · rw [hadj] at h
    rw [List.mem_filterMap] at h
    obtain ⟨eid, hmem, he⟩ := h
    split at he
    · exact absurd he (by simp)
    · rename_i e hge
      split at he
      · rename_i h1
        simp only [Option.some.injEq] at he
        subst he
        exact ⟨e, hge, rfl, Or.inl ⟨h1, rfl⟩⟩
      · split at he
        · rename_i h2
          simp only [Option.some.injEq] at he
          subst he
          exact ⟨e, hge, rfl, Or.inr ⟨h2.1, h2.2, rfl⟩⟩
        · exact absurd he (by simp)

/-- In a well-formed graph every traversable hop out of `u` appears in
`getNeighbors g u`. -/
theorem getNeighbors_complete {g : Graph} (hwf : WellFormed g)
    {u k v : String} {w : ℤ} (h : CanStep g u k v w) :
    (⟨v, k, w⟩ : NeighborRec) ∈ getNeighbors g u := by
  obtain ⟨e, hge, hw, hdir⟩ := h
  obtain ⟨hsn, htn, hsa, hta⟩ := hwf (k, e) (jsGet_mem hge) hge
  unfold getNeighbors
  rcases hdir with ⟨hsrc, htg⟩ | ⟨hund, htg, hsrc⟩
  · have hk : k ∈ AdjSetOf g u := by
      rw [← hsrc]
      exact hsa
    unfold AdjSetOf at hk
    rcases hadj : jsGet g.adjacencyList u with _ | edgeIds
    · rw [hadj] at hk
      simp at hk
    · rw [hadj] at hk
      simp only [Option.getD_some] at hk
      rw [List.mem_filterMap]
      refine ⟨k, hk, ?_⟩
      simp only [hge]
      rw [if_pos hsrc, htg, hw]
  · have hk : k ∈ AdjSetOf g u := by
      rw [← htg]
      exact hta hund
    unfold AdjSetOf at hk
    rcases hadj : jsGet g.adjacencyList u with _ | edgeIds
    · rw [hadj] at hk
      simp at hk
    · rw [hadj] at hk
      simp only [Option.getD_some] at hk
      rw [List.mem_filterMap]
      refine ⟨k, hk, ?_⟩
      simp only [hge]
      by_cases hsu : e.source = u
      · rw [if_pos hsu]
        have hv : v = e.target := by
          rw [htg, ← hsu, hsrc]
        rw [← hv, hw]
      · rw [if_neg hsu, if_pos ⟨hund, htg⟩, hsrc, hw]
/-! ## State evolution (monotone snapshots) -/

theorem devol_refl (st : DState) : DEvol st st :=
  ⟨⟨[], by simp⟩, fun id d2 h => ⟨d2, h, le_refl d2⟩,
   fun v _ => ⟨rfl, rfl⟩⟩

theorem devol_trans {a b c : DState} (h1 : DEvol a b) (h2 : DEvol b c) :
    DEvol a c := by
  obtain ⟨⟨e1, he1⟩, hd1, hf1⟩ := h1
  obtain ⟨⟨e2, he2⟩, hd2, hf2⟩ := h2
  refine ⟨⟨e1 ++ e2, by rw [he2, he1, List.append_assoc]⟩, ?_, ?_⟩
  · intro id d2 h
    obtain ⟨dm, hm, hle⟩ := hd2 id d2 h
    obtain ⟨d1, h1, hle1⟩ := hd1 id dm hm
    exact ⟨d1, h1, le_trans hle hle1⟩
  · intro v hv
    have hvb : v ∈ b.visited := by
      rw [he1]
      exact List.mem_append_left e1 hv
    obtain ⟨hda, hpa⟩ := hf1 v hv
    obtain ⟨hdb, hpb⟩ := hf2 v hvb
    exact ⟨hdb.trans hda, hpb.trans hpa⟩

/-- A state whose distances, predecessors and visited list agree with
another evolves exactly alike; the remaining components are free. -/
theorem devol_congr {a a' b b' : DState}
    (hda : a'.distances = a.distances) (hpa : a'.predecessors = a.predecessors)
    (hva : a'.visited = a.visited)
    (hdb : b'.distances = b.distances) (hpb : b'.predecessors = b.predecessors)
    (hvb : b'.visited = b.visited) (h : DEvol a b) : DEvol a' b' := by
  obtain ⟨⟨e1, he1⟩, hd, hf⟩ := h
  refine ⟨⟨e1, by rw [hvb, hva, he1]⟩, ?_, ?_⟩
  · intro id d2 hid
    rw [hdb] at hid
    rw [hda]
    exact hd id d2 hid
  · intro v hv
    rw [hva] at hv
    rw [hda, hpa, hdb, hpb]
    exact hf v hv

/-- Relaxing one unvisited node evolves the state. -/
theorem devol_relax {st : DState} {x : String} {dold dnew : ENum}
    (hx : x ∉ st.visited) (hold : jsGet st.distances x = some dold)
    (hle : dnew ≤ dold) (pv : Option String) (ns : List (String × NodeState))
    (es : List (String × EdgeState)) (pq : List PQEntry) :
    DEvol st ⟨jsSet st.distances x dnew, jsSet st.predecessors x pv,
      st.visited, ns, es, pq⟩ := by
  refine ⟨⟨[], by simp⟩, ?_, ?_⟩
  · intro id d2 h
    simp only [jsGet_jsSet] at h
    by_cases hid : id = x
    · rw [if_pos hid] at h
      refine ⟨dold, by rw [hid]; exact hold, ?_⟩
      obtain rfl : dnew = d2 := by
        simpa using h
      exact hle
    · rw [if_neg hid] at h
      exact ⟨d2, h, le_refl d2⟩
  · intro v hv
    have hvx : ¬ (v = x) := fun h => hx (h ▸ hv)
    rw [jsGet_jsSet, jsGet_jsSet, if_neg hvx, if_neg hvx]
    exact ⟨rfl, rfl⟩

/-- A change leaving distances, predecessors and visited intact evolves. -/
theorem devol_frame {st : DState} (ns : List (String × NodeState))
    (es : List (String × EdgeState)) (pq : List PQEntry) :
    DEvol st ⟨st.distances, st.predecessors, st.visited, ns, es, pq⟩ :=
  devol_congr rfl rfl rfl rfl rfl rfl (devol_refl st)

/-- Marking one more node visited evolves. -/
theorem devol_visit {st : DState} (x : String)
    (ns : List (String × NodeState)) (es : List (String × EdgeState))
    (pq : List PQEntry) :
    DEvol st ⟨st.distances, st.predecessors, jsAdd st.visited x, ns, es,
      pq⟩ := by
  refine ⟨?_, fun id d2 h => ⟨d2, h, le_refl d2⟩, fun v _ => ⟨rfl, rfl⟩⟩
  rcases jsAdd_append st.visited x with h | h
  · exact ⟨[], by simp [h]⟩
  · exact ⟨[x], h⟩
/-! ## Equation lemmas for the engine bodies -/

theorem processNeighbors_nil (g : Graph) (t : Option String) (cur : String)
    (st : DState) : processNeighbors g t cur [] st = ([], st) := rfl

theorem processNeighbors_vis {nb : NeighborRec} {st : DState} (g : Graph)
    (t : Option String) (cur : String) (rest : List NeighborRec)
    (hv : nb.nodeId ∈ st.visited) :
    processNeighbors g t cur (nb :: rest) st =
      processNeighbors g t cur rest st := by
  simp only [processNeighbors, if_pos hv]

theorem processNeighbors_relax {nb : NeighborRec} {st : DState} (g : Graph)
    (t : Option String) (cur : String) (rest : List NeighborRec)
    (hv : nb.nodeId ∉ st.visited)
    (hrel : optLt (dNewDist st cur nb)
      (jsGet st.distances nb.nodeId) = true) :
    processNeighbors g t cur (nb :: rest) st =
      (dExStep st cur nb :: dRelaxStep t st cur nb ::
        (processNeighbors g t cur rest (dRelaxSt2 t st cur nb)).1,
       (processNeighbors g t cur rest (dRelaxSt2 t st cur nb)).2) := by
  unfold dNewDist at hrel
  simp only [processNeighbors, if_neg hv, hrel, if_pos]
  simp only [dExStep, dRelaxStep, dRelaxSt2, dEInfo, dSt1, dNewDist, snap,
    hrel]

theorem processNeighbors_skip {nb : NeighborRec} {st : DState} (g : Graph)
    (t : Option String) (cur : String) (rest : List NeighborRec)
    (hv : nb.nodeId ∉ st.visited)
    (hrel : optLt (dNewDist st cur nb)
      (jsGet st.distances nb.nodeId) = false) :
    processNeighbors g t cur (nb :: rest) st =
      (dExStep st cur nb :: dSkipStep st cur nb ::
        (processNeighbors g t cur rest (dSkipSt3 st nb)).1,
       (processNeighbors g t cur rest (dSkipSt3 st nb)).2) := by
  unfold dNewDist at hrel
  simp only [processNeighbors, if_neg hv, hrel, Bool.false_eq_true,
    if_false]
  simp only [dExStep, dSkipStep, dSkipSt3, dEInfo, dSt1, dNewDist, snap,
    hrel]

theorem dijkstraLoop_zero (g : Graph) (s : String) (t : Option String)
    (st : DState) : dijkstraLoop g s t 0 st = [] := rfl

theorem dijkstraLoop_empty {st : DState} (g : Graph) (s : String)
    (t : Option String) (fuel : Nat) (hdq : dequeue st.pq = none) :
    dijkstraLoop g s t (fuel + 1) st = dTermSteps s t st := by
  simp only [dijkstraLoop, hdq, dTermSteps]

theorem dijkstraLoop_stale {st : DState} {c : String} {p : ENum}
    {pq' : List PQEntry} (g : Graph) (s : String) (t : Option String)
    (fuel : Nat) (hdq : dequeue st.pq = some ((c, p), pq'))
    (hv : c ∈ st.visited) :
    dijkstraLoop g s t (fuel + 1) st =
      dijkstraLoop g s t fuel { st with pq := pq' } := by
  simp only [dijkstraLoop, hdq, if_pos hv]

theorem dijkstraLoop_target {st : DState} {c : String} {p : ENum}
    {pq' : List PQEntry} (g : Graph) (s : String) (t : Option String)
    (fuel : Nat) (hdq : dequeue st.pq = some ((c, p), pq'))
    (hv : c ∉ st.visited) (ht : t = some c ∧ c ≠ "") :
    dijkstraLoop g s t (fuel + 1) st =
      [dSelStep s t { st with pq := pq' } c,
       dFoundStep g s t { st with pq := pq' } c] := by
  simp only [dijkstraLoop, hdq, if_neg hv, if_pos ht]
  simp only [dSelStep, dFoundStep, dTgtSt3, dLoopSt1, snap]

theorem dijkstraLoop_visit {st : DState} {c : String} {p : ENum}
    {pq' : List PQEntry} (g : Graph) (s : String) (t : Option String)
    (fuel : Nat) (hdq : dequeue st.pq = some ((c, p), pq'))
    (hv : c ∉ st.visited) (ht : ¬ (t = some c ∧ c ≠ "")) :
    dijkstraLoop g s t (fuel + 1) st =
      dSelStep s t { st with pq := pq' } c ::
      dMvStep s t { st with pq := pq' } c ::
      ((processNeighbors g t c (getNeighbors g c)
          (dLoopSt2 s t { st with pq := pq' } c)).1 ++
        dijkstraLoop g s t fuel (dLoopSt3 g s t { st with pq := pq' } c)) := by
  simp only [dijkstraLoop, hdq, if_neg hv, if_neg ht]
  simp only [dSelStep, dMvStep, dLoopSt1, dLoopSt2, dLoopSt3, snap]
/-! ## Monotone evolution of the Dijkstra engine -/

theorem optLt_some {a b : Option ENum} (h : optLt a b = true) :
    ∃ x y, a = some x ∧ b = some y ∧ x < y := by
  cases a with
  | none => simp [optLt] at h
  | some x =>
    cases b with
    | none => simp [optLt] at h
    | some y =>
      simp only [optLt, decide_eq_true_eq] at h
      exact ⟨x, y, rfl, rfl, h⟩

theorem optLt_false_le {x y : ENum}
    (h : optLt (some x) (some y) = false) : y ≤ x := by
  simp only [optLt, decide_eq_false_iff_not, not_lt] at h
  exact h

theorem processNeighbors_evol (g : Graph) (t : Option String) (cur : String)
    (ns : List NeighborRec) :
    ∀ st : DState,
      DEvol st (processNeighbors g t cur ns st).2 ∧
      (processNeighbors g t cur ns st).2.visited = st.visited ∧
      (∀ stp ∈ (processNeighbors g t cur ns st).1,
        DEvol st (stepDState stp) ∧
        DEvol (stepDState stp) (processNeighbors g t cur ns st).2) ∧
      List.Pairwise (fun a b => DEvol (stepDState a) (stepDState b))
        (processNeighbors g t cur ns st).1 := by
  induction ns with
  | nil =>
    intro st
    rw [processNeighbors_nil]
    exact ⟨devol_refl st, rfl, by simp, by simp⟩
  | cons nb rest ih =>
    intro st
    by_cases hv : nb.nodeId ∈ st.visited
    · rw [processNeighbors_vis g t cur rest hv]
      exact ih st
    · cases hrel : optLt (dNewDist st cur nb)
        (jsGet st.distances nb.nodeId) with
      | true =>
        rw [processNeighbors_relax g t cur rest hv hrel]
        have hev2 : DEvol st (dRelaxSt2 t st cur nb) := by
          obtain ⟨x, y, hx, hy, hxy⟩ := optLt_some hrel
          unfold dRelaxSt2
          rw [hx]
          simp only [Option.getD_some]
          exact devol_relax hv hy (le_of_lt hxy) _ _ _ _
        obtain ⟨ihev, ihvis, ihsteps, ihpw⟩ := ih (dRelaxSt2 t st cur nb)
        refine ⟨devol_trans hev2 ihev, by rw [ihvis]; rfl, ?_, ?_⟩
        · intro stp hstp
          rw [List.mem_cons, List.mem_cons] at hstp
          rcases hstp with rfl | rfl | hstp
          · exact ⟨devol_congr rfl rfl rfl rfl rfl rfl (devol_refl st),
              devol_congr rfl rfl rfl rfl rfl rfl (devol_trans hev2 ihev)⟩
          · exact ⟨devol_congr rfl rfl rfl rfl rfl rfl hev2,
              devol_congr rfl rfl rfl rfl rfl rfl ihev⟩
          · exact ⟨devol_trans hev2 (ihsteps stp hstp).1,
              (ihsteps stp hstp).2⟩
        · refine List.Pairwise.cons ?_ (List.Pairwise.cons ?_ ihpw)
          · intro stp hstp
            rw [List.mem_cons] at hstp
            rcases hstp with rfl | hstp
            · exact devol_congr rfl rfl rfl rfl rfl rfl hev2
            · exact devol_congr rfl rfl rfl rfl rfl rfl
                (devol_trans hev2 (ihsteps stp hstp).1)
          · intro stp hstp
            exact devol_congr rfl rfl rfl rfl rfl rfl (ihsteps stp hstp).1
      | false =>
        rw [processNeighbors_skip g t cur rest hv hrel]
        have hev3 : DEvol st (dSkipSt3 st nb) :=
          devol_congr rfl rfl rfl rfl rfl rfl (devol_refl st)
        obtain ⟨ihev, ihvis, ihsteps, ihpw⟩ := ih (dSkipSt3 st nb)
        refine ⟨devol_trans hev3 ihev, by rw [ihvis]; rfl, ?_, ?_⟩
        · intro stp hstp
          rw [List.mem_cons, List.mem_cons] at hstp
          rcases hstp with rfl | rfl | hstp
          · exact ⟨devol_congr rfl rfl rfl rfl rfl rfl (devol_refl st),
              devol_congr rfl rfl rfl rfl rfl rfl (devol_trans hev3 ihev)⟩
          · exact ⟨devol_congr rfl rfl rfl rfl rfl rfl (devol_refl st),
              devol_congr rfl rfl rfl rfl rfl rfl (devol_trans hev3 ihev)⟩
          · exact ⟨devol_trans hev3 (ihsteps stp hstp).1,
              (ihsteps stp hstp).2⟩
        · refine List.Pairwise.cons ?_ (List.Pairwise.cons ?_ ihpw)
          · intro stp hstp
            rw [List.mem_cons] at hstp
            rcases hstp with rfl | hstp
            · exact devol_congr rfl rfl rfl rfl rfl rfl (devol_refl st)
            · exact devol_congr rfl rfl rfl rfl rfl rfl
                (devol_trans hev3 (ihsteps stp hstp).1)
          · intro stp hstp
            exact devol_congr rfl rfl rfl rfl rfl rfl (ihsteps stp hstp).1
/-- The terminal emission is always a single step whose snapshot state
carries the final distances, predecessors and visited set (queue empty). -/
theorem dTermSteps_single (s : String) (t : Option String) (st : DState) :
    ∃ x, dTermSteps s t st = [x] ∧ stepDState x =
      ⟨st.distances, st.predecessors, st.visited, st.nodeStates,
        st.edgeStates, []⟩ ∧ x.type ≠ StepType.relaxEdge ∧
      x.type ≠ StepType.pathFound := by
  cases t with
  | none =>
    simp only [dTermSteps]
    exact ⟨_, rfl, rfl, by simp [snap], by simp [snap]⟩
  | some tv =>
    simp only [dTermSteps]
    by_cases hc : tv ≠ "" ∧ tv ∉ st.visited
    · rw [if_pos hc]
      exact ⟨_, rfl, rfl, by simp [snap], by simp [snap]⟩
    · rw [if_neg hc]
      exact ⟨_, rfl, rfl, by simp [snap], by simp [snap]⟩

theorem dijkstraLoop_evol (g : Graph) (s : String) (t : Option String)
    (fuel : Nat) :
    ∀ st : DState,
      (∀ stp ∈ dijkstraLoop g s t fuel st, DEvol st (stepDState stp)) ∧
      List.Pairwise (fun a b => DEvol (stepDState a) (stepDState b))
        (dijkstraLoop g s t fuel st) := by
  induction fuel with
  | zero =>
    intro st
    rw [dijkstraLoop_zero]
    exact ⟨by simp, by simp⟩
  | succ f ih =>
    intro st
    rcases hdq : dequeue st.pq with _ | ⟨⟨⟨c, p⟩, pq'⟩⟩
    · rw [dijkstraLoop_empty g s t f hdq]
      obtain ⟨x, hx, hxs, hxt, _⟩ := dTermSteps_single s t st
      rw [hx]
      constructor
      · intro stp hstp
        rw [List.mem_singleton] at hstp
        subst hstp
        rw [hxs]
        exact devol_frame _ _ _
      · simp
    · by_cases hv : c ∈ st.visited
      · rw [dijkstraLoop_stale g s t f hdq hv]
        obtain ⟨ihsteps, ihpw⟩ := ih { st with pq := pq' }
        refine ⟨?_, ihpw⟩
        intro stp hstp
        exact devol_congr rfl rfl rfl rfl rfl rfl (ihsteps stp hstp)
      · by_cases ht : t = some c ∧ c ≠ ""
        · rw [dijkstraLoop_target g s t f hdq hv ht]
          have hf : DEvol st (stepDState (dFoundStep g s t
              { st with pq := pq' } c)) := devol_visit c _ _ _
          constructor
          · intro stp hstp
            rw [List.mem_cons, List.mem_singleton] at hstp
            rcases hstp with rfl | rfl
            · exact devol_frame _ _ _
            · exact hf
          · refine List.Pairwise.cons ?_ (by simp)
            intro stp hstp
            rw [List.mem_singleton] at hstp
            subst hstp
            exact devol_congr rfl rfl rfl rfl rfl rfl hf
        · rw [dijkstraLoop_visit g s t f hdq hv ht]
          have hev02 : DEvol st (dLoopSt2 s t { st with pq := pq' } c) :=
            devol_visit c _ _ _
          obtain ⟨hpnev, hpnvis, hpnsteps, hpnpw⟩ :=
            processNeighbors_evol g t c (getNeighbors g c)
              (dLoopSt2 s t { st with pq := pq' } c)
          have hev23 : DEvol (dLoopSt2 s t { st with pq := pq' } c)
              (dLoopSt3 g s t { st with pq := pq' } c) :=
            devol_congr rfl rfl rfl rfl rfl rfl hpnev
          have hev03 : DEvol st (dLoopSt3 g s t { st with pq := pq' } c) :=
            devol_trans hev02 hev23
          have hpn2ev3 : DEvol (processNeighbors g t c (getNeighbors g c)
              (dLoopSt2 s t { st with pq := pq' } c)).2
              (dLoopSt3 g s t { st with pq := pq' } c) :=
            devol_congr rfl rfl rfl rfl rfl rfl (devol_refl _)
          obtain ⟨ihsteps, ihpw⟩ := ih (dLoopSt3 g s t { st with pq := pq' } c)
          constructor
          · intro stp hstp
            rw [List.mem_cons, List.mem_cons, List.mem_append] at hstp
            rcases hstp with rfl | rfl | hstp | hstp
            · exact devol_frame _ _ _
            · exact devol_congr rfl rfl rfl rfl rfl rfl hev02
            · exact devol_trans hev02 (hpnsteps stp hstp).1
            · exact devol_trans hev03 (ihsteps stp hstp)
          · refine List.Pairwise.cons ?_ (List.Pairwise.cons ?_ ?_)
            · intro stp hstp
              rw [List.mem_cons, List.mem_append] at hstp
              rcases hstp with rfl | hstp | hstp
              · exact devol_congr rfl rfl rfl rfl rfl rfl hev02
              · exact devol_congr rfl rfl rfl rfl rfl rfl
                  (devol_trans hev02 (hpnsteps stp hstp).1)
              · exact devol_congr rfl rfl rfl rfl rfl rfl
                  (devol_trans hev03 (ihsteps stp hstp))
            · intro stp hstp
              rw [List.mem_append] at hstp
              rcases hstp with hstp | hstp
              · exact devol_congr rfl rfl rfl rfl rfl rfl
                  (hpnsteps stp hstp).1
              · exact devol_congr rfl rfl rfl rfl rfl rfl
                  (devol_trans hev23 (ihsteps stp hstp))
            · rw [List.pairwise_append]
              refine ⟨hpnpw, ihpw, ?_⟩
              intro x hx y hy
              exact devol_trans (hpnsteps x hx).2
                (devol_trans hpn2ev3 (ihsteps y hy))
/-! ## Equation lemmas for the A* engine body -/

theorem aProcessNeighbors_nil (g : Graph) (h : Node → Node → ℤ)
    (tNode : Node) (tId cur : String) (st : AState) :
    aProcessNeighbors g h tNode tId cur [] st = ([], st) := rfl

theorem aProcessNeighbors_vis {nb : NeighborRec} {st : AState} (g : Graph)
    (h : Node → Node → ℤ) (tNode : Node) (tId cur : String)
    (rest : List NeighborRec) (hv : nb.nodeId ∈ st.visited) :
    aProcessNeighbors g h tNode tId cur (nb :: rest) st =
      aProcessNeighbors g h tNode tId cur rest st := by
  simp only [aProcessNeighbors, if_pos hv]

theorem aProcessNeighbors_relax {nb : NeighborRec} {st : AState} (g : Graph)
    (h : Node → Node → ℤ) (tNode : Node) (tId cur : String)
    (rest : List NeighborRec) (hv : nb.nodeId ∉ st.visited)
    (hrel : optLt (aNewDist st cur nb)
      (jsGet st.gScore nb.nodeId) = true) :
    aProcessNeighbors g h tNode tId cur (nb :: rest) st =
      (aExStep st cur nb :: aRelaxStep g h tNode tId st cur nb ::
        (aProcessNeighbors g h tNode tId cur rest
          (aRelaxSt2 g h tNode tId st cur nb)).1,
       (aProcessNeighbors g h tNode tId cur rest
          (aRelaxSt2 g h tNode tId st cur nb)).2) := by
  unfold aNewDist at hrel
  simp only [aProcessNeighbors, if_neg hv, hrel, if_pos]
  simp only [aExStep, aRelaxStep, aRelaxSt2, aEInfo, aSt1, aNewDist, aTg,
    aF, snapA, hrel]

theorem aProcessNeighbors_skip {nb : NeighborRec} {st : AState} (g : Graph)
    (h : Node → Node → ℤ) (tNode : Node) (tId cur : String)
    (rest : List NeighborRec) (hv : nb.nodeId ∉ st.visited)
    (hrel : optLt (aNewDist st cur nb)
      (jsGet st.gScore nb.nodeId) = false) :
    aProcessNeighbors g h tNode tId cur (nb :: rest) st =
      (aExStep st cur nb :: aSkipStep st cur nb ::
        (aProcessNeighbors g h tNode tId cur rest (aSkipSt3 st nb)).1,
       (aProcessNeighbors g h tNode tId cur rest (aSkipSt3 st nb)).2) := by
  unfold aNewDist at hrel
  simp only [aProcessNeighbors, if_neg hv, hrel, Bool.false_eq_true,
    if_false]
  simp only [aExStep, aSkipStep, aSkipSt3, aEInfo, aSt1, aNewDist, snapA,
    hrel]

theorem astarLoop_zero (g : Graph) (h : Node → Node → ℤ) (s : String)
    (tNode : Node) (tId : String) (st : AState) :
    astarLoop g h s tNode tId 0 st = [] := rfl

theorem astarLoop_empty {st : AState} (g : Graph) (h : Node → Node → ℤ)
    (s : String) (tNode : Node) (tId : String) (fuel : Nat)
    (hdq : dequeue st.openSet = none) :
    astarLoop g h s tNode tId (fuel + 1) st = [aNoPathStep s tId st] := by
  simp only [astarLoop, hdq, aNoPathStep]

theorem astarLoop_stale {st : AState} {c : String} {p : ENum}
    {pq' : List PQEntry} (g : Graph) (h : Node → Node → ℤ) (s : String)
    (tNode : Node) (tId : String) (fuel : Nat)
    (hdq : dequeue st.openSet = some ((c, p), pq'))
    (hv : c ∈ st.visited) :
    astarLoop g h s tNode tId (fuel + 1) st =
      astarLoop g h s tNode tId fuel (aLoopSt0 st c pq') := by
  simp only [astarLoop, hdq, if_pos hv, aLoopSt0]

theorem astarLoop_target {st : AState} {c : String} {p : ENum}
    {pq' : List PQEntry} (g : Graph) (h : Node → Node → ℤ) (s : String)
    (tNode : Node) (tId : String) (fuel : Nat)
    (hdq : dequeue st.openSet = some ((c, p), pq'))
    (hv : c ∉ st.visited) (ht : c = tId) :
    astarLoop g h s tNode tId (fuel + 1) st =
      [aSelStep s tId (aLoopSt0 st c pq') c,
       aFoundStep g s tId (aLoopSt0 st c pq') c] := by
  subst ht
  simp only [astarLoop, hdq, if_neg hv, if_pos rfl]
  simp only [aSelStep, aFoundStep, aTgtSt2, aLoopSt1, aLoopSt0, snapA]
  rw [if_pos trivial]

theorem astarLoop_visit {st : AState} {c : String} {p : ENum}
    {pq' : List PQEntry} (g : Graph) (h : Node → Node → ℤ) (s : String)
    (tNode : Node) (tId : String) (fuel : Nat)
    (hdq : dequeue st.openSet = some ((c, p), pq'))
    (hv : c ∉ st.visited) (ht : ¬ c = tId) :
    astarLoop g h s tNode tId (fuel + 1) st =
      aSelStep s tId (aLoopSt0 st c pq') c ::
      ((aProcessNeighbors g h tNode tId c (getNeighbors g c)
          (aLoopSt2 s tId (aLoopSt0 st c pq') c)).1 ++
        astarLoop g h s tNode tId fuel
          (aLoopSt3 g h tNode s tId (aLoopSt0 st c pq') c)) := by
  simp only [astarLoop, hdq, if_neg hv, if_neg ht]
  simp only [aSelStep, aLoopSt1, aLoopSt2, aLoopSt3, aLoopSt0, snapA]
/-! ## Monotone evolution of the A* engine -/

theorem aProcessNeighbors_evol (g : Graph) (h : Node → Node → ℤ)
    (tNode : Node) (tId cur : String) (ns : List NeighborRec) :
    ∀ st : AState,
      DEvol (aStateD st)
        (aStateD (aProcessNeighbors g h tNode tId cur ns st).2) ∧
      (aProcessNeighbors g h tNode tId cur ns st).2.visited = st.visited ∧
      (∀ stp ∈ (aProcessNeighbors g h tNode tId cur ns st).1,
        DEvol (aStateD st) (stepDState stp) ∧
        DEvol (stepDState stp)
          (aStateD (aProcessNeighbors g h tNode tId cur ns st).2)) ∧
      List.Pairwise (fun a b => DEvol (stepDState a) (stepDState b))
        (aProcessNeighbors g h tNode tId cur ns st).1 := by
  induction ns with
  | nil =>
    intro st
    rw [aProcessNeighbors_nil]
    exact ⟨devol_refl _, rfl, by simp, by simp⟩
  | cons nb rest ih =>
    intro st
    by_cases hv : nb.nodeId ∈ st.visited
    · rw [aProcessNeighbors_vis g h tNode tId cur rest hv]
      exact ih st
    · cases hrel : optLt (aNewDist st cur nb)
        (jsGet st.gScore nb.nodeId) with
      | true =>
        rw [aProcessNeighbors_relax g h tNode tId cur rest hv hrel]
        have hev2 : DEvol (aStateD st)
            (aStateD (aRelaxSt2 g h tNode tId st cur nb)) := by
          obtain ⟨x, y, hx, hy, hxy⟩ := optLt_some hrel
          unfold aStateD aRelaxSt2 aTg
          rw [hx]
          simp only [Option.getD_some]
          exact devol_relax hv hy (le_of_lt hxy) _ _ _ _
        obtain ⟨ihev, ihvis, ihsteps, ihpw⟩ :=
          ih (aRelaxSt2 g h tNode tId st cur nb)
        refine ⟨devol_trans hev2 ihev, by rw [ihvis]; rfl, ?_, ?_⟩
        · intro stp hstp
          rw [List.mem_cons, List.mem_cons] at hstp
          rcases hstp with rfl | rfl | hstp
          · exact ⟨devol_congr rfl rfl rfl rfl rfl rfl (devol_refl _),
              devol_congr rfl rfl rfl rfl rfl rfl (devol_trans hev2 ihev)⟩
          · exact ⟨devol_congr rfl rfl rfl rfl rfl rfl hev2,
              devol_congr rfl rfl rfl rfl rfl rfl ihev⟩
          · exact ⟨devol_trans hev2 (ihsteps stp hstp).1,
              (ihsteps stp hstp).2⟩
        · refine List.Pairwise.cons ?_ (List.Pairwise.cons ?_ ihpw)
          · intro stp hstp
            rw [List.mem_cons] at hstp
            rcases hstp with rfl | hstp
            · exact devol_congr rfl rfl rfl rfl rfl rfl hev2
            · exact devol_congr rfl rfl rfl rfl rfl rfl
                (devol_trans hev2 (ihsteps stp hstp).1)
          · intro stp hstp
            exact devol_congr rfl rfl rfl rfl rfl rfl (ihsteps stp hstp).1
      | false =>
        rw [aProcessNeighbors_skip g h tNode tId cur rest hv hrel]
        have hev3 : DEvol (aStateD st) (aStateD (aSkipSt3 st nb)) :=
          devol_congr rfl rfl rfl rfl rfl rfl (devol_refl _)
        obtain ⟨ihev, ihvis, ihsteps, ihpw⟩ := ih (aSkipSt3 st nb)
        refine ⟨devol_trans hev3 ihev, by rw [ihvis]; rfl, ?_, ?_⟩
        · intro stp hstp
          rw [List.mem_cons, List.mem_cons] at hstp
          rcases hstp with rfl | rfl | hstp
          · exact ⟨devol_congr rfl rfl rfl rfl rfl rfl (devol_refl _),
              devol_congr rfl rfl rfl rfl rfl rfl (devol_trans hev3 ihev)⟩
          · exact ⟨devol_congr rfl rfl rfl rfl rfl rfl (devol_refl _),
              devol_congr rfl rfl rfl rfl rfl rfl (devol_trans hev3 ihev)⟩
          · exact ⟨devol_trans hev3 (ihsteps stp hstp).1,
              (ihsteps stp hstp).2⟩
        · refine List.Pairwise.cons ?_ (List.Pairwise.cons ?_ ihpw)
          · intro stp hstp
            rw [List.mem_cons] at hstp
            rcases hstp with rfl | hstp
            · exact devol_congr rfl rfl rfl rfl rfl rfl (devol_refl _)
            · exact devol_congr rfl rfl rfl rfl rfl rfl
                (devol_trans hev3 (ihsteps stp hstp).1)
          · intro stp hstp
            exact devol_congr rfl rfl rfl rfl rfl rfl (ihsteps stp hstp).1

theorem astarLoop_evol (g : Graph) (h : Node → Node → ℤ) (s : String)
    (tNode : Node) (tId : String) (fuel : Nat) :
    ∀ st : AState,
      (∀ stp ∈ astarLoop g h s tNode tId fuel st,
        DEvol (aStateD st) (stepDState stp)) ∧
      List.Pairwise (fun a b => DEvol (stepDState a) (stepDState b))
        (astarLoop g h s tNode tId fuel st) := by
  induction fuel with
  | zero =>
    intro st
    rw [astarLoop_zero]
    exact ⟨by simp, by simp⟩
  | succ f ih =>
    intro st
    rcases hdq : dequeue st.openSet with _ | ⟨⟨⟨c, p⟩, pq'⟩⟩
    · rw [astarLoop_empty g h s tNode tId f hdq]
      constructor
      · intro stp hstp
        rw [List.mem_singleton] at hstp
        subst hstp
        exact devol_frame _ _ _
      · simp
    · by_cases hv : c ∈ st.visited
      · rw [astarLoop_stale g h s tNode tId f hdq hv]
        obtain ⟨ihsteps, ihpw⟩ := ih (aLoopSt0 st c pq')
        refine ⟨?_, ihpw⟩
        intro stp hstp
        exact devol_congr rfl rfl rfl rfl rfl rfl (ihsteps stp hstp)
      · by_cases ht : c = tId
        · rw [astarLoop_target g h s tNode tId f hdq hv ht]
          constructor
          · intro stp hstp
            rw [List.mem_cons, List.mem_singleton] at hstp
            rcases hstp with rfl | rfl
            · exact devol_frame _ _ _
            · exact devol_frame _ _ _
          · refine List.Pairwise.cons ?_ (by simp)
            intro stp hstp
            rw [List.mem_singleton] at hstp
            subst hstp
            exact devol_congr rfl rfl rfl rfl rfl rfl (devol_refl _)
        · rw [astarLoop_visit g h s tNode tId f hdq hv ht]
          have hev02 : DEvol (aStateD st)
              (aStateD (aLoopSt2 s tId (aLoopSt0 st c pq') c)) :=
            devol_visit c _ _ _
          obtain ⟨hpnev, hpnvis, hpnsteps, hpnpw⟩ :=
            aProcessNeighbors_evol g h tNode tId c (getNeighbors g c)
              (aLoopSt2 s tId (aLoopSt0 st c pq') c)
          have hev23 : DEvol (aStateD (aLoopSt2 s tId (aLoopSt0 st c pq') c))
              (aStateD (aLoopSt3 g h tNode s tId (aLoopSt0 st c pq') c)) :=
            devol_congr rfl rfl rfl rfl rfl rfl hpnev
          have hev03 : DEvol (aStateD st)
              (aStateD (aLoopSt3 g h tNode s tId (aLoopSt0 st c pq') c)) :=
            devol_trans hev02 hev23
          have hpn2ev3 : DEvol
              (aStateD (aProcessNeighbors g h tNode tId c (getNeighbors g c)
                (aLoopSt2 s tId (aLoopSt0 st c pq') c)).2)
              (aStateD (aLoopSt3 g h tNode s tId (aLoopSt0 st c pq') c)) :=
            devol_congr rfl rfl rfl rfl rfl rfl (devol_refl _)
          obtain ⟨ihsteps, ihpw⟩ :=
            ih (aLoopSt3 g h tNode s tId (aLoopSt0 st c pq') c)
          constructor
          · intro stp hstp
            rw [List.mem_cons, List.mem_append] at hstp
            rcases hstp with rfl | hstp | hstp
            · exact devol_frame _ _ _
            · exact devol_trans hev02 (hpnsteps stp hstp).1
            · exact devol_trans hev03 (ihsteps stp hstp)
          · refine List.Pairwise.cons ?_ ?_
            · intro stp hstp
              rw [List.mem_append] at hstp
              rcases hstp with hstp | hstp
              · exact devol_congr rfl rfl rfl rfl rfl rfl
                  (devol_trans hev02 (hpnsteps stp hstp).1)
              · exact devol_congr rfl rfl rfl rfl rfl rfl
                  (devol_trans hev03 (ihsteps stp hstp))
            · rw [List.pairwise_append]
              refine ⟨hpnpw, ihpw, ?_⟩
              intro x hx y hy
              exact devol_trans (hpnsteps x hx).2
                (devol_trans hpn2ev3 (ihsteps y hy))
/-- Snapshot evolution implies the monotonicity relation of claim C10. -/
theorem devol_stepsMono {a b : Step}
    (h : DEvol (stepDState a) (stepDState b)) : StepsMono a b := by
  obtain ⟨⟨ext, hext⟩, hd, _⟩ := h
  constructor
  · intro v hv
    have : b.visited = a.visited ++ ext := hext
    rw [this]
    exact List.mem_append_left ext hv
  · exact hd

/-! ## Claim C10: snapshot monotonicity of both engines -/

/-- C10: in every step sequence emitted by either engine, the snapshots are
monotone run-wide: any earlier step's visited set is contained in any later
step's visited set, and no recorded distance ever increases from an earlier
to a later step. -/
theorem snapshots_monotone (g : Graph) (s : String) (t : Option String)
    (t2 : String) (h : Node → Node → ℤ) :
    List.Pairwise StepsMono (generateDijkstraSteps g s t) ∧
    List.Pairwise StepsMono (generateAStarSteps g s t2 h).1 := by
  constructor
  · unfold generateDijkstraSteps
    obtain ⟨hsteps, hpw⟩ :=
      dijkstraLoop_evol g s t (dijkstraFuel g) (dijkstraInit g s t)
    refine List.Pairwise.cons ?_ (hpw.imp devol_stepsMono)
    intro stp hstp
    exact devol_stepsMono
      (devol_congr rfl rfl rfl rfl rfl rfl (hsteps stp hstp))
  · unfold generateAStarSteps
    rcases htl : jsGet g.nodes t2 with _ | tNode
    · simp
    · rcases hsl : jsGet g.nodes s with _ | sNode
      · simp
      · obtain ⟨hsteps, hpw⟩ := astarLoop_evol g h s tNode t2
          (dijkstraFuel g) (astarInit g s t2 (h sNode tNode))
        refine List.Pairwise.cons ?_ (hpw.imp devol_stepsMono)
        intro stp hstp
        exact devol_stepsMono
          (devol_congr rfl rfl rfl rfl rfl rfl (hsteps stp hstp))
/-! ## Claim C3: relaxation push discipline -/

theorem multiset_enqueue (l : List PQEntry) (x : String) (p : ENum) :
    Multiset.ofList (enqueue l x p) = (x, p) ::ₘ Multiset.ofList l := by
  have h := enqueue_perm l x p
  calc Multiset.ofList (enqueue l x p)
      = Multiset.ofList ((x, p) :: l) := Multiset.coe_eq_coe.mpr h
    _ = (x, p) ::ₘ Multiset.ofList l := (Multiset.cons_coe _ _).symm

theorem processNeighbors_chainD (g : Graph) (t : Option String)
    (cur : String) (ns : List NeighborRec) :
    ∀ st : DState,
      List.Chain' RelaxPushD (processNeighbors g t cur ns st).1 ∧
      ∀ b ∈ (processNeighbors g t cur ns st).1.head?,
        b.type ≠ StepType.relaxEdge := by
  induction ns with
  | nil =>
    intro st
    rw [processNeighbors_nil]
    exact ⟨List.chain'_nil, by simp⟩
  | cons nb rest ih =>
    intro st
    by_cases hv : nb.nodeId ∈ st.visited
    · rw [processNeighbors_vis g t cur rest hv]
      exact ih st
    · cases hrel : optLt (dNewDist st cur nb)
        (jsGet st.distances nb.nodeId) with
      | true =>
        rw [processNeighbors_relax g t cur rest hv hrel]
        obtain ⟨ihch, ihhd⟩ := ih (dRelaxSt2 t st cur nb)
        obtain ⟨x, y, hx, hy, hxy⟩ := optLt_some hrel
        constructor
        · rw [List.chain'_cons]
          constructor
          · intro _
            refine ⟨rfl, dEInfo st cur nb, rfl, ?_, x, ?_, ?_⟩
            · simp only [dEInfo, hrel]
            · simp only [dEInfo]
              exact hx
            · have hq : (dRelaxStep t st cur nb).queue =
                  enqueue st.pq nb.nodeId x := by
                simp only [dRelaxStep, snap, dRelaxSt2, hx,
                  Option.getD_some]
              rw [hq]
              have htn : (dEInfo st cur nb).toNode = nb.nodeId := rfl
              rw [htn]
              exact multiset_enqueue st.pq nb.nodeId x
          · rw [List.chain'_cons']
            refine ⟨?_, ihch⟩
            intro y2 hy2 hrel2
            exact absurd hrel2 (ihhd y2 hy2)
        · intro b hb
          rw [List.head?_cons, Option.mem_some_iff] at hb
          subst hb
          intro hcon
          exact absurd hcon (by simp [dExStep, snap])
      | false =>
        rw [processNeighbors_skip g t cur rest hv hrel]
        obtain ⟨ihch, ihhd⟩ := ih (dSkipSt3 st nb)
        constructor
        · rw [List.chain'_cons]
          constructor
          · intro hcon
            exact absurd hcon (by simp [dSkipStep, snap])
          · rw [List.chain'_cons']
            refine ⟨?_, ihch⟩
            intro y2 hy2 hrel2
            exact absurd hrel2 (ihhd y2 hy2)
        · intro b hb
          rw [List.head?_cons, Option.mem_some_iff] at hb
          subst hb
          intro hcon
          exact absurd hcon (by simp [dExStep, snap])

theorem dijkstraLoop_chainD (g : Graph) (s : String) (t : Option String)
    (fuel : Nat) :
    ∀ st : DState,
      List.Chain' RelaxPushD (dijkstraLoop g s t fuel st) ∧
      ∀ b ∈ (dijkstraLoop g s t fuel st).head?,
        b.type ≠ StepType.relaxEdge := by
  induction fuel with
  | zero =>
    intro st
    rw [dijkstraLoop_zero]
    exact ⟨List.chain'_nil, by simp⟩
  | succ f ih =>
    intro st
    rcases hdq : dequeue st.pq with _ | ⟨⟨⟨c, p⟩, pq'⟩⟩
    · rw [dijkstraLoop_empty g s t f hdq]
      obtain ⟨x, hx, hxs, hxt, _⟩ := dTermSteps_single s t st
      rw [hx]
      refine ⟨List.chain'_singleton x, ?_⟩
      intro b hb
      rw [List.head?_cons, Option.mem_some_iff] at hb
      subst hb
      exact hxt
    · by_cases hv : c ∈ st.visited
      · rw [dijkstraLoop_stale g s t f hdq hv]
        exact ih { st with pq := pq' }
      · by_cases ht : t = some c ∧ c ≠ ""
        · rw [dijkstraLoop_target g s t f hdq hv ht]
          constructor
          · rw [List.chain'_cons]
            refine ⟨?_, List.chain'_singleton _⟩
            intro hcon
            exact absurd hcon (by simp [dFoundStep, snap])
          · intro b hb
            rw [List.head?_cons, Option.mem_some_iff] at hb
            subst hb
            intro hcon
            exact absurd hcon (by simp [dSelStep, snap])
        · rw [dijkstraLoop_visit g s t f hdq hv ht]
          obtain ⟨pnch, pnhd⟩ := processNeighbors_chainD g t c
            (getNeighbors g c) (dLoopSt2 s t { st with pq := pq' } c)
          obtain ⟨ihch, ihhd⟩ := ih (dLoopSt3 g s t { st with pq := pq' } c)
          constructor
          · rw [List.chain'_cons]
            constructor
            · intro hcon
              exact absurd hcon (by simp [dMvStep, snap])
            · rw [List.chain'_cons']
              constructor
              · intro y2 hy2 hrel2
                rcases hpn : (processNeighbors g t c (getNeighbors g c)
                    (dLoopSt2 s t { st with pq := pq' } c)).1 with _ | ⟨a, l⟩
                · rw [hpn, List.nil_append] at hy2
                  exact absurd hrel2 (ihhd y2 hy2)
                · rw [hpn, List.cons_append, List.head?_cons,
                    Option.mem_some_iff] at hy2
                  subst hy2
                  refine absurd hrel2 (pnhd a ?_)
                  rw [hpn, List.head?_cons]
                  rfl
              · rw [List.chain'_append]
                refine ⟨pnch, ihch, ?_⟩
                intro x2 hx2 y2 hy2 hrel2
                exact absurd hrel2 (ihhd y2 hy2)
          · intro b hb
            rw [List.head?_cons, Option.mem_some_iff] at hb
            subst hb
            intro hcon
            exact absurd hcon (by simp [dSelStep, snap])
theorem mem_jsErase {s : List String} {x y : String} :
    y ∈ jsErase s x ↔ y ∈ s ∧ y ≠ x := by
  simp [jsErase]

theorem aq_pop {st : AState} {c : String} {p : ENum} {pq' : List PQEntry}
    (hq : AQ st) (hdq : dequeue st.openSet = some ((c, p), pq')) :
    AQ (aLoopSt0 st c pq') := by
  have hperm := dequeue_perm hdq
  have hmap : List.Perm (st.openSet.map Prod.fst)
      (c :: pq'.map Prod.fst) := by
    simpa using hperm.map Prod.fst
  have hnd : (c :: pq'.map Prod.fst).Nodup := (hmap.nodup_iff).mp hq.nodup
  have hcnot : c ∉ pq'.map Prod.fst := (List.nodup_cons.mp hnd).1
  constructor
  · intro x
    show x ∈ jsErase st.inOpenSet c ↔ x ∈ pq'.map Prod.fst
    rw [mem_jsErase, hq.mem x, hmap.mem_iff]
    constructor
    · rintro ⟨hx, hne⟩
      rcases List.mem_cons.mp hx with rfl | hx2
      · exact absurd rfl hne
      · exact hx2
    · intro hx
      refine ⟨List.mem_cons_of_mem c hx, ?_⟩
      intro hxc
      exact hcnot (hxc ▸ hx)
  · exact (List.nodup_cons.mp hnd).2

theorem aq_relax {st : AState} (g : Graph) (h : Node → Node → ℤ)
    (tNode : Node) (tId cur : String) (nb : NeighborRec) (hq : AQ st) :
    AQ (aRelaxSt2 g h tNode tId st cur nb) := by
  by_cases hin : nb.nodeId ∈ st.inOpenSet
  · constructor
    · intro x
      show x ∈ (if nb.nodeId ∈ st.inOpenSet then st.inOpenSet
          else jsAdd st.inOpenSet nb.nodeId) ↔
        x ∈ (if nb.nodeId ∈ st.inOpenSet then st.openSet
          else enqueue st.openSet nb.nodeId
            (aF g h tNode st cur nb)).map Prod.fst
      rw [if_pos hin, if_pos hin]
      exact hq.mem x
    · show ((if nb.nodeId ∈ st.inOpenSet then st.openSet
        else enqueue st.openSet nb.nodeId
          (aF g h tNode st cur nb)).map Prod.fst).Nodup
      rw [if_pos hin]
      exact hq.nodup
  · have hmap : List.Perm ((enqueue st.openSet nb.nodeId
        (aF g h tNode st cur nb)).map Prod.fst)
        (nb.nodeId :: st.openSet.map Prod.fst) := by
      simpa using (enqueue_perm st.openSet nb.nodeId
        (aF g h tNode st cur nb)).map Prod.fst
    have hnotq : nb.nodeId ∉ st.openSet.map Prod.fst := by
      intro hcon
      exact hin ((hq.mem nb.nodeId).mpr hcon)
    constructor
    · intro x
      show x ∈ (if nb.nodeId ∈ st.inOpenSet then st.inOpenSet
          else jsAdd st.inOpenSet nb.nodeId) ↔
        x ∈ (if nb.nodeId ∈ st.inOpenSet then st.openSet
          else enqueue st.openSet nb.nodeId
            (aF g h tNode st cur nb)).map Prod.fst
      rw [if_neg hin, if_neg hin, hmap.mem_iff, mem_jsAdd, hq.mem x,
        List.mem_cons]
      tauto
    · show ((if nb.nodeId ∈ st.inOpenSet then st.openSet
        else enqueue st.openSet nb.nodeId
          (aF g h tNode st cur nb)).map Prod.fst).Nodup
      rw [if_neg hin, hmap.nodup_iff]
      exact List.nodup_cons.mpr ⟨hnotq, hq.nodup⟩

theorem aProcessNeighbors_chainA (g : Graph) (h : Node → Node → ℤ)
    (tNode : Node) (tId cur : String) (ns : List NeighborRec) :
    ∀ st : AState, AQ st →
      List.Chain' RelaxPushA
        (aProcessNeighbors g h tNode tId cur ns st).1 ∧
      (∀ b ∈ (aProcessNeighbors g h tNode tId cur ns st).1.head?,
        b.type ≠ StepType.relaxEdge) ∧
      AQ (aProcessNeighbors g h tNode tId cur ns st).2 := by
  induction ns with
  | nil =>
    intro st hq
    rw [aProcessNeighbors_nil]
    exact ⟨List.chain'_nil, by simp, hq⟩
  | cons nb rest ih =>
    intro st hq
    by_cases hv : nb.nodeId ∈ st.visited
    · rw [aProcessNeighbors_vis g h tNode tId cur rest hv]
      exact ih st hq
    · cases hrel : optLt (aNewDist st cur nb)
        (jsGet st.gScore nb.nodeId) with
      | true =>
        rw [aProcessNeighbors_relax g h tNode tId cur rest hv hrel]
        have hq2 : AQ (aRelaxSt2 g h tNode tId st cur nb) :=
          aq_relax g h tNode tId cur nb hq
        obtain ⟨ihch, ihhd, ihq⟩ :=
          ih (aRelaxSt2 g h tNode tId st cur nb) hq2
        refine ⟨?_, ?_, ihq⟩
        · rw [List.chain'_cons]
          constructor
          · intro _
            refine ⟨rfl, { aEInfo st cur nb with wasRelaxed := true },
              rfl, rfl, ?_⟩
            by_cases hin : nb.nodeId ∈ st.inOpenSet
            · left
              constructor
              · show nb.nodeId ∈ (st.openSet.map Prod.fst)
                exact (hq.mem nb.nodeId).mp hin
              · show (aRelaxSt2 g h tNode tId st cur nb).openSet =
                  st.openSet
                show (if nb.nodeId ∈ st.inOpenSet then st.openSet
                  else enqueue st.openSet nb.nodeId
                    (aF g h tNode st cur nb)) = st.openSet
                rw [if_pos hin]
            · right
              constructor
              · show nb.nodeId ∉ (st.openSet.map Prod.fst)
                intro hcon
                exact hin ((hq.mem nb.nodeId).mpr hcon)
              · refine ⟨aF g h tNode st cur nb, ?_⟩
                show Multiset.ofList (if nb.nodeId ∈ st.inOpenSet then
                    st.openSet
                  else enqueue st.openSet nb.nodeId
                    (aF g h tNode st cur nb)) =
                  (nb.nodeId, aF g h tNode st cur nb) ::ₘ
                    Multiset.ofList st.openSet
                rw [if_neg hin]
                exact multiset_enqueue st.openSet nb.nodeId
                  (aF g h tNode st cur nb)
          · rw [List.chain'_cons']
            refine ⟨?_, ihch⟩
            intro y2 hy2 hrel2
            exact absurd hrel2 (ihhd y2 hy2)
        · intro b hb
          rw [List.head?_cons, Option.mem_some_iff] at hb
          subst hb
          intro hcon
          exact absurd hcon (by simp [aExStep, snapA])
      | false =>
        rw [aProcessNeighbors_skip g h tNode tId cur rest hv hrel]
        have hq3 : AQ (aSkipSt3 st nb) := ⟨hq.mem, hq.nodup⟩
        obtain ⟨ihch, ihhd, ihq⟩ := ih (aSkipSt3 st nb) hq3
        refine ⟨?_, ?_, ihq⟩
        · rw [List.chain'_cons]
          constructor
          · intro hcon
            exact absurd hcon (by simp [aSkipStep, snapA])
          · rw [List.chain'_cons']
            refine ⟨?_, ihch⟩
            intro y2 hy2 hrel2
            exact absurd hrel2 (ihhd y2 hy2)
        · intro b hb
          rw [List.head?_cons, Option.mem_some_iff] at hb
          subst hb
          intro hcon
          exact absurd hcon (by simp [aExStep, snapA])

theorem astarLoop_chainA (g : Graph) (h : Node → Node → ℤ) (s : String)
    (tNode : Node) (tId : String) (fuel : Nat) :
    ∀ st : AState, AQ st →
      List.Chain' RelaxPushA (astarLoop g h s tNode tId fuel st) ∧
      ∀ b ∈ (astarLoop g h s tNode tId fuel st).head?,
        b.type ≠ StepType.relaxEdge := by
  induction fuel with
  | zero =>
    intro st _
    rw [astarLoop_zero]
    exact ⟨List.chain'_nil, by simp⟩
  | succ f ih =>
    intro st hq
    rcases hdq : dequeue st.openSet with _ | ⟨⟨⟨c, p⟩, pq'⟩⟩
    · rw [astarLoop_empty g h s tNode tId f hdq]
      refine ⟨List.chain'_singleton _, ?_⟩
      intro b hb
      rw [List.head?_cons, Option.mem_some_iff] at hb
      subst hb
      intro hcon
      exact absurd hcon (by simp [aNoPathStep, snapA])
    · have hq0 : AQ (aLoopSt0 st c pq') := aq_pop hq hdq
      by_cases hv : c ∈ st.visited
      · rw [astarLoop_stale g h s tNode tId f hdq hv]
        exact ih (aLoopSt0 st c pq') hq0
      · by_cases ht : c = tId
        · rw [astarLoop_target g h s tNode tId f hdq hv ht]
          constructor
          · rw [List.chain'_cons]
            refine ⟨?_, List.chain'_singleton _⟩
            intro hcon
            exact absurd hcon (by simp [aFoundStep, snapA])
          · intro b hb
            rw [List.head?_cons, Option.mem_some_iff] at hb
            subst hb
            intro hcon
            exact absurd hcon (by simp [aSelStep, snapA])
        · rw [astarLoop_visit g h s tNode tId f hdq hv ht]
          have hq2 : AQ (aLoopSt2 s tId (aLoopSt0 st c pq') c) :=
            ⟨hq0.mem, hq0.nodup⟩
          obtain ⟨pnch, pnhd, pnq⟩ := aProcessNeighbors_chainA g h tNode
            tId c (getNeighbors g c) (aLoopSt2 s tId (aLoopSt0 st c pq') c)
            hq2
          have hq3 : AQ (aLoopSt3 g h tNode s tId (aLoopSt0 st c pq') c) :=
            ⟨pnq.mem, pnq.nodup⟩
          obtain ⟨ihch, ihhd⟩ :=
            ih (aLoopSt3 g h tNode s tId (aLoopSt0 st c pq') c) hq3
          constructor
          · rw [List.chain'_cons']
            constructor
            · intro y2 hy2 hrel2
              rcases hpn : (aProcessNeighbors g h tNode tId c
                  (getNeighbors g c)
                  (aLoopSt2 s tId (aLoopSt0 st c pq') c)).1 with _ | ⟨a, l⟩
              · rw [hpn, List.nil_append] at hy2
                exact absurd hrel2 (ihhd y2 hy2)
              · rw [hpn, List.cons_append, List.head?_cons,
                  Option.mem_some_iff] at hy2
                subst hy2
                refine absurd hrel2 (pnhd a ?_)
                rw [hpn, List.head?_cons]
                rfl
            · rw [List.chain'_append]
              refine ⟨pnch, ihch, ?_⟩
              intro x2 hx2 y2 hy2 hrel2
              exact absurd hrel2 (ihhd y2 hy2)
          · intro b hb
            rw [List.head?_cons, Option.mem_some_iff] at hb
            subst hb
            intro hcon
            exact absurd hcon (by simp [aSelStep, snapA])
/-- The freshly initialized A* state satisfies the open-set bookkeeping
invariant. -/
theorem aq_init (g : Graph) (s tId : String) (hv : ℤ) :
    AQ (astarInit g s tId hv) := by
  constructor
  · intro x
    show x ∈ jsAdd [] s ↔
      x ∈ (enqueue [] s ((hv : ℤ) : ENum)).map Prod.fst
    simp [jsAdd, enqueue, bubbleUp, bubbleUpGo]
  · show ((enqueue [] s ((hv : ℤ) : ENum)).map Prod.fst).Nodup
    simp [enqueue, bubbleUp, bubbleUpGo]

/-- C3, counterexample: in the A* run on `gC3` from S to T with the zero
heuristic, step 8 is an improving relaxation of node A (tentative distance
2 strictly below its known distance 5, `wasRelaxed` set) whose queue
snapshot is still `[(A, 5)]`: no new entry with the improved priority is
pushed, because A already had an open-set entry. -/
theorem astar_relax_without_push :
    ((generateAStarSteps gC3 "S" "T" (fun _ _ => 0)).1.map
      (fun stp => (stp.type, stp.queue, stp.currentEdge))).get? 8 =
      some (StepType.relaxEdge, [("A", ((5 : ℤ) : ENum))],
        some ⟨"e3", "B", "A", 1, some ((5 : ℤ) : ENum),
          some ((2 : ℤ) : ENum), true⟩) := by
  decide

/-! ## Claim C3 (amended): relaxation push discipline of both engines -/

/-- C3 (amended): in the Dijkstra engine every improving relaxation pushes
a fresh queue entry for the relaxed node carrying the new distance as its
priority, even when the node already has entries (duplicates accumulate);
in the A* engine this holds only when the node has no live open-set entry —
when it does (`inOpenSet`), the improving relaxation updates the scores but
pushes nothing and the surviving entry keeps its stale priority.  Stated as
an adjacent-step discipline over every emitted run of either engine. -/
theorem relaxation_push_discipline (g : Graph) (s : String)
    (t : Option String) (t2 : String) (h : Node → Node → ℤ) :
    List.Chain' RelaxPushD (generateDijkstraSteps g s t) ∧
    List.Chain' RelaxPushA (generateAStarSteps g s t2 h).1 := by
  constructor
  · unfold generateDijkstraSteps
    obtain ⟨hch, hhd⟩ :=
      dijkstraLoop_chainD g s t (dijkstraFuel g) (dijkstraInit g s t)
    rw [List.chain'_cons']
    refine ⟨?_, hch⟩
    intro y hy hrel
    exact absurd hrel (hhd y hy)
  · unfold generateAStarSteps
    rcases htl : jsGet g.nodes t2 with _ | tNode
    · simp
    · rcases hsl : jsGet g.nodes s with _ | sNode
      · simp
      · obtain ⟨hch, hhd⟩ := astarLoop_chainA g h s tNode t2
          (dijkstraFuel g) (astarInit g s t2 (h sNode tNode))
          (aq_init g s t2 (h sNode tNode))
        rw [List.chain'_cons']
        refine ⟨?_, hch⟩
        intro y hy hrel
        exact absurd hrel (hhd y hy)
/-! ## Establishment of the Dijkstra run invariant at initialization -/

theorem jsGet_isSome_iff {α : Type} {m : List (String × α)} {k : String} :
    (jsGet m k).isSome = true ↔ k ∈ m.map Prod.fst := by
  rcases hg : jsGet m k with _ | v
  · rw [jsGet_eq_none] at hg
    simp only [Option.isSome_none, Bool.false_eq_true, false_iff]
    intro hmem
    obtain ⟨p, hp, hpk⟩ := List.mem_map.mp hmem
    exact hg p hp hpk
  · simp only [Option.isSome_some, true_iff]
    have := jsGet_mem hg
    exact List.mem_map.mpr ⟨(k, v), this, rfl⟩

theorem jsGet_initDistances (nodes : List (String × Node)) (s v : String) :
    jsGet (initDistances nodes s) v =
      if v ∈ nodes.map Prod.fst then
        some (if v = s then ((0 : ℤ) : ENum) else ⊤) else none := by
  unfold initDistances
  rw [jsGet_initFold (fun k => if k = s then ((0 : ℤ) : ENum) else ⊤)
    nodes [] v]
  by_cases hm : v ∈ nodes.map Prod.fst
  · rw [if_pos hm, if_pos hm]
  · rw [if_neg hm, if_neg hm]
    rfl

theorem jsGet_initPreds (nodes : List (String × Node)) (v : String) :
    jsGet (initPreds nodes) v =
      if v ∈ nodes.map Prod.fst then some none else none := by
  unfold initPreds
  rw [jsGet_initFold (fun _ => (none : Option String)) nodes [] v]
  by_cases hm : v ∈ nodes.map Prod.fst
  · rw [if_pos hm, if_pos hm]
  · rw [if_neg hm, if_neg hm]
    rfl

theorem isHeap_singleton (e : PQEntry) : IsHeap [e] := by
  intro j hj hjl
  simp at hjl
  omega

/-- Keys of the node map, as membership. -/
theorem hasNode_iff {g : Graph} {v : String} :
    HasNode g v ↔ v ∈ g.nodes.map Prod.fst := jsGet_isSome_iff

theorem dinv_init (g : Graph) (s : String) (t : Option String)
    (hs : HasNode g s) : DInv g s (dijkstraInit g s t) := by
  have hsm : s ∈ g.nodes.map Prod.fst := hasNode_iff.mp hs
  have hpq : (dijkstraInit g s t).pq = [(s, ((0 : ℤ) : ENum))] := rfl
  have hdist : ∀ v, jsGet (dijkstraInit g s t).distances v =
      if v ∈ g.nodes.map Prod.fst then
        some (if v = s then ((0 : ℤ) : ENum) else ⊤) else none :=
    fun v => jsGet_initDistances g.nodes s v
  have hpredv : ∀ v, jsGet (dijkstraInit g s t).predecessors v =
      if v ∈ g.nodes.map Prod.fst then some none else none :=
    fun v => jsGet_initPreds g.nodes v
  constructor
  · constructor
    · intro v
      rw [hdist v, hasNode_iff]
      by_cases hm : v ∈ g.nodes.map Prod.fst
      · simp [hm]
      · simp [hm]
    · intro v
      rw [hpredv v, hasNode_iff]
      by_cases hm : v ∈ g.nodes.map Prod.fst
      · simp [hm]
      · simp [hm]
    · rw [hpq]
      exact isHeap_singleton _
    · exact List.nodup_nil
    · intro v hv
      exact absurd hv (List.not_mem_nil v)
    · intro e he
      rw [hpq, List.mem_singleton] at he
      subst he
      exact hs
    · intro e he
      rw [hpq, List.mem_singleton] at he
      subst he
      simp
    · intro e he
      rw [hpq, List.mem_singleton] at he
      subst he
      refine ⟨((0 : ℤ) : ENum), ?_, le_refl _⟩
      rw [hdist s, if_pos hsm, if_pos rfl]
    · intro e he hne
      rw [hpq, List.mem_singleton] at he
      subst he
      exact absurd rfl hne
    · rw [hdist s, if_pos hsm, if_pos rfl]
    · intro v d hvd
      rw [hdist v] at hvd
      by_cases hm : v ∈ g.nodes.map Prod.fst
      · rw [if_pos hm] at hvd
        by_cases hvs : v = s
        · rw [if_pos hvs] at hvd
          have hd0 : ((d : ℤ) : ENum) = ((0 : ℤ) : ENum) :=
            (Option.some.injEq _ _ ▸ hvd).symm
          have : d = 0 := by exact_mod_cast hd0
          subst this
          subst hvs
          exact IsWalk.nil v
        · rw [if_neg hvs] at hvd
          exact absurd (Option.some.inj hvd).symm (WithTop.coe_ne_top)
      · rw [if_neg hm] at hvd
        exact absurd hvd (by simp)
    · intro v hv
      exact absurd hv (List.not_mem_nil v)
    · intro x _ dx hdx hdxt
      rw [hdist x] at hdx
      by_cases hm : x ∈ g.nodes.map Prod.fst
      · rw [if_pos hm] at hdx
        by_cases hxs : x = s
        · refine ⟨(s, ((0 : ℤ) : ENum)), by rw [hpq]; simp, hxs.symm, ?_⟩
          rw [if_pos hxs] at hdx
          rw [← Option.some.inj hdx]
        · rw [if_neg hxs] at hdx
          rw [← Option.some.inj hdx] at hdxt
          exact absurd rfl hdxt
      · rw [if_neg hm] at hdx
        exact absurd hdx (by simp)
    · intro v u hvu
      rw [hpredv v] at hvu
      by_cases hm : v ∈ g.nodes.map Prod.fst
      · rw [if_pos hm] at hvu
        exact absurd (Option.some.inj hvu) (by simp)
      · rw [if_neg hm] at hvu
        exact absurd hvu (by simp)
    · intro v hv
      exact absurd hv (List.not_mem_nil v)
    · right
      exact ⟨rfl, hpq⟩
  · intro u hu
    exact absurd hu (List.not_mem_nil u)
/-! ## The cut argument: a popped minimal entry is optimal -/

/-- While the queue minimum is `p`, every walk from a visited node `y` to
an unvisited node costs at least `p` minus the (optimal) distance of `y`. -/
theorem dijkstra_cut {g : Graph} {s : String} {st : DState}
    (hinv : DInv g s st) (hnn : NonnegWeights g) (p : ENum)
    (hmin : ∀ e ∈ st.pq, p ≤ e.2)
    {y x : String} {c : ℤ} (hw : IsWalk g y x c) :
    y ∈ st.visited → x ∉ st.visited →
    ∃ dy : ℤ, jsGet st.distances y = some ((dy : ℤ) : ENum) ∧
      p ≤ (((dy + c : ℤ)) : ENum) := by
  induction hw with
  | nil u =>
    intro hy hx
    exact absurd hy hx
  | @cons u v xx w c k hstep rest ih =>
    intro hy hx
    obtain ⟨du, hdu, hduMin⟩ := hinv.1.opt u hy
    by_cases hz : v ∈ st.visited
    · obtain ⟨dv, hdv, hdvMin⟩ := hinv.1.opt v hz
      obtain ⟨dz, hdz, hple⟩ := ih hz hx
      have hdzv : dz = dv := by
        rw [hdv] at hdz
        exact_mod_cast (Option.some.inj hdz).symm
      subst hdzv
      have hwalkv : IsWalk g s v (du + w) := walk_snoc k hduMin.1 hstep
      have hle : dz ≤ du + w := hdvMin.2 _ hwalkv
      refine ⟨du, hdu, le_trans hple ?_⟩
      exact_mod_cast (by omega : dz + c ≤ du + (w + c))
    · obtain ⟨dx', du', hdx', hdu', hble⟩ := hinv.2 u hy k v w hstep hz
      have hdu'c : du' = ((du : ℤ) : ENum) := by
        rw [hdu] at hdu'
        exact (Option.some.inj hdu').symm
      have hdx'ne : dx' ≠ ⊤ := by
        intro htop
        rw [htop, top_le_iff, hdu'c] at hble
        have : (((du + w : ℤ)) : ENum) = ⊤ := by
          rw [← hble]
          exact_mod_cast rfl
        exact absurd this WithTop.coe_ne_top
      obtain ⟨e, he, he1, he2⟩ := hinv.1.fresh v hz dx' hdx' hdx'ne
      have hple : p ≤ dx' := le_trans (hmin e he) he2
      have hc0 : 0 ≤ c := walk_cost_nonneg hnn rest
      refine ⟨du, hdu, ?_⟩
      calc p ≤ dx' := hple
        _ ≤ du' + ((w : ℤ) : ENum) := hble
        _ = (((du + w : ℤ)) : ENum) := by
            rw [hdu'c]
            exact_mod_cast rfl
        _ ≤ (((du + (w + c) : ℤ)) : ENum) := by
            exact_mod_cast (by omega : du + w ≤ du + (w + c))

/-- A non-stale pop extracts a node whose recorded distance is the minimum
walk cost from the source, and its priority is no better than it. -/
theorem pop_optimal {g : Graph} {s : String} {st : DState} {v : String}
    {p : ENum} {pq' : List PQEntry} (hinv : DInv g s st)
    (hnn : NonnegWeights g) (hdq : dequeue st.pq = some ((v, p), pq'))
    (hv : v ∉ st.visited) :
    ∃ d : ℤ, jsGet st.distances v = some ((d : ℤ) : ENum) ∧
      IsMinDist g s v d ∧ ((d : ℤ) : ENum) ≤ p := by
  have hmem : (v, p) ∈ st.pq :=
    (dequeue_perm hdq).mem_iff.mpr (List.mem_cons_self _ _)
  have hmin : ∀ e ∈ st.pq, p ≤ e.2 := dequeue_min hinv.1.heap hdq
  obtain ⟨dv, hdv, hdvle⟩ := hinv.1.qsound (v, p) hmem
  have hpfin : p ≠ ⊤ := hinv.1.qfin (v, p) hmem
  have hdvfin : dv ≠ ⊤ := by
    intro htop
    rw [htop, top_le_iff] at hdvle
    exact hpfin hdvle
  obtain ⟨d, rfl⟩ : ∃ d : ℤ, dv = ((d : ℤ) : ENum) := by
    cases dv with
    | none => exact absurd rfl hdvfin
    | some d => exact ⟨d, rfl⟩
  have hwalk : IsWalk g s v d := hinv.1.sound v d hdv
  refine ⟨d, hdv, ⟨hwalk, ?_⟩, hdvle⟩
  intro c hc
  rcases hinv.1.start with hsvis | ⟨hvempty, hpqinit⟩
  · obtain ⟨ds, hds, hple⟩ := dijkstra_cut hinv hnn p hmin hc hsvis hv
    have hds0 : ds = 0 := by
      rw [hinv.1.src0] at hds
      exact_mod_cast (Option.some.inj hds).symm
    subst hds0
    have : ((d : ℤ) : ENum) ≤ (((0 + c : ℤ)) : ENum) :=
      le_trans hdvle hple
    have hdc : d ≤ 0 + c := by exact_mod_cast this
    omega
  · rw [hpqinit] at hdq
    have heq : dequeue [(s, ((0 : ℤ) : ENum))] =
        some ((s, ((0 : ℤ) : ENum)), []) := rfl
    rw [heq] at hdq
    simp only [Option.some.injEq, Prod.mk.injEq] at hdq
    obtain ⟨⟨hv1, hp1⟩, _⟩ := hdq
    subst hv1
    have hd0 : d = 0 := by
      rw [hinv.1.src0] at hdv
      exact_mod_cast (Option.some.inj hdv).symm
    subst hd0
    exact walk_cost_nonneg hnn hc
/-! ## Small helpers for invariant preservation -/

theorem mem_enqueue {e : PQEntry} {l : List PQEntry} {x : String}
    {p : ENum} : e ∈ enqueue l x p ↔ e = (x, p) ∨ e ∈ l := by
  rw [(enqueue_perm l x p).mem_iff, List.mem_cons]

theorem canStep_hasNode {g : Graph} (hwf : WellFormed g) {u k v : String}
    {w : ℤ} (h : CanStep g u k v w) : HasNode g u ∧ HasNode g v := by
  obtain ⟨e, hge, hw, hdir⟩ := h
  obtain ⟨hsn, htn, _, _⟩ := hwf (k, e) (jsGet_mem hge) hge
  rcases hdir with ⟨h1, h2⟩ | ⟨_, h1, h2⟩
  · exact ⟨h1 ▸ hsn, h2 ▸ htn⟩
  · exact ⟨h1 ▸ htn, h2 ▸ hsn⟩

theorem dcore_congr {g : Graph} {s : String} {a b : DState}
    (hd : b.distances = a.distances) (hp : b.predecessors = a.predecessors)
    (hv : b.visited = a.visited) (hq : b.pq = a.pq) (h : DCore g s a) :
    DCore g s b := by
  constructor
  · rw [hd]; exact h.keys
  · rw [hp]; exact h.pkeys
  · rw [hq]; exact h.heap
  · rw [hv]; exact h.vnodup
  · rw [hv]; exact h.vsub
  · rw [hq]; exact h.qkeys
  · rw [hq]; exact h.qfin
  · rw [hq, hd]; exact h.qsound
  · rw [hq, hp]; exact h.qpred
  · rw [hd]; exact h.src0
  · rw [hd]; exact h.sound
  · rw [hv, hd]; exact h.opt
  · rw [hv, hd, hq]; exact h.fresh
  · rw [hv, hp, hd]; exact h.predSound
  · rw [hv, hp]; exact h.vpred
  · rw [hv, hq]; exact h.start

theorem dcover_congr {g : Graph} {a b : DState} {vs : List String}
    (hd : b.distances = a.distances) (hv : b.visited = a.visited)
    (h : DCover g a vs) : DCover g b vs := by
  intro u hu k x w hcs hx
  rw [hv] at hx
  obtain ⟨dx, du, h1, h2, h3⟩ := h u hu k x w hcs hx
  exact ⟨dx, du, hd ▸ h1, hd ▸ h2, h3⟩
/-! ## Invariant preservation through one relaxation -/

theorem dinv_relax {g : Graph} {s : String} {t : Option String}
    {cur : String} {nb : NeighborRec} {st : DState}
    (hwf : WellFormed g)
    (hcs : CanStep g cur nb.edgeId nb.nodeId nb.weight)
    (hv : nb.nodeId ∉ st.visited) (hcur : cur ∈ st.visited)
    (hs : s ∈ st.visited)
    (vs : List String) (hvs : ∀ u ∈ vs, u ∈ st.visited)
    (hcore : DCore g s st) (hcov : DCover g st vs)
    (hrel : optLt (dNewDist st cur nb)
      (jsGet st.distances nb.nodeId) = true) :
    DCore g s (dRelaxSt2 t st cur nb) ∧
    DCover g (dRelaxSt2 t st cur nb) vs ∧
    ∃ dc : ℤ, jsGet (dRelaxSt2 t st cur nb).distances cur =
        some ((dc : ℤ) : ENum) ∧
      jsGet (dRelaxSt2 t st cur nb).distances nb.nodeId =
        some (((dc + nb.weight : ℤ)) : ENum) := by
  obtain ⟨dc, hdc, hdcMin⟩ := hcore.opt cur hcur
  obtain ⟨x, y, hx, hy, hxy⟩ := optLt_some hrel
  have hxval : x = (((dc + nb.weight : ℤ)) : ENum) := by
    unfold dNewDist at hx
    rw [hdc] at hx
    simp only [Option.map_some', Option.some.injEq] at hx
    rw [← hx]
    push_cast
    rfl
  have hset : (dRelaxSt2 t st cur nb).distances =
      jsSet st.distances nb.nodeId x := by
    show jsSet st.distances nb.nodeId ((dNewDist st cur nb).getD _) = _
    rw [hx, Option.getD_some]
  have hpset : (dRelaxSt2 t st cur nb).predecessors =
      jsSet st.predecessors nb.nodeId (some cur) := rfl
  have hpq : (dRelaxSt2 t st cur nb).pq =
      enqueue st.pq nb.nodeId x := by
    show enqueue st.pq nb.nodeId ((dNewDist st cur nb).getD _) = _
    rw [hx, Option.getD_some]
  have hvis : (dRelaxSt2 t st cur nb).visited = st.visited := rfl
  have hnbnode : HasNode g nb.nodeId := (canStep_hasNode hwf hcs).2
  have hnbne : nb.nodeId ≠ cur := fun h => hv (h ▸ hcur)
  have hnbs : nb.nodeId ≠ s := fun h => hv (h ▸ hs)
  have hget2 : ∀ v, jsGet (dRelaxSt2 t st cur nb).distances v =
      if v = nb.nodeId then some x else jsGet st.distances v := by
    intro v
    rw [hset, jsGet_jsSet]
  have hgetp2 : ∀ v, jsGet (dRelaxSt2 t st cur nb).predecessors v =
      if v = nb.nodeId then some (some cur)
      else jsGet st.predecessors v := by
    intro v
    rw [hpset, jsGet_jsSet]
  have hxfin : x ≠ ⊤ := by
    rw [hxval]
    exact WithTop.coe_ne_top
  refine ⟨?_, ?_, dc, ?_, ?_⟩
  · constructor
    · intro v
      rw [hget2 v]
      by_cases hvn : v = nb.nodeId
      · rw [if_pos hvn, hvn]
        simp only [Option.isSome_some, true_iff]
        exact hnbnode
      · rw [if_neg hvn]
        exact hcore.keys v
    · intro v
      rw [hgetp2 v]
      by_cases hvn : v = nb.nodeId
      · rw [if_pos hvn, hvn]
        simp only [Option.isSome_some, true_iff]
        exact hnbnode
      · rw [if_neg hvn]
        exact hcore.pkeys v
    · rw [hpq]
      exact enqueue_isHeap hcore.heap nb.nodeId x
    · rw [hvis]
      exact hcore.vnodup
    · rw [hvis]
      exact hcore.vsub
    · intro e he
      rw [hpq, mem_enqueue] at he
      rcases he with rfl | he
      · exact hnbnode
      · exact hcore.qkeys e he
    · intro e he
      rw [hpq, mem_enqueue] at he
      rcases he with rfl | he
      · exact hxfin
      · exact hcore.qfin e he
    · intro e he
      rw [hpq, mem_enqueue] at he
      rcases he with rfl | he
      · refine ⟨x, ?_, le_refl x⟩
        rw [hget2, if_pos rfl]
      · obtain ⟨dv, hdv, hle⟩ := hcore.qsound e he
        by_cases hen : e.1 = nb.nodeId
        · refine ⟨x, ?_, ?_⟩
          · rw [hget2, if_pos hen]
          · rw [hen] at hdv
            rw [hy] at hdv
            have : dv = y := (Option.some.inj hdv).symm
            subst this
            exact le_trans (le_of_lt hxy) hle
        · refine ⟨dv, ?_, hle⟩
          rw [hget2, if_neg hen]
          exact hdv
    · intro e he hne
      rw [hpq, mem_enqueue] at he
      rcases he with rfl | he
      · refine ⟨cur, ?_⟩
        rw [hgetp2, if_pos rfl]
      · obtain ⟨u, hu⟩ := hcore.qpred e he hne
        by_cases hen : e.1 = nb.nodeId
        · refine ⟨cur, ?_⟩
          rw [hgetp2, if_pos hen]
        · refine ⟨u, ?_⟩
          rw [hgetp2, if_neg hen]
          exact hu
    · rw [hget2, if_neg (Ne.symm hnbs)]
      exact hcore.src0
    · intro v d hvd
      rw [hget2 v] at hvd
      by_cases hvn : v = nb.nodeId
      · rw [if_pos hvn] at hvd
        have hdval : d = dc + nb.weight := by
          have := Option.some.inj hvd
          rw [hxval] at this
          exact_mod_cast this.symm
        subst hdval
        subst hvn
        exact walk_snoc nb.edgeId hdcMin.1 hcs
      · rw [if_neg hvn] at hvd
        exact hcore.sound v d hvd
    · intro v hvv
      have hvn : v ≠ nb.nodeId := fun h => hv (h ▸ hvv)
      obtain ⟨d, hd, hdMin⟩ := hcore.opt v hvv
      refine ⟨d, ?_, hdMin⟩
      rw [hget2, if_neg hvn]
      exact hd
    · intro z hz dz hdz hdzt
      rw [hget2 z] at hdz
      by_cases hzn : z = nb.nodeId
      · rw [if_pos hzn] at hdz
        refine ⟨(nb.nodeId, x), ?_, hzn.symm, ?_⟩
        · rw [hpq, mem_enqueue]
          exact Or.inl rfl
        · rw [← Option.some.inj hdz]
      · rw [if_neg hzn] at hdz
        obtain ⟨e, he, he1, he2⟩ := hcore.fresh z hz dz hdz hdzt
        refine ⟨e, ?_, he1, he2⟩
        rw [hpq, mem_enqueue]
        exact Or.inr he
    · intro v u hvu
      rw [hgetp2 v] at hvu
      by_cases hvn : v = nb.nodeId
      · rw [if_pos hvn] at hvu
        have huc : u = cur :=
          (Option.some.inj (Option.some.inj hvu)).symm
        subst huc
        subst hvn
        refine ⟨by rw [hvis]; exact hcur, ?_, nb.edgeId, nb.weight, dc,
          hcs, ?_, ?_⟩
        · rw [hvis]
          rw [List.indexOf_eq_length.mpr hv]
          exact List.indexOf_lt_length.mpr hcur
        · rw [hget2, if_neg (fun h => hnbne h.symm)]
          exact hdc
        · rw [hget2, if_pos rfl, hxval]
      · rw [if_neg hvn] at hvu
        obtain ⟨huv, hidx, k', w', du', hcs', hdu', hdv'⟩ :=
          hcore.predSound v u hvu
        have hun : u ≠ nb.nodeId := fun h => hv (h ▸ huv)
        refine ⟨by rw [hvis]; exact huv, by rw [hvis]; exact hidx,
          k', w', du', hcs', ?_, ?_⟩
        · rw [hget2, if_neg hun]
          exact hdu'
        · rw [hget2, if_neg hvn]
          exact hdv'
    · intro v hvv hvs
      rw [hvis] at hvv
      have hvn : v ≠ nb.nodeId := fun h => hv (h ▸ hvv)
      obtain ⟨u, hu⟩ := hcore.vpred v hvv hvs
      refine ⟨u, ?_⟩
      rw [hgetp2, if_neg hvn]
      exact hu
    · left
      rw [hvis]
      exact hs
  · intro u hu k z w hcs' hz
    rw [hvis] at hz
    obtain ⟨dxh, duh, h1, h2, h3⟩ := hcov u hu k z w hcs' hz
    have hun : u ≠ nb.nodeId := fun h => hv (h ▸ hvs u hu)
    refine ⟨?_, duh, ?_, ?_, ?_⟩
    · exact if z = nb.nodeId then x else dxh
    · by_cases hzn : z = nb.nodeId
      · rw [hget2, if_pos hzn, if_pos hzn]
      · rw [hget2, if_neg hzn, if_neg hzn]
        exact h1
    · rw [hget2, if_neg hun]
      exact h2
    · by_cases hzn : z = nb.nodeId
      · rw [if_pos hzn]
        rw [hzn, hy] at h1
        have : dxh = y := (Option.some.inj h1).symm
        subst this
        exact le_trans (le_of_lt hxy) h3
      · rw [if_neg hzn]
        exact h3
  · rw [hget2, if_neg (fun h => hnbne h.symm)]
    exact hdc
  · rw [hget2, if_pos rfl, hxval]
/-! ## Invariant preservation through the whole neighbor loop -/

theorem processNeighbors_inv (g : Graph) (s : String) (t : Option String)
    (cur : String) (hwf : WellFormed g) (ns : List NeighborRec) :
    ∀ (st : DState) (vs : List String),
      (∀ nb ∈ ns, CanStep g cur nb.edgeId nb.nodeId nb.weight) →
      (∀ u ∈ vs, u ∈ st.visited) →
      cur ∈ st.visited → s ∈ st.visited →
      DCore g s st → DCover g st vs →
      DCore g s (processNeighbors g t cur ns st).2 ∧
      DCover g (processNeighbors g t cur ns st).2 vs ∧
      ∀ nb ∈ ns, nb.nodeId ∈ st.visited ∨
        ∃ dx du,
          jsGet (processNeighbors g t cur ns st).2.distances nb.nodeId =
            some dx ∧
          jsGet (processNeighbors g t cur ns st).2.distances cur =
            some du ∧
          dx ≤ du + ((nb.weight : ℤ) : ENum) := by
  induction ns with
  | nil =>
    intro st vs _ _ _ _ hcore hcov
    rw [processNeighbors_nil]
    exact ⟨hcore, hcov, by simp⟩
  | cons nb rest ih =>
    intro st vs hns hvs hcur hs hcore hcov
    have hcs : CanStep g cur nb.edgeId nb.nodeId nb.weight :=
      hns nb (List.mem_cons_self nb rest)
    have hns' : ∀ nb2 ∈ rest, CanStep g cur nb2.edgeId nb2.nodeId
        nb2.weight := fun nb2 h2 => hns nb2 (List.mem_cons_of_mem nb h2)
    by_cases hv : nb.nodeId ∈ st.visited
    · rw [processNeighbors_vis g t cur rest hv]
      obtain ⟨core', cov', hproc⟩ := ih st vs hns' hvs hcur hs hcore hcov
      refine ⟨core', cov', ?_⟩
      intro nb2 h2
      rcases List.mem_cons.mp h2 with rfl | h2
      · exact Or.inl hv
      · exact hproc nb2 h2
    · have hnbnode : HasNode g nb.nodeId := (canStep_hasNode hwf hcs).2
      cases hrel : optLt (dNewDist st cur nb)
        (jsGet st.distances nb.nodeId) with
      | true =>
        rw [processNeighbors_relax g t cur rest hv hrel]
        obtain ⟨core2, cov2, dc, hdc2, hdnb2⟩ :=
          dinv_relax hwf hcs hv hcur hs vs hvs hcore hcov hrel
        obtain ⟨core', cov', hproc⟩ :=
          ih (dRelaxSt2 t st cur nb) vs hns' hvs hcur hs core2 cov2
        obtain ⟨_, hdec, hfroz⟩ :=
          (processNeighbors_evol g t cur rest (dRelaxSt2 t st cur nb)).1
        refine ⟨core', cov', ?_⟩
        intro nb2 h2
        rcases List.mem_cons.mp h2 with rfl | h2
        · right
          have hkey : (jsGet (processNeighbors g t cur rest
              (dRelaxSt2 t st cur nb2)).2.distances nb2.nodeId).isSome =
              true := (core'.keys nb2.nodeId).mpr hnbnode
          rcases hfin : jsGet (processNeighbors g t cur rest
              (dRelaxSt2 t st cur nb2)).2.distances nb2.nodeId with _ | dfin
          · rw [hfin] at hkey
            exact absurd hkey (by simp)
          · obtain ⟨d1, hd1, hle⟩ := hdec nb2.nodeId dfin hfin
            rw [hdnb2] at hd1
            have hd1v : d1 = (((dc + nb2.weight : ℤ)) : ENum) :=
              (Option.some.inj hd1).symm
            refine ⟨dfin, ((dc : ℤ) : ENum), rfl, ?_, ?_⟩
            · rw [(hfroz cur hcur).1]
              exact hdc2
            · refine le_trans hle ?_
              rw [hd1v]
              exact le_of_eq (by push_cast; rfl)
        · exact hproc nb2 h2
      | false =>
        rw [processNeighbors_skip g t cur rest hv hrel]
        have core3 : DCore g s (dSkipSt3 st nb) :=
          ⟨hcore.keys, hcore.pkeys, hcore.heap, hcore.vnodup, hcore.vsub,
           hcore.qkeys, hcore.qfin, hcore.qsound, hcore.qpred, hcore.src0,
           hcore.sound, hcore.opt, hcore.fresh, hcore.predSound,
           hcore.vpred, hcore.start⟩
        have cov3 : DCover g (dSkipSt3 st nb) vs := hcov
        obtain ⟨core', cov', hproc⟩ :=
          ih (dSkipSt3 st nb) vs hns' hvs hcur hs core3 cov3
        obtain ⟨_, hdec, hfroz⟩ :=
          (processNeighbors_evol g t cur rest (dSkipSt3 st nb)).1
        obtain ⟨dc, hdc, hdcMin⟩ := hcore.opt cur hcur
        have hnd : dNewDist st cur nb =
            some (((dc : ℤ) : ENum) + ((nb.weight : ℤ) : ENum)) := by
          unfold dNewDist
          rw [hdc]
          rfl
        rcases hold : jsGet st.distances nb.nodeId with _ | y
        · exfalso
          have := (hcore.keys nb.nodeId).mpr hnbnode
          rw [hold] at this
          exact absurd this (by simp)
        · have hyle : y ≤ ((dc : ℤ) : ENum) + ((nb.weight : ℤ) : ENum) := by
            rw [hnd, hold] at hrel
            exact optLt_false_le hrel
          refine ⟨core', cov', ?_⟩
          intro nb2 h2
          rcases List.mem_cons.mp h2 with rfl | h2
          · right
            have hkey : (jsGet (processNeighbors g t cur rest
                (dSkipSt3 st nb2)).2.distances nb2.nodeId).isSome =
                true := (core'.keys nb2.nodeId).mpr hnbnode
            rcases hfin : jsGet (processNeighbors g t cur rest
                (dSkipSt3 st nb2)).2.distances nb2.nodeId with _ | dfin
            · rw [hfin] at hkey
              exact absurd hkey (by simp)
            · obtain ⟨d1, hd1, hle⟩ := hdec nb2.nodeId dfin hfin
              have hd1y : d1 = y := by
                have heq2 : jsGet (dSkipSt3 st nb2).distances nb2.nodeId =
                    jsGet st.distances nb2.nodeId := rfl
                rw [heq2, hold] at hd1
                exact (Option.some.inj hd1).symm
              refine ⟨dfin, ((dc : ℤ) : ENum), rfl, ?_, ?_⟩
              · rw [(hfroz cur hcur).1]
                show jsGet (dSkipSt3 st nb2).distances cur = _
                show jsGet st.distances cur = _
                exact hdc
              · exact le_trans hle (hd1y ▸ hyle)
          · exact hproc nb2 h2
/-! ## Invariant preservation through the pop of the main loop -/

theorem indexOf_append_ge {l ext : List String} {a : String} (h : a ∉ l) :
    l.length ≤ (l ++ ext).indexOf a := by
  induction l with
  | nil => simp
  | cons b l2 ih =>
    have hab : a ≠ b := fun he => h (he ▸ List.mem_cons_self b l2)
    have h2 : a ∉ l2 := fun he => h (List.mem_cons_of_mem b he)
    rw [List.cons_append, List.indexOf_cons_ne _ (fun x => hab x.symm)]
    have := ih h2
    simp only [List.length_cons]
    omega

theorem dinv_pop_stale {g : Graph} {s : String} {st : DState} {c : String}
    {p : ENum} {pq' : List PQEntry} (hinv : DInv g s st)
    (hdq : dequeue st.pq = some ((c, p), pq')) (hc : c ∈ st.visited) :
    DInv g s { st with pq := pq' } := by
  have hperm := dequeue_perm hdq
  have hsub : ∀ e ∈ pq', e ∈ st.pq := fun e he =>
    hperm.mem_iff.mpr (List.mem_cons_of_mem _ he)
  obtain ⟨hcore, hcov⟩ := hinv
  refine ⟨?_, hcov⟩
  constructor
  · exact hcore.keys
  · exact hcore.pkeys
  · exact dequeue_isHeap hcore.heap hdq
  · exact hcore.vnodup
  · exact hcore.vsub
  · exact fun e he => hcore.qkeys e (hsub e he)
  · exact fun e he => hcore.qfin e (hsub e he)
  · exact fun e he => hcore.qsound e (hsub e he)
  · exact fun e he => hcore.qpred e (hsub e he)
  · exact hcore.src0
  · exact hcore.sound
  · exact hcore.opt
  · intro x hx dx hdx hdxt
    obtain ⟨e, he, he1, he2⟩ := hcore.fresh x hx dx hdx hdxt
    rcases List.mem_cons.mp (hperm.mem_iff.mp he) with rfl | he'
    · exact absurd (he1 ▸ hc) hx
    · exact ⟨e, he', he1, he2⟩
  · exact hcore.predSound
  · exact hcore.vpred
  · rcases hcore.start with hs2 | ⟨hve, _⟩
    · exact Or.inl hs2
    · rw [hve] at hc
      exact absurd hc (List.not_mem_nil c)

theorem dinv_pop_visit {g : Graph} {s : String} {t : Option String}
    {st : DState} {c : String} {p : ENum} {pq' : List PQEntry}
    (hinv : DInv g s st) (hnn : NonnegWeights g)
    (hdq : dequeue st.pq = some ((c, p), pq')) (hc : c ∉ st.visited) :
    DCore g s (dLoopSt2 s t { st with pq := pq' } c) ∧
    DCover g (dLoopSt2 s t { st with pq := pq' } c) st.visited ∧
    (dLoopSt2 s t { st with pq := pq' } c).visited =
      st.visited ++ [c] := by
  have hperm := dequeue_perm hdq
  have hmemc : (c, p) ∈ st.pq :=
    hperm.mem_iff.mpr (List.mem_cons_self _ _)
  have hsub : ∀ e ∈ pq', e ∈ st.pq := fun e he =>
    hperm.mem_iff.mpr (List.mem_cons_of_mem _ he)
  obtain ⟨hcore, hcov⟩ := hinv
  have hvapp : (dLoopSt2 s t { st with pq := pq' } c).visited =
      st.visited ++ [c] := by
    show jsAdd st.visited c = _
    unfold jsAdd
    rw [if_neg hc]
  have hdists : (dLoopSt2 s t { st with pq := pq' } c).distances =
      st.distances := rfl
  have hpreds : (dLoopSt2 s t { st with pq := pq' } c).predecessors =
      st.predecessors := rfl
  have hpqs : (dLoopSt2 s t { st with pq := pq' } c).pq = pq' := rfl
  have hcopt := pop_optimal ⟨hcore, hcov⟩ hnn hdq hc
  refine ⟨?_, ?_, hvapp⟩
  · constructor
    · exact hcore.keys
    · exact hcore.pkeys
    · rw [hpqs]
      exact dequeue_isHeap hcore.heap hdq
    · rw [hvapp, List.nodup_append]
      refine ⟨hcore.vnodup, List.nodup_singleton c, ?_⟩
      intro x hx hxc
      rw [List.mem_singleton] at hxc
      exact hc (hxc ▸ hx)
    · intro v hv
      rw [hvapp] at hv
      rcases List.mem_append.mp hv with hv | hv
      · exact hcore.vsub v hv
      · rw [List.mem_singleton] at hv
        subst hv
        exact hcore.qkeys (v, p) hmemc
    · intro e he
      rw [hpqs] at he
      exact hcore.qkeys e (hsub e he)
    · intro e he
      rw [hpqs] at he
      exact hcore.qfin e (hsub e he)
    · intro e he
      rw [hpqs] at he
      exact hcore.qsound e (hsub e he)
    · intro e he
      rw [hpqs] at he
      exact hcore.qpred e (hsub e he)
    · exact hcore.src0
    · exact hcore.sound
    · intro v hv
      rw [hvapp] at hv
      rcases List.mem_append.mp hv with hv | hv
      · exact hcore.opt v hv
      · rw [List.mem_singleton] at hv
        subst hv
        obtain ⟨d, hd, hdMin, _⟩ := hcopt
        exact ⟨d, hd, hdMin⟩
    · intro x hx dx hdx hdxt
      rw [hvapp] at hx
      have hxold : x ∉ st.visited := fun h2 =>
        hx (List.mem_append_left _ h2)
      have hxc : x ≠ c := by
        intro h2
        subst h2
        exact hx (List.mem_append_right _ (List.mem_singleton_self x))
      obtain ⟨e, he, he1, he2⟩ := hcore.fresh x hxold dx hdx hdxt
      rcases List.mem_cons.mp (hperm.mem_iff.mp he) with rfl | he'
      · exact absurd he1 hxc.symm
      · exact ⟨e, by rw [hpqs]; exact he', he1, he2⟩
    · intro v u hvu
      obtain ⟨huv, hidx, k', w', du', hcs', hdu', hdv'⟩ :=
        hcore.predSound v u hvu
      refine ⟨by rw [hvapp]; exact List.mem_append_left _ huv, ?_,
        k', w', du', hcs', hdu', hdv'⟩
      rw [hvapp, List.indexOf_append_of_mem huv]
      by_cases hvo : v ∈ st.visited
      · rw [List.indexOf_append_of_mem hvo]
        exact hidx
      · have h1 : st.visited.indexOf u < st.visited.length := by
          rw [← List.indexOf_eq_length.mpr hvo]
          exact hidx
        exact lt_of_lt_of_le h1 (indexOf_append_ge hvo)
    · intro v hv hvs
      rw [hvapp] at hv
      rcases List.mem_append.mp hv with hv | hv
      · exact hcore.vpred v hv hvs
      · rw [List.mem_singleton] at hv
        subst hv
        exact hcore.qpred (v, p) hmemc hvs
    · left
      rw [hvapp]
      rcases hcore.start with hs2 | ⟨hve, hpq0⟩
      · exact List.mem_append_left _ hs2
      · rw [hpq0] at hdq
        have heq : dequeue [(s, ((0 : ℤ) : ENum))] =
            some ((s, ((0 : ℤ) : ENum)), []) := rfl
        rw [heq] at hdq
        simp only [Option.some.injEq, Prod.mk.injEq] at hdq
        obtain ⟨⟨hv1, _⟩, _⟩ := hdq
        subst hv1
        exact List.mem_append_right _ (List.mem_singleton_self s)
  · intro u hu k z w hcs' hz
    rw [hvapp] at hz
    have hz' : z ∉ st.visited := fun h2 =>
      hz (List.mem_append_left _ h2)
    obtain ⟨dx, du, h1, h2, h3⟩ := hcov u hu k z w hcs' hz'
    exact ⟨dx, du, h1, h2, h3⟩
/-! ## Per-step optimality of visited snapshots along the loop -/

theorem dijkstraLoop_opt (g : Graph) (s : String) (t : Option String)
    (hwf : WellFormed g) (hnn : NonnegWeights g) (fuel : Nat) :
    ∀ st : DState, DInv g s st →
      ∀ stp ∈ dijkstraLoop g s t fuel st, OptSnap g s stp := by
  induction fuel with
  | zero =>
    intro st _ stp hstp
    rw [dijkstraLoop_zero] at hstp
    exact absurd hstp (List.not_mem_nil stp)
  | succ f ih =>
    intro st hinv stp hstp
    rcases hdq : dequeue st.pq with _ | ⟨⟨⟨c, p⟩, pq'⟩⟩
    · rw [dijkstraLoop_empty g s t f hdq] at hstp
      obtain ⟨x, hx, hxs, _, _⟩ := dTermSteps_single s t st
      rw [hx, List.mem_singleton] at hstp
      subst hstp
      intro v hv
      have hveq : (stepDState stp).visited = st.visited := by rw [hxs]
      have hdeq : (stepDState stp).distances = st.distances := by rw [hxs]
      have hv' : v ∈ st.visited := hveq ▸ hv
      obtain ⟨d, hd, hdMin⟩ := hinv.1.opt v hv'
      refine ⟨d, ?_, hdMin⟩
      rw [show stp.distances = (stepDState stp).distances from rfl, hdeq]
      exact hd
    · by_cases hcv : c ∈ st.visited
      · rw [dijkstraLoop_stale g s t f hdq hcv] at hstp
        exact ih _ (dinv_pop_stale hinv hdq hcv) stp hstp
      · obtain ⟨core2x, cov2x, hvapp⟩ :=
          dinv_pop_visit (t := t) hinv hnn hdq hcv
        obtain ⟨d, hd, hdMin, _⟩ := pop_optimal hinv hnn hdq hcv
        by_cases ht : t = some c ∧ c ≠ ""
        · rw [dijkstraLoop_target g s t f hdq hcv ht] at hstp
          rw [List.mem_cons, List.mem_singleton] at hstp
          rcases hstp with rfl | rfl
          · intro v hv
            have hv' : v ∈ st.visited := hv
            obtain ⟨d2, hd2, hd2Min⟩ := hinv.1.opt v hv'
            exact ⟨d2, hd2, hd2Min⟩
          · intro v hv
            have hv' : v ∈ jsAdd st.visited c := hv
            rw [mem_jsAdd] at hv'
            rcases hv' with hv' | rfl
            · obtain ⟨d2, hd2, hd2Min⟩ := hinv.1.opt v hv'
              exact ⟨d2, hd2, hd2Min⟩
            · exact ⟨d, hd, hdMin⟩
        · rw [dijkstraLoop_visit g s t f hdq hcv ht] at hstp
          have hns : ∀ nb ∈ getNeighbors g c,
              CanStep g c nb.edgeId nb.nodeId nb.weight :=
            fun nb h => getNeighbors_sound h
          have hvsub : ∀ u ∈ st.visited,
              u ∈ (dLoopSt2 s t { st with pq := pq' } c).visited := by
            intro u hu
            rw [hvapp]
            exact List.mem_append_left _ hu
          have hcur2 : c ∈ (dLoopSt2 s t { st with pq := pq' } c).visited := by
            rw [hvapp]
            exact List.mem_append_right _ (List.mem_singleton_self c)
          have hs2 : s ∈ (dLoopSt2 s t { st with pq := pq' } c).visited := by
            rcases core2x.start with hs2 | ⟨hve, _⟩
            · exact hs2
            · rw [hve] at hvapp
              exact absurd hvapp.symm (by simp)
          obtain ⟨core', cov', hproc⟩ :=
            processNeighbors_inv g s t c hwf (getNeighbors g c)
              (dLoopSt2 s t { st with pq := pq' } c) st.visited
              hns hvsub hcur2 hs2 core2x cov2x
          obtain ⟨hpnev, hpnvis, hpnsteps, _⟩ :=
            processNeighbors_evol g t c (getNeighbors g c)
              (dLoopSt2 s t { st with pq := pq' } c)
          have hinv3 : DInv g s (dLoopSt3 g s t { st with pq := pq' } c) := by
            constructor
            · exact ⟨core'.keys, core'.pkeys, core'.heap, core'.vnodup,
                core'.vsub, core'.qkeys, core'.qfin, core'.qsound,
                core'.qpred, core'.src0, core'.sound, core'.opt,
                core'.fresh, core'.predSound, core'.vpred, core'.start⟩
            · intro u hu k z w hcs hz
              have hu' : u ∈ (dLoopSt2 s t { st with pq := pq' } c).visited :=
                hpnvis ▸ hu
              rw [hvapp] at hu'
              rcases List.mem_append.mp hu' with hu2 | hu2
              · exact cov' u hu2 k z w hcs hz
              · rw [List.mem_singleton] at hu2
                subst hu2
                have hnb : (⟨z, k, w⟩ : NeighborRec) ∈ getNeighbors g u :=
                  getNeighbors_complete hwf hcs
                rcases hproc ⟨z, k, w⟩ hnb with hzin | ⟨dx, du, h1, h2, h3⟩
                · exact absurd (hpnvis ▸ hzin) hz
                · exact ⟨dx, du, h1, h2, h3⟩
          rw [List.mem_cons, List.mem_cons, List.mem_append] at hstp
          rcases hstp with rfl | rfl | hstp | hstp
          · intro v hv
            have hv' : v ∈ st.visited := hv
            obtain ⟨d2, hd2, hd2Min⟩ := hinv.1.opt v hv'
            exact ⟨d2, hd2, hd2Min⟩
          · intro v hv
            have hv' : v ∈ (dLoopSt2 s t { st with pq := pq' } c).visited :=
              hv
            obtain ⟨d2, hd2, hd2Min⟩ := core2x.opt v hv'
            exact ⟨d2, hd2, hd2Min⟩
          · obtain ⟨⟨ext1, hext1⟩, hdec1, hfroz1⟩ := (hpnsteps stp hstp).1
            obtain ⟨⟨ext2, hext2⟩, _, _⟩ := (hpnsteps stp hstp).2
            have hext1nil : ext1 = [] := by
              have hlen : (dLoopSt2 s t { st with pq := pq' } c).visited.length =
                  (((dLoopSt2 s t { st with pq := pq' } c).visited ++ ext1)
                    ++ ext2).length := by
                conv_lhs => rw [← hpnvis, hext2, hext1]
              simp only [List.length_append] at hlen
              have : ext1.length = 0 := by omega
              exact List.eq_nil_of_length_eq_zero this
            have hviseq : (stepDState stp).visited =
                (dLoopSt2 s t { st with pq := pq' } c).visited := by
              rw [hext1, hext1nil, List.append_nil]
            intro v hv
            have hv' : v ∈ (dLoopSt2 s t { st with pq := pq' } c).visited := by
              rw [← hviseq]
              exact hv
            obtain ⟨d2, hd2, hd2Min⟩ := core2x.opt v hv'
            refine ⟨d2, ?_, hd2Min⟩
            rw [show stp.distances = (stepDState stp).distances from rfl,
              (hfroz1 v hv').1]
            exact hd2
          · exact ih _ hinv3 stp hstp
/-! ## Claim C1: Dijkstra visited distances are minimal and final -/

/-- C1: on a well-formed graph with non-negative edge weights and a source
present in the node map, every step the single-source engine emits
satisfies: each node in the step's visited snapshot carries, in the step's
distance snapshot, exactly the minimum walk cost from the source
(`OptSnap`); and that recorded distance never changes in any later step of
the run.  (`WellFormed` is the documented adjacency-completeness invariant
of the graph value, needed so the engine examines every traversable
edge.) -/
theorem dijkstra_visited_optimal (g : Graph) (s : String)
    (t : Option String) (hwf : WellFormed g) (hnn : NonnegWeights g)
    (hs : HasNode g s) :
    (∀ stp ∈ generateDijkstraSteps g s t, OptSnap g s stp) ∧
    List.Pairwise (fun a b => ∀ v ∈ a.visited,
      jsGet b.distances v = jsGet a.distances v)
      (generateDijkstraSteps g s t) := by
  constructor
  · intro stp hstp
    unfold generateDijkstraSteps at hstp
    rw [List.mem_cons] at hstp
    rcases hstp with rfl | hstp
    · intro v hv
      exact absurd hv (List.not_mem_nil v)
    · exact dijkstraLoop_opt g s t hwf hnn (dijkstraFuel g)
        (dijkstraInit g s t) (dinv_init g s t hs) stp hstp
  · unfold generateDijkstraSteps
    obtain ⟨hsteps, hpw⟩ :=
      dijkstraLoop_evol g s t (dijkstraFuel g) (dijkstraInit g s t)
    refine List.Pairwise.cons ?_ (hpw.imp ?_)
    · intro stp _ v hv
      exact absurd hv (List.not_mem_nil v)
    · intro a b hab v hv
      exact (hab.2.2 v hv).1

/-- Witness for C1: the hypotheses hold of the concrete graph `gC3` with
source S, and the theorem applies to it. -/
theorem dijkstra_visited_optimal_witness :
    WellFormed gC3 ∧ NonnegWeights gC3 ∧ HasNode gC3 "S" ∧
    ((∀ stp ∈ generateDijkstraSteps gC3 "S" (some "T"),
        OptSnap gC3 "S" stp) ∧
      List.Pairwise (fun a b => ∀ v ∈ a.visited,
        jsGet b.distances v = jsGet a.distances v)
        (generateDijkstraSteps gC3 "S" (some "T"))) :=
  ⟨by unfold WellFormed HasNode AdjSetOf; decide,
   by unfold NonnegWeights; decide,
   by unfold HasNode; decide,
   dijkstra_visited_optimal gC3 "S" (some "T")
     (by unfold WellFormed HasNode AdjSetOf; decide)
     (by unfold NonnegWeights; decide)
     (by unfold HasNode; decide)⟩
/-! ## Path reconstruction: chain shape and cost telescoping -/

/-- `reconstructGo` under a rank function that strictly decreases along
predecessor links: the result prepends, onto the accumulator, a non-empty
predecessor-linked chain ending at the start node whose head has no
predecessor link. -/
theorem reconstructGo_chain (preds : List (String × Option String))
    (rank : String → Nat)
    (hrank : ∀ v u, jsGet preds v = some (some u) → rank u < rank v) :
    ∀ (fuel : Nat) (t : String) (acc : List String), rank t < fuel →
      ∃ p, reconstructGo preds fuel t acc = p ++ acc ∧
        p ≠ [] ∧ p.getLast? = some t ∧
        (∀ hd ∈ p.head?, jsGet preds hd = none ∨
          jsGet preds hd = some none) ∧
        List.Chain' (fun a b => jsGet preds b = some (some a)) p := by
  intro fuel
  induction fuel with
  | zero =>
    intro t acc hf
    exact absurd hf (by omega)
  | succ f ih =>
    intro t acc hf
    rcases hp : jsGet preds t with _ | u
    · refine ⟨[t], ?_, by simp, by simp, ?_, by simp⟩
      · show (match jsGet preds t with
          | some (some p) => reconstructGo preds f p (t :: acc)
          | _ => t :: acc) = [t] ++ acc
        rw [hp]
        rfl
      · intro hd hhd
        rw [List.head?_cons, Option.mem_some_iff] at hhd
        subst hhd
        exact Or.inl hp
    · cases u with
      | none =>
        refine ⟨[t], ?_, by simp, by simp, ?_, by simp⟩
        · show (match jsGet preds t with
            | some (some p) => reconstructGo preds f p (t :: acc)
            | _ => t :: acc) = [t] ++ acc
          rw [hp]
          rfl
        · intro hd hhd
          rw [List.head?_cons, Option.mem_some_iff] at hhd
          subst hhd
          exact Or.inr hp
      | some u =>
        have hru : rank u < f := by
          have := hrank t u hp
          omega
        obtain ⟨p2, hp2, hp2ne, hp2last, hp2hd, hp2ch⟩ :=
          ih u (t :: acc) hru
        refine ⟨p2 ++ [t], ?_, by simp, ?_, ?_, ?_⟩
        · show reconstructGo preds (f + 1) t acc = (p2 ++ [t]) ++ acc
          have hred : reconstructGo preds (f + 1) t acc =
              reconstructGo preds f u (t :: acc) := by
            show (match jsGet preds t with
              | some (some p) => reconstructGo preds f p (t :: acc)
              | _ => t :: acc) = _
            rw [hp]
          rw [hred, hp2, List.append_assoc, List.singleton_append]
        · rw [List.getLast?_append]
          rfl
        · intro hd hhd
          rcases hq : p2 with _ | ⟨a, l⟩
          · exact absurd hq hp2ne
          · rw [hq, List.cons_append, List.head?_cons,
              Option.mem_some_iff] at hhd
            subst hhd
            refine hp2hd a ?_
            rw [hq, List.head?_cons]
            rfl
        · rw [List.chain'_append]
          refine ⟨hp2ch, List.chain'_singleton t, ?_⟩
          intro x hx y hy
          rw [List.head?_cons, Option.mem_some_iff] at hy
          subst hy
          rw [hp2last, Option.mem_some_iff] at hx
          subst hx
          exact hp
/-- Telescoping the per-link cost equations along a predecessor chain: the
chain's `ChainCost` is the difference of the recorded distances at its two
ends. -/
theorem chain_cost (g : Graph) (preds : List (String × Option String))
    (D : List (String × ENum))
    (hps : ∀ v u, jsGet preds v = some (some u) →
      ∃ (k : String) (w du : ℤ), CanStep g u k v w ∧
        jsGet D u = some ((du : ℤ) : ENum) ∧
        jsGet D v = some (((du + w : ℤ)) : ENum)) :
    ∀ p : List String,
      List.Chain' (fun a b => jsGet preds b = some (some a)) p →
      ∀ (hd lst : String) (dh dl : ℤ), p.head? = some hd →
        p.getLast? = some lst →
        jsGet D hd = some ((dh : ℤ) : ENum) →
        jsGet D lst = some ((dl : ℤ) : ENum) →
        ChainCost g p (dl - dh) := by
  intro p
  induction p with
  | nil =>
    intro _ hd lst dh dl hhd
    exact absurd hhd (by simp)
  | cons a rest ih =>
    intro hch hd lst dh dl hhd hlst hDh hDl
    rw [List.head?_cons, Option.some.injEq] at hhd
    subst hhd
    cases rest with
    | nil =>
      rw [List.getLast?_singleton, Option.some.injEq] at hlst
      subst hlst
      rw [hDh] at hDl
      have hdd : dh = dl := by exact_mod_cast Option.some.inj hDl
      subst hdd
      have h0 : dh - dh = 0 := by omega
      rw [h0]
      exact ChainCost.single a
    | cons b rest2 =>
      rw [List.chain'_cons] at hch
      obtain ⟨hab, hch2⟩ := hch
      obtain ⟨k, w, du, hcs, hDa, hDb⟩ := hps b a hab
      have hdh : dh = du := by
        rw [hDh] at hDa
        exact_mod_cast Option.some.inj hDa
      subst hdh
      have hlst2 : (b :: rest2).getLast? = some lst := by
        rw [← hlst, List.getLast?_cons_cons]
      have ihres := ih hch2 b lst (dh + w) dl (by rw [List.head?_cons])
        hlst2 hDb hDl
      have h2 : dl - dh = w + (dl - (dh + w)) := by omega
      rw [h2]
      exact ChainCost.cons k hcs ihres
/-! ## The path-found emission of the Dijkstra engine -/

theorem visited_le_preds {α : Type} {vis : List String}
    {preds : List (String × α)} (hnd : vis.Nodup)
    (hsub : ∀ v ∈ vis, v ∈ preds.map Prod.fst) :
    vis.length ≤ preds.length := by
  have h1 : vis.toFinset.card = vis.length := List.toFinset_card_of_nodup hnd
  have h2 : vis.toFinset ⊆ (preds.map Prod.fst).toFinset := by
    intro x hx
    rw [List.mem_toFinset] at hx ⊢
    exact hsub x hx
  calc vis.length = vis.toFinset.card := h1.symm
    _ ≤ (preds.map Prod.fst).toFinset.card := Finset.card_le_card h2
    _ ≤ (preds.map Prod.fst).length := (preds.map Prod.fst).toFinset_card_le
    _ = preds.length := by rw [List.length_map]

/-- The neighbor loop only ever emits examine, relax and skip steps. -/
theorem processNeighbors_types (g : Graph) (t : Option String)
    (cur : String) (ns : List NeighborRec) :
    ∀ st : DState, ∀ stp ∈ (processNeighbors g t cur ns st).1,
      stp.type = StepType.examineEdge ∨ stp.type = StepType.relaxEdge ∨
      stp.type = StepType.skipEdge := by
  induction ns with
  | nil =>
    intro st stp hstp
    rw [processNeighbors_nil] at hstp
    exact absurd hstp (List.not_mem_nil stp)
  | cons nb rest ih =>
    intro st stp hstp
    by_cases hv : nb.nodeId ∈ st.visited
    · rw [processNeighbors_vis g t cur rest hv] at hstp
      exact ih st stp hstp
    · cases hrel : optLt (dNewDist st cur nb)
        (jsGet st.distances nb.nodeId) with
      | true =>
        rw [processNeighbors_relax g t cur rest hv hrel] at hstp
        rw [List.mem_cons, List.mem_cons] at hstp
        rcases hstp with rfl | rfl | hstp
        · exact Or.inl rfl
        · exact Or.inr (Or.inl rfl)
        · exact ih _ stp hstp
      | false =>
        rw [processNeighbors_skip g t cur rest hv hrel] at hstp
        rw [List.mem_cons, List.mem_cons] at hstp
        rcases hstp with rfl | rfl | hstp
        · exact Or.inl rfl
        · exact Or.inr (Or.inr rfl)
        · exact ih _ stp hstp

/-- One full non-target loop iteration preserves the run invariant. -/
theorem dinv_step_visit {g : Graph} {s : String} {t : Option String}
    {st : DState} {c : String} {p : ENum} {pq' : List PQEntry}
    (hwf : WellFormed g) (hnn : NonnegWeights g) (hinv : DInv g s st)
    (hdq : dequeue st.pq = some ((c, p), pq')) (hcv : c ∉ st.visited) :
    DInv g s (dLoopSt3 g s t { st with pq := pq' } c) := by
  obtain ⟨core2x, cov2x, hvapp⟩ := dinv_pop_visit (t := t) hinv hnn hdq hcv
  have hns : ∀ nb ∈ getNeighbors g c,
      CanStep g c nb.edgeId nb.nodeId nb.weight :=
    fun nb h => getNeighbors_sound h
  have hvsub : ∀ u ∈ st.visited,
      u ∈ (dLoopSt2 s t { st with pq := pq' } c).visited := by
    intro u hu
    rw [hvapp]
    exact List.mem_append_left _ hu
  have hcur2 : c ∈ (dLoopSt2 s t { st with pq := pq' } c).visited := by
    rw [hvapp]
    exact List.mem_append_right _ (List.mem_singleton_self c)
  have hs2 : s ∈ (dLoopSt2 s t { st with pq := pq' } c).visited := by
    rcases core2x.start with hs2 | ⟨hve, _⟩
    · exact hs2
    · rw [hve] at hvapp
      exact absurd hvapp.symm (by simp)
  obtain ⟨core', cov', hproc⟩ :=
    processNeighbors_inv g s t c hwf (getNeighbors g c)
      (dLoopSt2 s t { st with pq := pq' } c) st.visited
      hns hvsub hcur2 hs2 core2x cov2x
  obtain ⟨hpnev, hpnvis, hpnsteps, _⟩ :=
    processNeighbors_evol g t c (getNeighbors g c)
      (dLoopSt2 s t { st with pq := pq' } c)
  constructor
  · exact ⟨core'.keys, core'.pkeys, core'.heap, core'.vnodup,
      core'.vsub, core'.qkeys, core'.qfin, core'.qsound,
      core'.qpred, core'.src0, core'.sound, core'.opt,
      core'.fresh, core'.predSound, core'.vpred, core'.start⟩
  · intro u hu k z w hcs hz
    have hu' : u ∈ (dLoopSt2 s t { st with pq := pq' } c).visited :=
      hpnvis ▸ hu
    rw [hvapp] at hu'
    rcases List.mem_append.mp hu' with hu2 | hu2
    · exact cov' u hu2 k z w hcs hz
    · rw [List.mem_singleton] at hu2
      subst hu2
      have hnb : (⟨z, k, w⟩ : NeighborRec) ∈ getNeighbors g u :=
        getNeighbors_complete hwf hcs
      rcases hproc ⟨z, k, w⟩ hnb with hzin | ⟨dx, du, h1, h2, h3⟩
      · exact absurd (hpnvis ▸ hzin) hz
      · exact ⟨dx, du, h1, h2, h3⟩
/-! ## Establishment and preservation of the A* invariant -/

theorem ai_init (g : Graph) (s tId : String) (hval : ℤ)
    (hs : s ∈ g.nodes.map Prod.fst) :
    AI g s (astarInit g s tId hval) := by
  have hg : ∀ v, jsGet (astarInit g s tId hval).gScore v =
      if v = s then some ((0 : ℤ) : ENum)
      else if v ∈ g.nodes.map Prod.fst then some (⊤ : ENum)
      else none := by
    intro v
    show jsGet (jsSet (g.nodes.foldl
      (fun m p => jsSet m p.1 (⊤ : ENum)) []) s ((0 : ℤ) : ENum)) v = _
    rw [jsGet_jsSet,
      jsGet_initFold (fun _ => (⊤ : ENum)) g.nodes [] v]
    by_cases hv : v = s
    · rw [if_pos hv, if_pos hv]
    · rw [if_neg hv, if_neg hv]
      by_cases hm : v ∈ g.nodes.map Prod.fst
      · rw [if_pos hm, if_pos hm]
      · rw [if_neg hm, if_neg hm]
        rfl
  have hp : ∀ v, jsGet (astarInit g s tId hval).predecessors v =
      if v ∈ g.nodes.map Prod.fst then some none else none :=
    fun v => jsGet_initPreds g.nodes v
  have hq : (astarInit g s tId hval).openSet =
      [(s, ((hval : ℤ) : ENum))] := rfl
  constructor
  · rw [hg, if_pos rfl]
  · exact List.nodup_nil
  · intro v hv
    exact absurd hv (List.not_mem_nil v)
  · intro e he
    rw [hq, List.mem_singleton] at he
    subst he
    rw [hp, if_pos hs]
    rfl
  · intro e he
    rw [hq, List.mem_singleton] at he
    subst he
    exact ⟨0, by rw [hg, if_pos rfl]⟩
  · intro e he hne
    rw [hq, List.mem_singleton] at he
    subst he
    exact absurd rfl hne
  · intro v u hvu
    rw [hp] at hvu
    by_cases hm : v ∈ g.nodes.map Prod.fst
    · rw [if_pos hm] at hvu
      exact absurd (Option.some.inj hvu) (by simp)
    · rw [if_neg hm] at hvu
      exact absurd hvu (by simp)
  · intro v hv
    exact absurd hv (List.not_mem_nil v)
  · exact Or.inr ⟨rfl, ((hval : ℤ) : ENum), hq⟩

theorem ai_pop_stale {g : Graph} {s : String} {st : AState} {c : String}
    {pq' : List PQEntry} {p : ENum} (hai : AI g s st)
    (hdq : dequeue st.openSet = some ((c, p), pq')) (hc : c ∈ st.visited) :
    AI g s (aLoopSt0 st c pq') := by
  have hperm := dequeue_perm hdq
  have hsub : ∀ e ∈ pq', e ∈ st.openSet := fun e he =>
    hperm.mem_iff.mpr (List.mem_cons_of_mem _ he)
  constructor
  · exact hai.src0
  · exact hai.vnodup
  · exact hai.vkey
  · exact fun e he => hai.qkey e (hsub e he)
  · exact fun e he => hai.qfing e (hsub e he)
  · exact fun e he => hai.qpred e (hsub e he)
  · exact hai.predSound
  · exact hai.vpred
  · rcases hai.start with hs2 | ⟨hve, _⟩
    · exact Or.inl hs2
    · rw [hve] at hc
      exact absurd hc (List.not_mem_nil c)
theorem ai_pop_visit {g : Graph} {s tId : String} {st : AState}
    {c : String} {pq' : List PQEntry} {p : ENum} (hai : AI g s st)
    (hdq : dequeue st.openSet = some ((c, p), pq')) (hc : c ∉ st.visited) :
    AI g s (aLoopSt2 s tId (aLoopSt0 st c pq') c) ∧
    (aLoopSt2 s tId (aLoopSt0 st c pq') c).visited =
      st.visited ++ [c] := by
  have hperm := dequeue_perm hdq
  have hmemc : (c, p) ∈ st.openSet :=
    hperm.mem_iff.mpr (List.mem_cons_self _ _)
  have hsub : ∀ e ∈ pq', e ∈ st.openSet := fun e he =>
    hperm.mem_iff.mpr (List.mem_cons_of_mem _ he)
  have hvapp : (aLoopSt2 s tId (aLoopSt0 st c pq') c).visited =
      st.visited ++ [c] := by
    show jsAdd st.visited c = _
    unfold jsAdd
    rw [if_neg hc]
  refine ⟨?_, hvapp⟩
  constructor
  · exact hai.src0
  · rw [hvapp, List.nodup_append]
    refine ⟨hai.vnodup, List.nodup_singleton c, ?_⟩
    intro x hx hxc
    rw [List.mem_singleton] at hxc
    exact hc (hxc ▸ hx)
  · intro v hv
    rw [hvapp] at hv
    rcases List.mem_append.mp hv with hv | hv
    · exact hai.vkey v hv
    · rw [List.mem_singleton] at hv
      subst hv
      exact hai.qkey (v, p) hmemc
  · intro e he
    exact hai.qkey e (hsub e he)
  · intro e he
    exact hai.qfing e (hsub e he)
  · intro e he
    exact hai.qpred e (hsub e he)
  · intro v u hvu
    obtain ⟨huv, hidx, k', w', du', hcs', hdu', hdv'⟩ :=
      hai.predSound v u hvu
    refine ⟨by rw [hvapp]; exact List.mem_append_left _ huv, ?_,
      k', w', du', hcs', hdu', hdv'⟩
    rw [hvapp, List.indexOf_append_of_mem huv]
    by_cases hvo : v ∈ st.visited
    · rw [List.indexOf_append_of_mem hvo]
      exact hidx
    · have h1 : st.visited.indexOf u < st.visited.length := by
        rw [← List.indexOf_eq_length.mpr hvo]
        exact hidx
      exact lt_of_lt_of_le h1 (indexOf_append_ge hvo)
  · intro v hv hvs
    rw [hvapp] at hv
    rcases List.mem_append.mp hv with hv | hv
    · exact hai.vpred v hv hvs
    · rw [List.mem_singleton] at hv
      subst hv
      exact hai.qpred (v, p) hmemc hvs
  · left
    rw [hvapp]
    rcases hai.start with hs2 | ⟨hve, p0, hpq0⟩
    · exact List.mem_append_left _ hs2
    · rw [hpq0] at hdq
      have heq : dequeue [(s, p0)] = some ((s, p0), []) := rfl
      rw [heq] at hdq
      simp only [Option.some.injEq, Prod.mk.injEq] at hdq
      obtain ⟨⟨hv1, _⟩, _⟩ := hdq
      subst hv1
      exact List.mem_append_right _ (List.mem_singleton_self s)

theorem ai_relax {g : Graph} {s : String} {h : Node → Node → ℤ}
    {tNode : Node} {tId cur : String} {nb : NeighborRec} {st : AState}
    (hcs : CanStep g cur nb.edgeId nb.nodeId nb.weight)
    (hv : nb.nodeId ∉ st.visited) (hcur : cur ∈ st.visited)
    (hs : s ∈ st.visited) (hai : AI g s st)
    (hrel : optLt (aNewDist st cur nb)
      (jsGet st.gScore nb.nodeId) = true) :
    AI g s (aRelaxSt2 g h tNode tId st cur nb) := by
  obtain ⟨x, y, hx, hy, hxy⟩ := optLt_some hrel
  obtain ⟨gc, hgc, hxval⟩ : ∃ gc, jsGet st.gScore cur = some gc ∧
      x = gc + ((nb.weight : ℤ) : ENum) := by
    unfold aNewDist at hx
    rcases hgc : jsGet st.gScore cur with _ | gc
    · rw [hgc] at hx
      exact absurd hx (by simp)
    · rw [hgc] at hx
      simp only [Option.map_some', Option.some.injEq] at hx
      exact ⟨gc, rfl, hx.symm⟩
  obtain ⟨dc, rfl⟩ : ∃ dc : ℤ, gc = ((dc : ℤ) : ENum) := by
    cases gc with
    | none =>
      exfalso
      have hxt : x = ⊤ := by
        rw [hxval]
        exact top_add _
      rw [hxt] at hxy
      exact not_top_lt hxy
    | some dc => exact ⟨dc, rfl⟩
  have hxc : x = (((dc + nb.weight : ℤ)) : ENum) := by
    rw [hxval]
    push_cast
    rfl
  have hnbne : nb.nodeId ≠ cur := fun h2 => hv (h2 ▸ hcur)
  have hnbs : nb.nodeId ≠ s := fun h2 => hv (h2 ▸ hs)
  have hgets : ∀ v, jsGet (aRelaxSt2 g h tNode tId st cur nb).gScore v =
      if v = nb.nodeId then some x else jsGet st.gScore v := by
    intro v
    show jsGet (jsSet st.gScore nb.nodeId (aTg st cur nb)) v = _
    have : aTg st cur nb = x := by
      unfold aTg
      rw [hx, Option.getD_some]
    rw [this, jsGet_jsSet]
  have hgetp : ∀ v,
      jsGet (aRelaxSt2 g h tNode tId st cur nb).predecessors v =
      if v = nb.nodeId then some (some cur)
      else jsGet st.predecessors v := by
    intro v
    show jsGet (jsSet st.predecessors nb.nodeId (some cur)) v = _
    rw [jsGet_jsSet]
  have hq : ∀ e ∈ (aRelaxSt2 g h tNode tId st cur nb).openSet,
      e = (nb.nodeId, aF g h tNode st cur nb) ∨ e ∈ st.openSet := by
    intro e he
    show e = _ ∨ e ∈ st.openSet
    by_cases hin : nb.nodeId ∈ st.inOpenSet
    · right
      have : (aRelaxSt2 g h tNode tId st cur nb).openSet =
          st.openSet := by
        show (if nb.nodeId ∈ st.inOpenSet then st.openSet
          else enqueue st.openSet nb.nodeId
            (aF g h tNode st cur nb)) = st.openSet
        rw [if_pos hin]
      rw [this] at he
      exact he
    · have : (aRelaxSt2 g h tNode tId st cur nb).openSet =
          enqueue st.openSet nb.nodeId (aF g h tNode st cur nb) := by
        show (if nb.nodeId ∈ st.inOpenSet then st.openSet
          else enqueue st.openSet nb.nodeId
            (aF g h tNode st cur nb)) = _
        rw [if_neg hin]
      rw [this, mem_enqueue] at he
      exact he
  constructor
  · rw [hgets, if_neg (Ne.symm hnbs)]
    exact hai.src0
  · exact hai.vnodup
  · intro v hv2
    rw [hgetp]
    by_cases hvn : v = nb.nodeId
    · rw [if_pos hvn]
      rfl
    · rw [if_neg hvn]
      exact hai.vkey v hv2
  · intro e he
    rcases hq e he with rfl | he2
    · rw [hgetp]
      simp
    · rw [hgetp]
      by_cases hen : e.1 = nb.nodeId
      · rw [if_pos hen]
        rfl
      · rw [if_neg hen]
        exact hai.qkey e he2
  · intro e he
    rcases hq e he with rfl | he2
    · refine ⟨dc + nb.weight, ?_⟩
      rw [hgets, hxc]
      simp
    · rw [hgets]
      by_cases hen : e.1 = nb.nodeId
      · rw [if_pos hen]
        exact ⟨dc + nb.weight, by rw [hxc]⟩
      · rw [if_neg hen]
        exact hai.qfing e he2
  · intro e he hne
    rcases hq e he with rfl | he2
    · refine ⟨cur, ?_⟩
      rw [hgetp]
      simp
    · rw [hgetp]
      by_cases hen : e.1 = nb.nodeId
      · rw [if_pos hen]
        exact ⟨cur, rfl⟩
      · rw [if_neg hen]
        exact hai.qpred e he2 hne
  · intro v u hvu
    rw [hgetp] at hvu
    by_cases hvn : v = nb.nodeId
    · rw [if_pos hvn] at hvu
      have huc : u = cur := (Option.some.inj (Option.some.inj hvu)).symm
      subst huc
      subst hvn
      refine ⟨hcur, ?_, nb.edgeId, nb.weight, dc, hcs, ?_, ?_⟩
      · show st.visited.indexOf _ < st.visited.indexOf nb.nodeId
        rw [List.indexOf_eq_length.mpr hv]
        exact List.indexOf_lt_length.mpr hcur
      · rw [hgets, if_neg (fun h2 => hnbne h2.symm)]
        exact hgc
      · rw [hgets, if_pos rfl, hxc]
    · rw [if_neg hvn] at hvu
      obtain ⟨huv, hidx, k', w', du', hcs', hdu', hdv'⟩ :=
        hai.predSound v u hvu
      have hun : u ≠ nb.nodeId := fun h2 => hv (h2 ▸ huv)
      refine ⟨huv, hidx, k', w', du', hcs', ?_, ?_⟩
      · rw [hgets, if_neg hun]
        exact hdu'
      · rw [hgets, if_neg hvn]
        exact hdv'
  · intro v hv2 hvs
    have hvn : v ≠ nb.nodeId := fun h2 => hv (h2 ▸ hv2)
    obtain ⟨u, hu⟩ := hai.vpred v hv2 hvs
    refine ⟨u, ?_⟩
    rw [hgetp, if_neg hvn]
    exact hu
  · exact Or.inl hs
theorem aProcessNeighbors_ai (g : Graph) (s : String)
    (h : Node → Node → ℤ) (tNode : Node) (tId cur : String)
    (ns : List NeighborRec) :
    ∀ st : AState,
      (∀ nb ∈ ns, CanStep g cur nb.edgeId nb.nodeId nb.weight) →
      cur ∈ st.visited → s ∈ st.visited → AI g s st →
      AI g s (aProcessNeighbors g h tNode tId cur ns st).2 := by
  induction ns with
  | nil =>
    intro st _ _ _ hai
    rw [aProcessNeighbors_nil]
    exact hai
  | cons nb rest ih =>
    intro st hns hcur hs hai
    have hcs : CanStep g cur nb.edgeId nb.nodeId nb.weight :=
      hns nb (List.mem_cons_self nb rest)
    have hns' : ∀ nb2 ∈ rest, CanStep g cur nb2.edgeId nb2.nodeId
        nb2.weight := fun nb2 h2 => hns nb2 (List.mem_cons_of_mem nb h2)
    by_cases hv : nb.nodeId ∈ st.visited
    · rw [aProcessNeighbors_vis g h tNode tId cur rest hv]
      exact ih st hns' hcur hs hai
    · cases hrel : optLt (aNewDist st cur nb)
        (jsGet st.gScore nb.nodeId) with
      | true =>
        rw [aProcessNeighbors_relax g h tNode tId cur rest hv hrel]
        exact ih (aRelaxSt2 g h tNode tId st cur nb) hns' hcur hs
          (ai_relax hcs hv hcur hs hai hrel)
      | false =>
        rw [aProcessNeighbors_skip g h tNode tId cur rest hv hrel]
        have hai3 : AI g s (aSkipSt3 st nb) :=
          ⟨hai.src0, hai.vnodup, hai.vkey, hai.qkey, hai.qfing,
           hai.qpred, hai.predSound, hai.vpred, hai.start⟩
        exact ih (aSkipSt3 st nb) hns' hcur hs hai3

theorem ai_step_visit {g : Graph} {s : String} {h : Node → Node → ℤ}
    {tNode : Node} {tId : String} {st : AState} {c : String} {p : ENum}
    {pq' : List PQEntry} (hai : AI g s st)
    (hdq : dequeue st.openSet = some ((c, p), pq')) (hcv : c ∉ st.visited) :
    AI g s (aLoopSt3 g h tNode s tId (aLoopSt0 st c pq') c) := by
  obtain ⟨hai2, hvapp⟩ := @ai_pop_visit g s tId st c pq' p hai hdq hcv
  have hcur2 : c ∈ (aLoopSt2 s tId (aLoopSt0 st c pq') c).visited := by
    rw [hvapp]
    exact List.mem_append_right _ (List.mem_singleton_self c)
  have hs2 : s ∈ (aLoopSt2 s tId (aLoopSt0 st c pq') c).visited := by
    rcases hai2.start with hs2 | ⟨hve, _⟩
    · exact hs2
    · rw [hve] at hvapp
      exact absurd hvapp.symm (by simp)
  have hai3 := aProcessNeighbors_ai g s h tNode tId c (getNeighbors g c)
    (aLoopSt2 s tId (aLoopSt0 st c pq') c)
    (fun nb h2 => getNeighbors_sound h2) hcur2 hs2 hai2
  exact ⟨hai3.src0, hai3.vnodup, hai3.vkey, hai3.qkey, hai3.qfing,
    hai3.qpred, hai3.predSound, hai3.vpred, hai3.start⟩
/-- The A* neighbor loop only ever emits examine, relax and skip steps. -/
theorem aProcessNeighbors_types (g : Graph) (h : Node → Node → ℤ)
    (tNode : Node) (tId cur : String) (ns : List NeighborRec) :
    ∀ st : AState, ∀ stp ∈ (aProcessNeighbors g h tNode tId cur ns st).1,
      stp.type = StepType.examineEdge ∨ stp.type = StepType.relaxEdge ∨
      stp.type = StepType.skipEdge := by
  induction ns with
  | nil =>
    intro st stp hstp
    rw [aProcessNeighbors_nil] at hstp
    exact absurd hstp (List.not_mem_nil stp)
  | cons nb rest ih =>
    intro st stp hstp
    by_cases hv : nb.nodeId ∈ st.visited
    · rw [aProcessNeighbors_vis g h tNode tId cur rest hv] at hstp
      exact ih st stp hstp
    · cases hrel : optLt (aNewDist st cur nb)
        (jsGet st.gScore nb.nodeId) with
      | true =>
        rw [aProcessNeighbors_relax g h tNode tId cur rest hv hrel] at hstp
        rw [List.mem_cons, List.mem_cons] at hstp
        rcases hstp with rfl | rfl | hstp
        · exact Or.inl rfl
        · exact Or.inr (Or.inl rfl)
        · exact ih _ stp hstp
      | false =>
        rw [aProcessNeighbors_skip g h tNode tId cur rest hv hrel] at hstp
        rw [List.mem_cons, List.mem_cons] at hstp
        rcases hstp with rfl | rfl | hstp
        · exact Or.inl rfl
        · exact Or.inr (Or.inr rfl)
        · exact ih _ stp hstp

/-- Every `path-found` step of the A* loop records a chain from the source
to the target whose chain cost equals the recorded total. -/
theorem astarLoop_pathFound (g : Graph) (s : String)
    (h : Node → Node → ℤ) (tNode : Node) (tId : String) (fuel : Nat) :
    ∀ st : AState, AI g s st →
      ∀ stp ∈ astarLoop g h s tNode tId fuel st,
        stp.type = StepType.pathFound →
        ∃ (path : List String) (ctot : ℤ),
          stp.shortestPath = some path ∧
          stp.totalDistance = some ((ctot : ℤ) : ENum) ∧
          ChainCost g path ctot ∧ path.head? = some s ∧
          path.getLast? = some tId := by
  induction fuel with
  | zero =>
    intro st _ stp hstp
    rw [astarLoop_zero] at hstp
    exact absurd hstp (List.not_mem_nil stp)
  | succ f ih =>
    intro st hai stp hstp htype
    rcases hdq : dequeue st.openSet with _ | ⟨⟨⟨c, p⟩, pq'⟩⟩
    · rw [astarLoop_empty g h s tNode tId f hdq] at hstp
      rw [List.mem_singleton] at hstp
      subst hstp
      exact absurd htype (by simp [aNoPathStep, snapA])
    · by_cases hcv : c ∈ st.visited
      · rw [astarLoop_stale g h s tNode tId f hdq hcv] at hstp
        exact ih _ (ai_pop_stale hai hdq hcv) stp hstp htype
      · by_cases ht : c = tId
        · rw [astarLoop_target g h s tNode tId f hdq hcv ht] at hstp
          rw [List.mem_cons, List.mem_singleton] at hstp
          rcases hstp with rfl | rfl
          · exact absurd htype (by simp [aSelStep, snapA])
          · subst ht
            have hmemc : (c, p) ∈ st.openSet :=
              (dequeue_perm hdq).mem_iff.mpr (List.mem_cons_self _ _)
            obtain ⟨dtc, hdtc⟩ := hai.qfing (c, p) hmemc
            have hrank : ∀ v u,
                jsGet st.predecessors v = some (some u) →
                st.visited.indexOf u < st.visited.indexOf v := by
              intro v u hvu
              exact (hai.predSound v u hvu).2.1
            have hfuel : st.visited.indexOf c <
                st.predecessors.length + 1 := by
              have h1 : st.visited.indexOf c ≤ st.visited.length :=
                List.indexOf_le_length
              have h2 : st.visited.length ≤ st.predecessors.length := by
                refine visited_le_preds hai.vnodup ?_
                intro v hv
                rw [← jsGet_isSome_iff]
                exact hai.vkey v hv
              omega
            obtain ⟨path, hpath, hpne, hplast, hphd, hpch⟩ :=
              reconstructGo_chain st.predecessors
                (fun v => st.visited.indexOf v) hrank
                (st.predecessors.length + 1) c [] hfuel
            rw [List.append_nil] at hpath
            have hps : ∀ v u,
                jsGet st.predecessors v = some (some u) →
                ∃ (k : String) (w du : ℤ), CanStep g u k v w ∧
                  jsGet st.gScore u = some ((du : ℤ) : ENum) ∧
                  jsGet st.gScore v = some (((du + w : ℤ)) : ENum) :=
              fun v u hvu => (hai.predSound v u hvu).2.2
            obtain ⟨hd0, hhd0⟩ : ∃ hd0, path.head? = some hd0 := by
              rcases path with _ | ⟨a, l⟩
              · exact absurd rfl hpne
              · exact ⟨a, rfl⟩
            have hhd0s : hd0 = s := by
              rcases hq : path with _ | ⟨p0, prest⟩
              · exact absurd hq hpne
              · have hp0 : hd0 = p0 := by
                  rw [hq, List.head?_cons, Option.some.injEq] at hhd0
                  exact hhd0.symm
                subst hp0
                rcases prest with _ | ⟨p1, prest2⟩
                · have hp0c : hd0 = c := by
                    rw [hq, List.getLast?_singleton,
                      Option.some.injEq] at hplast
                    exact hplast
                  subst hp0c
                  by_contra hne
                  obtain ⟨u, hu⟩ := hai.qpred (hd0, p) hmemc hne
                  rcases hphd hd0 (by rw [hq, List.head?_cons]; rfl) with
                    hstop | hstop
                  · rw [hu] at hstop
                    exact absurd hstop (by simp)
                  · rw [hu] at hstop
                    exact absurd (Option.some.inj hstop) (by simp)
                · rw [hq, List.chain'_cons] at hpch
                  obtain ⟨hlink, _⟩ := hpch
                  have hp0vis := (hai.predSound p1 hd0 hlink).1
                  by_contra hne
                  obtain ⟨u, hu⟩ := hai.vpred hd0 hp0vis hne
                  rcases hphd hd0 (by rw [hq, List.head?_cons]; rfl) with
                    hstop | hstop
                  · rw [hu] at hstop
                    exact absurd hstop (by simp)
                  · rw [hu] at hstop
                    exact absurd (Option.some.inj hstop) (by simp)
            subst hhd0s
            have hchain := chain_cost g st.predecessors st.gScore hps
              path hpch hd0 c 0 dtc hhd0 hplast
              (by rw [hai.src0]) hdtc
            have he0 : dtc - 0 = dtc := by omega
            rw [he0] at hchain
            refine ⟨path, dtc, ?_, ?_, hchain, hhd0 ▸ rfl, hplast⟩
            · show some (reconstructPath st.predecessors c) = some path
              unfold reconstructPath
              rw [hpath]
            · show jsGet st.gScore c = _
              exact hdtc
        · rw [astarLoop_visit g h s tNode tId f hdq hcv ht] at hstp
          rw [List.mem_cons, List.mem_append] at hstp
          rcases hstp with rfl | hstp | hstp
          · exact absurd htype (by simp [aSelStep, snapA])
          · rcases aProcessNeighbors_types g h tNode tId c
              (getNeighbors g c) (aLoopSt2 s tId (aLoopSt0 st c pq') c)
              stp hstp with h1 | h1 | h1 <;> rw [htype] at h1 <;>
              exact absurd h1 (by simp)
          · exact ih _ (ai_step_visit hai hdq hcv) stp hstp htype
/-! ## Establishment and preservation of the light Dijkstra invariant -/

theorem di_init (g : Graph) (s : String) (t : Option String)
    (hs : HasNode g s) : DI g s (dijkstraInit g s t) := by
  have hsm : s ∈ g.nodes.map Prod.fst := hasNode_iff.mp hs
  have hpq : (dijkstraInit g s t).pq = [(s, ((0 : ℤ) : ENum))] := rfl
  have hdist : ∀ v, jsGet (dijkstraInit g s t).distances v =
      if v ∈ g.nodes.map Prod.fst then
        some (if v = s then ((0 : ℤ) : ENum) else ⊤) else none :=
    fun v => jsGet_initDistances g.nodes s v
  have hpredv : ∀ v, jsGet (dijkstraInit g s t).predecessors v =
      if v ∈ g.nodes.map Prod.fst then some none else none :=
    fun v => jsGet_initPreds g.nodes v
  constructor
  · rw [hdist s, if_pos hsm, if_pos rfl]
  · exact List.nodup_nil
  · intro v hv
    exact absurd hv (List.not_mem_nil v)
  · intro e he
    rw [hpq, List.mem_singleton] at he
    subst he
    rw [hpredv, if_pos hsm]
    rfl
  · intro e he
    rw [hpq, List.mem_singleton] at he
    subst he
    exact ⟨0, by rw [hdist, if_pos hsm, if_pos rfl]⟩
  · intro e he hne
    rw [hpq, List.mem_singleton] at he
    subst he
    exact absurd rfl hne
  · intro v u hvu
    rw [hpredv] at hvu
    by_cases hm : v ∈ g.nodes.map Prod.fst
    · rw [if_pos hm] at hvu
      exact absurd (Option.some.inj hvu) (by simp)
    · rw [if_neg hm] at hvu
      exact absurd hvu (by simp)
  · intro v hv
    exact absurd hv (List.not_mem_nil v)
  · exact Or.inr ⟨rfl, hpq⟩

theorem di_pop_stale {g : Graph} {s : String} {st : DState} {c : String}
    {pq' : List PQEntry} {p : ENum} (hdi : DI g s st)
    (hdq : dequeue st.pq = some ((c, p), pq')) (hc : c ∈ st.visited) :
    DI g s { st with pq := pq' } := by
  have hperm := dequeue_perm hdq
  have hsub : ∀ e ∈ pq', e ∈ st.pq := fun e he =>
    hperm.mem_iff.mpr (List.mem_cons_of_mem _ he)
  constructor
  · exact hdi.src0
  · exact hdi.vnodup
  · exact hdi.vkey
  · exact fun e he => hdi.qkey e (hsub e he)
  · exact fun e he => hdi.qfing e (hsub e he)
  · exact fun e he => hdi.qpred e (hsub e he)
  · exact hdi.predSound
  · exact hdi.vpred
  · rcases hdi.start with hs2 | ⟨hve, _⟩
    · exact Or.inl hs2
    · rw [hve] at hc
      exact absurd hc (List.not_mem_nil c)

theorem di_pop_visit {g : Graph} {s : String} {t : Option String}
    {st : DState} {c : String} {pq' : List PQEntry} {p : ENum}
    (hdi : DI g s st) (hdq : dequeue st.pq = some ((c, p), pq'))
    (hc : c ∉ st.visited) :
    DI g s (dLoopSt2 s t { st with pq := pq' } c) ∧
    (dLoopSt2 s t { st with pq := pq' } c).visited =
      st.visited ++ [c] := by
  have hperm := dequeue_perm hdq
  have hmemc : (c, p) ∈ st.pq :=
    hperm.mem_iff.mpr (List.mem_cons_self _ _)
  have hsub : ∀ e ∈ pq', e ∈ st.pq := fun e he =>
    hperm.mem_iff.mpr (List.mem_cons_of_mem _ he)
  have hvapp : (dLoopSt2 s t { st with pq := pq' } c).visited =
      st.visited ++ [c] := by
    show jsAdd st.visited c = _
    unfold jsAdd
    rw [if_neg hc]
  refine ⟨?_, hvapp⟩
  constructor
  · exact hdi.src0
  · rw [hvapp, List.nodup_append]
    refine ⟨hdi.vnodup, List.nodup_singleton c, ?_⟩
    intro x hx hxc
    rw [List.mem_singleton] at hxc
    exact hc (hxc ▸ hx)
  · intro v hv
    rw [hvapp] at hv
    rcases List.mem_append.mp hv with hv | hv
    · exact hdi.vkey v hv
    · rw [List.mem_singleton] at hv
      subst hv
      exact hdi.qkey (v, p) hmemc
  · intro e he
    exact hdi.qkey e (hsub e he)
  · intro e he
    exact hdi.qfing e (hsub e he)
  · intro e he
    exact hdi.qpred e (hsub e he)
  · intro v u hvu
    obtain ⟨huv, hidx, k', w', du', hcs', hdu', hdv'⟩ :=
      hdi.predSound v u hvu
    refine ⟨by rw [hvapp]; exact List.mem_append_left _ huv, ?_,
      k', w', du', hcs', hdu', hdv'⟩
    rw [hvapp, List.indexOf_append_of_mem huv]
    by_cases hvo : v ∈ st.visited
    · rw [List.indexOf_append_of_mem hvo]
      exact hidx
    · have h1 : st.visited.indexOf u < st.visited.length := by
        rw [← List.indexOf_eq_length.mpr hvo]
        exact hidx
      exact lt_of_lt_of_le h1 (indexOf_append_ge hvo)
  · intro v hv hvs
    rw [hvapp] at hv
    rcases List.mem_append.mp hv with hv | hv
    · exact hdi.vpred v hv hvs
    · rw [List.mem_singleton] at hv
      subst hv
      exact hdi.qpred (v, p) hmemc hvs
  · left
    rw [hvapp]
    rcases hdi.start with hs2 | ⟨hve, hpq0⟩
    · exact List.mem_append_left _ hs2
    · rw [hpq0] at hdq
      have heq : dequeue [(s, ((0 : ℤ) : ENum))] =
          some ((s, ((0 : ℤ) : ENum)), []) := rfl
      rw [heq] at hdq
      simp only [Option.some.injEq, Prod.mk.injEq] at hdq
      obtain ⟨⟨hv1, _⟩, _⟩ := hdq
      subst hv1
      exact List.mem_append_right _ (List.mem_singleton_self s)
theorem di_relax {g : Graph} {s : String} {t : Option String}
    {cur : String} {nb : NeighborRec} {st : DState}
    (hcs : CanStep g cur nb.edgeId nb.nodeId nb.weight)
    (hv : nb.nodeId ∉ st.visited) (hcur : cur ∈ st.visited)
    (hs : s ∈ st.visited) (hdi : DI g s st)
    (hrel : optLt (dNewDist st cur nb)
      (jsGet st.distances nb.nodeId) = true) :
    DI g s (dRelaxSt2 t st cur nb) := by
  obtain ⟨x, y, hx, hy, hxy⟩ := optLt_some hrel
  obtain ⟨gc, hgc, hxval⟩ : ∃ gc, jsGet st.distances cur = some gc ∧
      x = gc + ((nb.weight : ℤ) : ENum) := by
    unfold dNewDist at hx
    rcases hgc : jsGet st.distances cur with _ | gc
    · rw [hgc] at hx
      exact absurd hx (by simp)
    · rw [hgc] at hx
      simp only [Option.map_some', Option.some.injEq] at hx
      exact ⟨gc, rfl, hx.symm⟩
  obtain ⟨dc, rfl⟩ : ∃ dc : ℤ, gc = ((dc : ℤ) : ENum) := by
    cases gc with
    | none =>
      exfalso
      have hxt : x = ⊤ := by
        rw [hxval]
        exact top_add _
      rw [hxt] at hxy
      exact not_top_lt hxy
    | some dc => exact ⟨dc, rfl⟩
  have hxc : x = (((dc + nb.weight : ℤ)) : ENum) := by
    rw [hxval]
    push_cast
    rfl
  have hnbne : nb.nodeId ≠ cur := fun h2 => hv (h2 ▸ hcur)
  have hnbs : nb.nodeId ≠ s := fun h2 => hv (h2 ▸ hs)
  have hgets : ∀ v, jsGet (dRelaxSt2 t st cur nb).distances v =
      if v = nb.nodeId then some x else jsGet st.distances v := by
    intro v
    show jsGet (jsSet st.distances nb.nodeId
      ((dNewDist st cur nb).getD _)) v = _
    rw [hx, Option.getD_some, jsGet_jsSet]
  have hgetp : ∀ v, jsGet (dRelaxSt2 t st cur nb).predecessors v =
      if v = nb.nodeId then some (some cur)
      else jsGet st.predecessors v := by
    intro v
    show jsGet (jsSet st.predecessors nb.nodeId (some cur)) v = _
    rw [jsGet_jsSet]
  have hq : ∀ e ∈ (dRelaxSt2 t st cur nb).pq,
      e = (nb.nodeId, x) ∨ e ∈ st.pq := by
    intro e he
    have hpq : (dRelaxSt2 t st cur nb).pq =
        enqueue st.pq nb.nodeId x := by
      show enqueue st.pq nb.nodeId ((dNewDist st cur nb).getD _) = _
      rw [hx, Option.getD_some]
    rw [hpq, mem_enqueue] at he
    exact he
  constructor
  · rw [hgets, if_neg (Ne.symm hnbs)]
    exact hdi.src0
  · exact hdi.vnodup
  · intro v hv2
    rw [hgetp]
    by_cases hvn : v = nb.nodeId
    · rw [if_pos hvn]
      rfl
    · rw [if_neg hvn]
      exact hdi.vkey v hv2
  · intro e he
    rcases hq e he with rfl | he2
    · rw [hgetp]
      simp
    · rw [hgetp]
      by_cases hen : e.1 = nb.nodeId
      · rw [if_pos hen]
        rfl
      · rw [if_neg hen]
        exact hdi.qkey e he2
  · intro e he
    rcases hq e he with rfl | he2
    · refine ⟨dc + nb.weight, ?_⟩
      rw [hgets, hxc]
      simp
    · rw [hgets]
      by_cases hen : e.1 = nb.nodeId
      · rw [if_pos hen]
        exact ⟨dc + nb.weight, by rw [hxc]⟩
      · rw [if_neg hen]
        exact hdi.qfing e he2
  · intro e he hne
    rcases hq e he with rfl | he2
    · refine ⟨cur, ?_⟩
      rw [hgetp]
      simp
    · rw [hgetp]
      by_cases hen : e.1 = nb.nodeId
      · rw [if_pos hen]
        exact ⟨cur, rfl⟩
      · rw [if_neg hen]
        exact hdi.qpred e he2 hne
  · intro v u hvu
    rw [hgetp] at hvu
    by_cases hvn : v = nb.nodeId
    · rw [if_pos hvn] at hvu
      have huc : u = cur := (Option.some.inj (Option.some.inj hvu)).symm
      subst huc
      subst hvn
      refine ⟨hcur, ?_, nb.edgeId, nb.weight, dc, hcs, ?_, ?_⟩
      · show st.visited.indexOf _ < st.visited.indexOf nb.nodeId
        rw [List.indexOf_eq_length.mpr hv]
        exact List.indexOf_lt_length.mpr hcur
      · rw [hgets, if_neg (fun h2 => hnbne h2.symm)]
        exact hgc
      · rw [hgets, if_pos rfl, hxc]
    · rw [if_neg hvn] at hvu
      obtain ⟨huv, hidx, k', w', du', hcs', hdu', hdv'⟩ :=
        hdi.predSound v u hvu
      have hun : u ≠ nb.nodeId := fun h2 => hv (h2 ▸ huv)
      refine ⟨huv, hidx, k', w', du', hcs', ?_, ?_⟩
      · rw [hgets, if_neg hun]
        exact hdu'
      · rw [hgets, if_neg hvn]
        exact hdv'
  · intro v hv2 hvs
    have hvn : v ≠ nb.nodeId := fun h2 => hv (h2 ▸ hv2)
    obtain ⟨u, hu⟩ := hdi.vpred v hv2 hvs
    refine ⟨u, ?_⟩
    rw [hgetp, if_neg hvn]
    exact hu
  · exact Or.inl hs

theorem processNeighbors_di (g : Graph) (s : String) (t : Option String)
    (cur : String) (ns : List NeighborRec) :
    ∀ st : DState,
      (∀ nb ∈ ns, CanStep g cur nb.edgeId nb.nodeId nb.weight) →
      cur ∈ st.visited → s ∈ st.visited → DI g s st →
      DI g s (processNeighbors g t cur ns st).2 := by
  induction ns with
  | nil =>
    intro st _ _ _ hdi
    rw [processNeighbors_nil]
    exact hdi
  | cons nb rest ih =>
    intro st hns hcur hs hdi
    have hcs : CanStep g cur nb.edgeId nb.nodeId nb.weight :=
      hns nb (List.mem_cons_self nb rest)
    have hns' : ∀ nb2 ∈ rest, CanStep g cur nb2.edgeId nb2.nodeId
        nb2.weight := fun nb2 h2 => hns nb2 (List.mem_cons_of_mem nb h2)
    by_cases hv : nb.nodeId ∈ st.visited
    · rw [processNeighbors_vis g t cur rest hv]
      exact ih st hns' hcur hs hdi
    · cases hrel : optLt (dNewDist st cur nb)
        (jsGet st.distances nb.nodeId) with
      | true =>
        rw [processNeighbors_relax g t cur rest hv hrel]
        exact ih (dRelaxSt2 t st cur nb) hns' hcur hs
          (di_relax hcs hv hcur hs hdi hrel)
      | false =>
        rw [processNeighbors_skip g t cur rest hv hrel]
        have hdi3 : DI g s (dSkipSt3 st nb) :=
          ⟨hdi.src0, hdi.vnodup, hdi.vkey, hdi.qkey, hdi.qfing,
           hdi.qpred, hdi.predSound, hdi.vpred, hdi.start⟩
        exact ih (dSkipSt3 st nb) hns' hcur hs hdi3

theorem di_step_visit {g : Graph} {s : String} {t : Option String}
    {st : DState} {c : String} {p : ENum} {pq' : List PQEntry}
    (hdi : DI g s st) (hdq : dequeue st.pq = some ((c, p), pq'))
    (hcv : c ∉ st.visited) :
    DI g s (dLoopSt3 g s t { st with pq := pq' } c) := by
  obtain ⟨hdi2, hvapp⟩ := di_pop_visit (t := t) hdi hdq hcv
  have hcur2 : c ∈ (dLoopSt2 s t { st with pq := pq' } c).visited := by
    rw [hvapp]
    exact List.mem_append_right _ (List.mem_singleton_self c)
  have hs2 : s ∈ (dLoopSt2 s t { st with pq := pq' } c).visited := by
    rcases hdi2.start with hs2 | ⟨hve, _⟩
    · exact hs2
    · rw [hve] at hvapp
      exact absurd hvapp.symm (by simp)
  have hdi3 := processNeighbors_di g s t c (getNeighbors g c)
    (dLoopSt2 s t { st with pq := pq' } c)
    (fun nb h2 => getNeighbors_sound h2) hcur2 hs2 hdi2
  exact ⟨hdi3.src0, hdi3.vnodup, hdi3.vkey, hdi3.qkey, hdi3.qfing,
    hdi3.qpred, hdi3.predSound, hdi3.vpred, hdi3.start⟩
/-- Every `path-found` step of the Dijkstra loop records a chain from the
source to the target whose chain cost equals the recorded total. -/
theorem dijkstraLoop_pathFound (g : Graph) (s : String) (t : Option String)
    (fuel : Nat) :
    ∀ st : DState, DI g s st →
      ∀ stp ∈ dijkstraLoop g s t fuel st,
        stp.type = StepType.pathFound →
        ∃ (path : List String) (ctot : ℤ),
          stp.shortestPath = some path ∧
          stp.totalDistance = some ((ctot : ℤ) : ENum) ∧
          ChainCost g path ctot ∧ path.head? = some s ∧
          ∀ tv, t = some tv → path.getLast? = some tv := by
  induction fuel with
  | zero =>
    intro st _ stp hstp
    rw [dijkstraLoop_zero] at hstp
    exact absurd hstp (List.not_mem_nil stp)
  | succ f ih =>
    intro st hdi stp hstp htype
    rcases hdq : dequeue st.pq with _ | ⟨⟨⟨c, p⟩, pq'⟩⟩
    · rw [dijkstraLoop_empty g s t f hdq] at hstp
      obtain ⟨x, hx, _, _, hxnf⟩ := dTermSteps_single s t st
      rw [hx, List.mem_singleton] at hstp
      subst hstp
      exact absurd htype hxnf
    · by_cases hcv : c ∈ st.visited
      · rw [dijkstraLoop_stale g s t f hdq hcv] at hstp
        exact ih _ (di_pop_stale hdi hdq hcv) stp hstp htype
      · by_cases ht : t = some c ∧ c ≠ ""
        · rw [dijkstraLoop_target g s t f hdq hcv ht] at hstp
          rw [List.mem_cons, List.mem_singleton] at hstp
          rcases hstp with rfl | rfl
          · exact absurd htype (by simp [dSelStep, snap])
          · have hmemc : (c, p) ∈ st.pq :=
              (dequeue_perm hdq).mem_iff.mpr (List.mem_cons_self _ _)
            obtain ⟨dtc, hdv⟩ := hdi.qfing (c, p) hmemc
            have hrank : ∀ v u,
                jsGet st.predecessors v = some (some u) →
                st.visited.indexOf u < st.visited.indexOf v := by
              intro v u hvu
              exact (hdi.predSound v u hvu).2.1
            have hfuel : st.visited.indexOf c <
                st.predecessors.length + 1 := by
              have h1 : st.visited.indexOf c ≤ st.visited.length :=
                List.indexOf_le_length
              have h2 : st.visited.length ≤ st.predecessors.length := by
                refine visited_le_preds hdi.vnodup ?_
                intro v hv
                rw [← jsGet_isSome_iff]
                exact hdi.vkey v hv
              omega
            obtain ⟨path, hpath, hpne, hplast, hphd, hpch⟩ :=
              reconstructGo_chain st.predecessors
                (fun v => st.visited.indexOf v) hrank
                (st.predecessors.length + 1) c [] hfuel
            rw [List.append_nil] at hpath
            have hps : ∀ v u,
                jsGet st.predecessors v = some (some u) →
                ∃ (k : String) (w du : ℤ), CanStep g u k v w ∧
                  jsGet st.distances u = some ((du : ℤ) : ENum) ∧
                  jsGet st.distances v = some (((du + w : ℤ)) : ENum) :=
              fun v u hvu => (hdi.predSound v u hvu).2.2
            obtain ⟨hd0, hhd0⟩ : ∃ hd0, path.head? = some hd0 := by
              rcases path with _ | ⟨a, l⟩
              · exact absurd rfl hpne
              · exact ⟨a, rfl⟩
            have hhd0s : hd0 = s := by
              rcases hq : path with _ | ⟨p0, prest⟩
              · exact absurd hq hpne
              · have hp0 : hd0 = p0 := by
                  rw [hq, List.head?_cons, Option.some.injEq] at hhd0
                  exact hhd0.symm
                subst hp0
                rcases prest with _ | ⟨p1, prest2⟩
                · have hp0c : hd0 = c := by
                    rw [hq, List.getLast?_singleton,
                      Option.some.injEq] at hplast
                    exact hplast
                  subst hp0c
                  by_contra hne
                  obtain ⟨u, hu⟩ := hdi.qpred (hd0, p) hmemc hne
                  rcases hphd hd0 (by rw [hq, List.head?_cons]; rfl) with
                    hstop | hstop
                  · rw [hu] at hstop
                    exact absurd hstop (by simp)
                  · rw [hu] at hstop
                    exact absurd (Option.some.inj hstop) (by simp)
                · rw [hq, List.chain'_cons] at hpch
                  obtain ⟨hlink, _⟩ := hpch
                  have hp0vis := (hdi.predSound p1 hd0 hlink).1
                  by_contra hne
                  obtain ⟨u, hu⟩ := hdi.vpred hd0 hp0vis hne
                  rcases hphd hd0 (by rw [hq, List.head?_cons]; rfl) with
                    hstop | hstop
                  · rw [hu] at hstop
                    exact absurd hstop (by simp)
                  · rw [hu] at hstop
                    exact absurd (Option.some.inj hstop) (by simp)
            subst hhd0s
            have hchain := chain_cost g st.predecessors st.distances hps
              path hpch hd0 c 0 dtc hhd0 hplast
              (by rw [hdi.src0]) hdv
            have he0 : dtc - 0 = dtc := by omega
            rw [he0] at hchain
            refine ⟨path, dtc, ?_, ?_, hchain, hhd0 ▸ rfl, ?_⟩
            · show some (reconstructPath st.predecessors c) = some path
              unfold reconstructPath
              rw [hpath]
            · show jsGet st.distances c = _
              exact hdv
            · intro tv htv
              rw [ht.1, Option.some.injEq] at htv
              rw [hplast, htv]
        · rw [dijkstraLoop_visit g s t f hdq hcv ht] at hstp
          rw [List.mem_cons, List.mem_cons, List.mem_append] at hstp
          rcases hstp with rfl | rfl | hstp | hstp
          · exact absurd htype (by simp [dSelStep, snap])
          · exact absurd htype (by simp [dMvStep, snap])
          · rcases processNeighbors_types g t c (getNeighbors g c)
              (dLoopSt2 s t { st with pq := pq' } c) stp hstp with
              h1 | h1 | h1 <;> rw [htype] at h1 <;> exact absurd h1 (by simp)
          · exact ih _ (di_step_visit hdi hdq hcv) stp hstp htype
/-! ## Claim C2: consistency of path-found steps -/

/-- C2, counterexample: Dijkstra on the empty graph with source and target
both "A" emits a `path-found` step (index 2) whose path is `["A"]` but
whose recorded total distance is `none` — JS `undefined`, since the
distance map has no entry for the phantom source — rather than the path's
edge-weight sum 0.  So the recorded total does not equal the sum of edge
weights along the recorded path. -/
theorem dijkstra_pathFound_undefined_total :
    ((generateDijkstraSteps ⟨[], [], [], false⟩ "A" (some "A")).map
      (fun stp => (stp.type, stp.shortestPath, stp.totalDistance))).get? 2
      = some (StepType.pathFound, some ["A"], none) := by
  decide

/-- C2 (amended): whenever either engine emits a `path-found` step — for
Dijkstra under the sole additional assumption that the supplied source id
names a node of the graph (A* enforces both endpoints itself and aborts
otherwise) — the step's recorded path joins the source to the supplied
target along graph edges, and the recorded total distance is exactly the
sum of the weights of the edges joining the path's consecutive nodes
(`ChainCost`). -/
theorem path_found_consistent (g : Graph) (s : String) (t : Option String)
    (t2 : String) (h : Node → Node → ℤ) (hs : HasNode g s) :
    (∀ stp ∈ generateDijkstraSteps g s t,
      stp.type = StepType.pathFound →
      ∃ (path : List String) (ctot : ℤ),
        stp.shortestPath = some path ∧
        stp.totalDistance = some ((ctot : ℤ) : ENum) ∧
        ChainCost g path ctot ∧ path.head? = some s ∧
        ∀ tv, t = some tv → path.getLast? = some tv) ∧
    (∀ stp ∈ (generateAStarSteps g s t2 h).1,
      stp.type = StepType.pathFound →
      ∃ (path : List String) (ctot : ℤ),
        stp.shortestPath = some path ∧
        stp.totalDistance = some ((ctot : ℤ) : ENum) ∧
        ChainCost g path ctot ∧ path.head? = some s ∧
        path.getLast? = some t2) := by
  constructor
  · intro stp hstp htype
    unfold generateDijkstraSteps at hstp
    rw [List.mem_cons] at hstp
    rcases hstp with rfl | hstp
    · exact absurd htype (by simp [snap])
    · exact dijkstraLoop_pathFound g s t (dijkstraFuel g)
        (dijkstraInit g s t) (di_init g s t hs) stp hstp htype
  · intro stp hstp htype
    unfold generateAStarSteps at hstp
    rcases htl : jsGet g.nodes t2 with _ | tNode
    · rw [htl] at hstp
      exact absurd hstp (List.not_mem_nil stp)
    · rcases hsl : jsGet g.nodes s with _ | sNode
      · rw [htl, hsl] at hstp
        exact absurd hstp (List.not_mem_nil stp)
      · rw [htl, hsl] at hstp
        rw [List.mem_cons] at hstp
        rcases hstp with rfl | hstp
        · exact absurd htype (by simp [snapA])
        · have hsm : s ∈ g.nodes.map Prod.fst := by
            rw [← jsGet_isSome_iff, hsl]
            rfl
          exact astarLoop_pathFound g s h tNode t2 (dijkstraFuel g)
            (astarInit g s t2 (h sNode tNode))
            (ai_init g s t2 (h sNode tNode) hsm) stp hstp htype

/-- Witness for C2: the hypothesis holds of `gC3` with source S, and the
theorem applies to it. -/
theorem path_found_consistent_witness :
    HasNode gC3 "S" ∧
    ((∀ stp ∈ generateDijkstraSteps gC3 "S" (some "T"),
      stp.type = StepType.pathFound →
      ∃ (path : List String) (ctot : ℤ),
        stp.shortestPath = some path ∧
        stp.totalDistance = some ((ctot : ℤ) : ENum) ∧
        ChainCost gC3 path ctot ∧ path.head? = some "S" ∧
        ∀ tv, (some "T" : Option String) = some tv →
          path.getLast? = some tv) ∧
    (∀ stp ∈ (generateAStarSteps gC3 "S" "T" (fun _ _ => 0)).1,
      stp.type = StepType.pathFound →
      ∃ (path : List String) (ctot : ℤ),
        stp.shortestPath = some path ∧
        stp.totalDistance = some ((ctot : ℤ) : ENum) ∧
        ChainCost gC3 path ctot ∧ path.head? = some "S" ∧
        path.getLast? = some "T"))  :=
  ⟨by unfold HasNode; decide,
   path_found_consistent gC3 "S" (some "T") "T" (fun _ _ => 0)
     (by unfold HasNode; decide)⟩
/-! ## Fuel sufficiency of the Dijkstra main loop -/

theorem enqueue_length (l : List PQEntry) (x : String) (p : ENum) :
    (enqueue l x p).length = l.length + 1 := by
  have h := (enqueue_perm l x p).length_eq
  simpa using h

theorem dequeue_length {l l' : List PQEntry} {e : PQEntry}
    (h : dequeue l = some (e, l')) : l.length = l'.length + 1 := by
  have h2 := (dequeue_perm h).length_eq
  simpa using h2

/-- The neighbor loop pushes at most one entry per neighbor record. -/
theorem processNeighbors_pq_len (g : Graph) (t : Option String)
    (cur : String) (ns : List NeighborRec) :
    ∀ st : DState, (processNeighbors g t cur ns st).2.pq.length ≤
      st.pq.length + ns.length := by
  induction ns with
  | nil =>
    intro st
    rw [processNeighbors_nil]
    simp
  | cons nb rest ih =>
    intro st
    by_cases hv : nb.nodeId ∈ st.visited
    · rw [processNeighbors_vis g t cur rest hv]
      have := ih st
      simp only [List.length_cons]
      omega
    · cases hrel : optLt (dNewDist st cur nb)
        (jsGet st.distances nb.nodeId) with
      | true =>
        rw [processNeighbors_relax g t cur rest hv hrel]
        have h1 := ih (dRelaxSt2 t st cur nb)
        have h2 : (dRelaxSt2 t st cur nb).pq.length =
            st.pq.length + 1 := by
          show (enqueue st.pq nb.nodeId _).length = _
          exact enqueue_length _ _ _
        simp only [List.length_cons]
        omega
      | false =>
        rw [processNeighbors_skip g t cur rest hv hrel]
        have h1 := ih (dSkipSt3 st nb)
        have h2 : (dSkipSt3 st nb).pq.length = st.pq.length := rfl
        simp only [List.length_cons]
        omega

/-- With no recorded distance for `cur`, the neighbor loop never relaxes:
queue and distances are left untouched. -/
theorem processNeighbors_cur_none (g : Graph) (t : Option String)
    (cur : String) (ns : List NeighborRec) :
    ∀ st : DState, jsGet st.distances cur = none →
      (processNeighbors g t cur ns st).2.pq = st.pq ∧
      (processNeighbors g t cur ns st).2.distances = st.distances := by
  induction ns with
  | nil =>
    intro st _
    rw [processNeighbors_nil]
    exact ⟨rfl, rfl⟩
  | cons nb rest ih =>
    intro st hnone
    by_cases hv : nb.nodeId ∈ st.visited
    · rw [processNeighbors_vis g t cur rest hv]
      exact ih st hnone
    · cases hrel : optLt (dNewDist st cur nb)
        (jsGet st.distances nb.nodeId) with
      | true =>
        exfalso
        unfold dNewDist at hrel
        rw [hnone] at hrel
        simp [optLt] at hrel
      | false =>
        rw [processNeighbors_skip g t cur rest hv hrel]
        exact ih (dSkipSt3 st nb) hnone

/-- The neighbor loop leaves the presence of every distance entry alone
(relaxations overwrite existing keys only). -/
theorem processNeighbors_keys (g : Graph) (t : Option String)
    (cur : String) (ns : List NeighborRec) :
    ∀ st : DState, ∀ v,
      (jsGet (processNeighbors g t cur ns st).2.distances v).isSome =
      (jsGet st.distances v).isSome := by
  induction ns with
  | nil =>
    intro st v
    rw [processNeighbors_nil]
  | cons nb rest ih =>
    intro st v
    by_cases hv : nb.nodeId ∈ st.visited
    · rw [processNeighbors_vis g t cur rest hv]
      exact ih st v
    · cases hrel : optLt (dNewDist st cur nb)
        (jsGet st.distances nb.nodeId) with
      | true =>
        rw [processNeighbors_relax g t cur rest hv hrel]
        rw [ih (dRelaxSt2 t st cur nb) v]
        obtain ⟨x, y, hx, hy, _⟩ := optLt_some hrel
        have hset : (dRelaxSt2 t st cur nb).distances =
            jsSet st.distances nb.nodeId x := by
          show jsSet st.distances nb.nodeId
            ((dNewDist st cur nb).getD _) = _
          rw [hx, Option.getD_some]
        rw [hset, jsGet_jsSet]
        by_cases hvn : v = nb.nodeId
        · rw [if_pos hvn, hvn, hy]
          rfl
        · rw [if_neg hvn]
      | false =>
        rw [processNeighbors_skip g t cur rest hv hrel]
        exact ih (dSkipSt3 st nb) v

theorem filter_map_sum_le (l : List (String × Node)) (f : String → Nat)
    (q r : (String × Node) → Bool) (h : ∀ p, q p = true → r p = true) :
    ((l.filter q).map (fun p => f p.1)).sum ≤
    ((l.filter r).map (fun p => f p.1)).sum := by
  induction l with
  | nil => simp
  | cons p rest ih =>
    by_cases hq : q p = true
    · rw [List.filter_cons_of_pos hq, List.filter_cons_of_pos (h p hq)]
      simp only [List.map_cons, List.sum_cons]
      omega
    · rw [List.filter_cons_of_neg (by simpa using hq)]
      by_cases hr : r p = true
      · rw [List.filter_cons_of_pos hr]
        simp only [List.map_cons, List.sum_cons]
        omega
      · rw [List.filter_cons_of_neg (by simpa using hr)]
        exact ih
/-- Marking one more node visited drops at least `f c` (plus one occurrence)
from the unvisited-sum when `c` is a node key. -/
theorem filter_map_sum_drop (l : List (String × Node)) (f : String → Nat)
    (visited : List String) (c : String) :
    c ∈ l.map Prod.fst → c ∉ visited →
    ((l.filter (fun p => ¬ p.1 ∈ jsAdd visited c)).map
      (fun p => f p.1)).sum + f c ≤
    ((l.filter (fun p => ¬ p.1 ∈ visited)).map (fun p => f p.1)).sum := by
  induction l with
  | nil =>
    intro hc
    simp at hc
  | cons p rest ih =>
    intro hc hnc
    have hsub := filter_map_sum_le rest f
      (fun p => ¬ p.1 ∈ jsAdd visited c) (fun p => ¬ p.1 ∈ visited) ?side
    case side =>
      intro p2 hp2
      simp only [decide_eq_true_eq] at hp2 ⊢
      intro hmem
      exact hp2 (jsAdd_sub hmem)
    by_cases hpc : p.1 = c
    · have hA : (decide (¬ p.1 ∈ jsAdd visited c)) = false :=
        decide_eq_false (by
          intro h2
          exact h2 (by rw [hpc, mem_jsAdd]; exact Or.inr rfl))
      have hB : (decide (¬ p.1 ∈ visited)) = true :=
        decide_eq_true (by rw [hpc]; exact hnc)
      rw [List.filter_cons, List.filter_cons, hA, hB]
      simp only [Bool.false_eq_true, if_false, if_true, List.map_cons,
        List.sum_cons]
      rw [hpc]
      omega
    · have hc' : c ∈ rest.map Prod.fst := by
        rcases List.mem_map.mp hc with ⟨q, hq, hq1⟩
        rcases List.mem_cons.mp hq with rfl | hq2
        · exact absurd hq1 hpc
        · exact List.mem_map.mpr ⟨q, hq2, hq1⟩
      by_cases hmem : p.1 ∈ visited
      · have hA : (decide (¬ p.1 ∈ jsAdd visited c)) = false :=
          decide_eq_false (by
            intro h2
            exact h2 (jsAdd_sub hmem))
        have hB : (decide (¬ p.1 ∈ visited)) = false :=
          decide_eq_false (by
            intro h2
            exact h2 hmem)
        rw [List.filter_cons, List.filter_cons, hA, hB]
        simp only [Bool.false_eq_true, if_false]
        exact ih hc' hnc
      · have hnew2 : ¬ p.1 ∈ jsAdd visited c := by
          rw [mem_jsAdd]
          rintro (h2 | h2)
          · exact hmem h2
          · exact hpc h2
        have hA : (decide (¬ p.1 ∈ jsAdd visited c)) = true :=
          decide_eq_true hnew2
        have hB : (decide (¬ p.1 ∈ visited)) = true :=
          decide_eq_true hmem
        rw [List.filter_cons, List.filter_cons, hA, hB]
        simp only [if_true, List.map_cons, List.sum_cons]
        have := ih hc' hnc
        omega
theorem getLast_append_of_getLast {α : Type} {l1 l2 : List α} {x : α}
    (h : l2.getLast? = some x) : (l1 ++ l2).getLast? = some x := by
  rw [List.getLast?_append, h]
  rfl

theorem getLast_cons_of_getLast {α : Type} {a x : α} {l : List α}
    (h : l.getLast? = some x) : (a :: l).getLast? = some x := by
  rw [show a :: l = [a] ++ l from rfl]
  exact getLast_append_of_getLast h

/-- A `path-found` step ends the run: it is the loop output's last step. -/
theorem dijkstraLoop_found_last (g : Graph) (s : String) (t : Option String)
    (fuel : Nat) :
    ∀ st : DState, ∀ stp ∈ dijkstraLoop g s t fuel st,
      stp.type = StepType.pathFound →
      (dijkstraLoop g s t fuel st).getLast? = some stp := by
  induction fuel with
  | zero =>
    intro st stp hstp
    rw [dijkstraLoop_zero] at hstp
    exact absurd hstp (List.not_mem_nil stp)
  | succ f ih =>
    intro st stp hstp htype
    rcases hdq : dequeue st.pq with _ | ⟨⟨⟨c, p⟩, pq'⟩⟩
    · rw [dijkstraLoop_empty g s t f hdq] at hstp ⊢
      obtain ⟨x, hx, _, _, hxnf⟩ := dTermSteps_single s t st
      rw [hx, List.mem_singleton] at hstp
      subst hstp
      exact absurd htype hxnf
    · by_cases hcv : c ∈ st.visited
      · rw [dijkstraLoop_stale g s t f hdq hcv] at hstp ⊢
        exact ih _ stp hstp htype
      · by_cases ht : t = some c ∧ c ≠ ""
        · rw [dijkstraLoop_target g s t f hdq hcv ht] at hstp ⊢
          rw [List.mem_cons, List.mem_singleton] at hstp
          rcases hstp with rfl | rfl
          · exact absurd htype (by simp [dSelStep, snap])
          · rfl
        · rw [dijkstraLoop_visit g s t f hdq hcv ht] at hstp ⊢
          rw [List.mem_cons, List.mem_cons, List.mem_append] at hstp
          rcases hstp with rfl | rfl | hstp | hstp
          · exact absurd htype (by simp [dSelStep, snap])
          · exact absurd htype (by simp [dMvStep, snap])
          · rcases processNeighbors_types g t c (getNeighbors g c)
              (dLoopSt2 s t { st with pq := pq' } c) stp hstp with
              h1 | h1 | h1 <;> rw [htype] at h1 <;> exact absurd h1 (by simp)
          · have hrec := ih _ stp hstp htype
            exact getLast_cons_of_getLast (getLast_cons_of_getLast
              (getLast_append_of_getLast hrec))

/-- Popping only (a stale pop) lowers the potential by exactly one. -/
theorem dPotential_pop {g : Graph} {st : DState} {c : String} {p : ENum}
    {pq' : List PQEntry} (hdq : dequeue st.pq = some ((c, p), pq')) :
    dPotential g { st with pq := pq' } + 1 = dPotential g st := by
  unfold dPotential
  have := dequeue_length hdq
  simp only []
  omega

/-- A full visit iteration strictly lowers the potential. -/
theorem dPotential_visit {g : Graph} {s : String} {t : Option String}
    {st : DState} {c : String} {p : ENum} {pq' : List PQEntry}
    (hkeys : ∀ v, (jsGet st.distances v).isSome = true ↔ HasNode g v)
    (hdq : dequeue st.pq = some ((c, p), pq')) (hcv : c ∉ st.visited) :
    dPotential g (dLoopSt3 g s t { st with pq := pq' } c) <
      dPotential g st := by
  have hlenpq := dequeue_length hdq
  have hpnvis := (processNeighbors_evol g t c (getNeighbors g c)
    (dLoopSt2 s t { st with pq := pq' } c)).2.1
  have hvis3 : (dLoopSt3 g s t { st with pq := pq' } c).visited =
      jsAdd st.visited c := by
    show (processNeighbors g t c (getNeighbors g c)
      (dLoopSt2 s t { st with pq := pq' } c)).2.visited = _
    rw [hpnvis]
    rfl
  have hpq3 : (dLoopSt3 g s t { st with pq := pq' } c).pq =
      (processNeighbors g t c (getNeighbors g c)
        (dLoopSt2 s t { st with pq := pq' } c)).2.pq := rfl
  by_cases hcn : HasNode g c
  · have hlen := processNeighbors_pq_len g t c (getNeighbors g c)
      (dLoopSt2 s t { st with pq := pq' } c)
    have hdrop : ((g.nodes.filter
        (fun p => ¬ p.1 ∈ jsAdd st.visited c)).map
        (fun p => 1 + (getNeighbors g p.1).length)).sum +
        (1 + (getNeighbors g c).length) ≤
      ((g.nodes.filter (fun p => ¬ p.1 ∈ st.visited)).map
        (fun p => 1 + (getNeighbors g p.1).length)).sum :=
      filter_map_sum_drop g.nodes
        (fun v => 1 + (getNeighbors g v).length) st.visited c
        (hasNode_iff.mp hcn) hcv
    unfold dPotential
    rw [hvis3, hpq3]
    have hpq2 : (dLoopSt2 s t { st with pq := pq' } c).pq = pq' := rfl
    rw [hpq2] at hlen
    omega
  · have hnone : jsGet st.distances c = none := by
      rcases hg : jsGet st.distances c with _ | v
      · rfl
      · exfalso
        refine hcn ((hkeys c).mp ?_)
        rw [hg]
        rfl
    obtain ⟨hpq, _⟩ := processNeighbors_cur_none g t c (getNeighbors g c)
      (dLoopSt2 s t { st with pq := pq' } c) hnone
    have hsub : ((g.nodes.filter
        (fun p => ¬ p.1 ∈ jsAdd st.visited c)).map
        (fun p => 1 + (getNeighbors g p.1).length)).sum ≤
      ((g.nodes.filter (fun p => ¬ p.1 ∈ st.visited)).map
        (fun p => 1 + (getNeighbors g p.1).length)).sum := by
      refine filter_map_sum_le g.nodes
        (fun v => 1 + (getNeighbors g v).length) _ _ ?_
      intro p2 hp2
      simp only [decide_eq_true_eq] at hp2 ⊢
      intro hmem
      exact hp2 (jsAdd_sub hmem)
    unfold dPotential
    rw [hvis3, hpq3, hpq]
    have hpq2 : (dLoopSt2 s t { st with pq := pq' } c).pq = pq' := rfl
    rw [hpq2]
    omega
/-- The key-set of the distance map is loop-invariant. -/
theorem dkeys_step_visit {g : Graph} {s : String} {t : Option String}
    {st : DState} {c : String} {pq' : List PQEntry}
    (hkeys : ∀ v, (jsGet st.distances v).isSome = true ↔ HasNode g v) :
    ∀ v, (jsGet (dLoopSt3 g s t { st with pq := pq' } c).distances
      v).isSome = true ↔ HasNode g v := by
  intro v
  have h1 : (jsGet (dLoopSt3 g s t { st with pq := pq' } c).distances
      v).isSome = (jsGet (dLoopSt2 s t { st with pq := pq' } c).distances
      v).isSome := by
    show (jsGet (processNeighbors g t c (getNeighbors g c)
      (dLoopSt2 s t { st with pq := pq' } c)).2.distances v).isSome = _
    exact processNeighbors_keys g t c (getNeighbors g c)
      (dLoopSt2 s t { st with pq := pq' } c) v
  rw [h1]
  exact hkeys v

/-- With enough fuel, the Dijkstra loop ends in a `path-found` step or in
the queue-exhaustion terminal of the appropriate kind. -/
theorem dijkstraLoop_term (g : Graph) (s : String) (t : Option String)
    (fuel : Nat) :
    ∀ st : DState,
      (∀ v, (jsGet st.distances v).isSome = true ↔ HasNode g v) →
      (∀ tv, t = some tv → tv ≠ "" → tv ∉ st.visited) →
      dPotential g st < fuel →
      ∃ last, (dijkstraLoop g s t fuel st).getLast? = some last ∧
        (last.type = StepType.pathFound ∨
         ((∀ tv, t = some tv → tv ≠ "" → last.type = StepType.noPath) ∧
          (t = none → last.type = StepType.complete))) := by
  induction fuel with
  | zero =>
    intro st _ _ hf
    exact absurd hf (by omega)
  | succ f ih =>
    intro st hkeys htv hf
    rcases hdq : dequeue st.pq with _ | ⟨⟨⟨c, p⟩, pq'⟩⟩
    · rw [dijkstraLoop_empty g s t f hdq]
      cases t with
      | none =>
        simp only [dTermSteps]
        refine ⟨_, rfl, Or.inr ⟨?_, ?_⟩⟩
        · intro tv htv2
          cases htv2
        · intro _
          rfl
      | some tv =>
        simp only [dTermSteps]
        by_cases htv0 : tv ≠ ""
        · have hnv : tv ∉ st.visited := htv tv rfl htv0
          rw [if_pos ⟨htv0, hnv⟩]
          refine ⟨_, rfl, Or.inr ⟨?_, ?_⟩⟩
          · intro tv2 htv2 _
            rfl
          · intro h2
            cases h2
        · rw [if_neg (fun hcon => htv0 hcon.1)]
          refine ⟨_, rfl, Or.inr ⟨?_, ?_⟩⟩
          · intro tv2 htv2 htv3
            rw [Option.some.injEq] at htv2
            subst htv2
            exact absurd htv3 htv0
          · intro h2
            cases h2
    · by_cases hcv : c ∈ st.visited
      · rw [dijkstraLoop_stale g s t f hdq hcv]
        refine ih _ hkeys htv ?_
        have := dPotential_pop (g := g) hdq
        omega
      · by_cases ht : t = some c ∧ c ≠ ""
        · rw [dijkstraLoop_target g s t f hdq hcv ht]
          exact ⟨_, rfl, Or.inl rfl⟩
        · rw [dijkstraLoop_visit g s t f hdq hcv ht]
          have hvis3 : (dLoopSt3 g s t { st with pq := pq' } c).visited =
              jsAdd st.visited c := by
            show (processNeighbors g t c (getNeighbors g c)
              (dLoopSt2 s t { st with pq := pq' } c)).2.visited = _
            rw [(processNeighbors_evol g t c (getNeighbors g c)
              (dLoopSt2 s t { st with pq := pq' } c)).2.1]
            rfl
          have htv3 : ∀ tv, t = some tv → tv ≠ "" →
              tv ∉ (dLoopSt3 g s t { st with pq := pq' } c).visited := by
            intro tv htveq htvne
            rw [hvis3, mem_jsAdd]
            rintro (hmem | rfl)
            · exact htv tv htveq htvne hmem
            · exact ht ⟨htveq, htvne⟩
          obtain ⟨last, hlast, hordl⟩ := ih
            (dLoopSt3 g s t { st with pq := pq' } c)
            (dkeys_step_visit hkeys) htv3
            (by
              have := dPotential_visit (s := s) (t := t) hkeys hdq hcv
              omega)
          exact ⟨last, getLast_cons_of_getLast (getLast_cons_of_getLast
            (getLast_append_of_getLast hlast)), hordl⟩
/-- With no target, the loop never takes the path-found branch. -/
theorem dijkstraLoop_none_no_found (g : Graph) (s : String) (fuel : Nat) :
    ∀ st : DState, ∀ stp ∈ dijkstraLoop g s none fuel st,
      stp.type ≠ StepType.pathFound := by
  induction fuel with
  | zero =>
    intro st stp hstp
    rw [dijkstraLoop_zero] at hstp
    exact absurd hstp (List.not_mem_nil stp)
  | succ f ih =>
    intro st stp hstp
    rcases hdq : dequeue st.pq with _ | ⟨⟨⟨c, p⟩, pq'⟩⟩
    · rw [dijkstraLoop_empty g s none f hdq] at hstp
      obtain ⟨x, hx, _, _, hxnf⟩ := dTermSteps_single s none st
      rw [hx, List.mem_singleton] at hstp
      subst hstp
      exact hxnf
    · by_cases hcv : c ∈ st.visited
      · rw [dijkstraLoop_stale g s none f hdq hcv] at hstp
        exact ih _ stp hstp
      · have ht : ¬ ((none : Option String) = some c ∧ c ≠ "") := by
          rintro ⟨hteq, _⟩
          cases hteq
        rw [dijkstraLoop_visit g s none f hdq hcv ht] at hstp
        rw [List.mem_cons, List.mem_cons, List.mem_append] at hstp
        rcases hstp with rfl | rfl | hstp | hstp
        · simp [dSelStep, snap]
        · simp [dMvStep, snap]
        · intro htype
          rcases processNeighbors_types g none c (getNeighbors g c)
            (dLoopSt2 s none { st with pq := pq' } c) stp hstp with
            h1 | h1 | h1 <;> rw [htype] at h1 <;> exact absurd h1 (by simp)
        · exact ih _ stp hstp

/-- The exported fuel value exceeds the initial potential. -/
theorem dijkstraFuel_sufficient (g : Graph) (s : String)
    (t : Option String) :
    dPotential g (dijkstraInit g s t) < dijkstraFuel g := by
  unfold dPotential dijkstraFuel
  have hpq : (dijkstraInit g s t).pq.length = 1 := rfl
  have hvis : (dijkstraInit g s t).visited = [] := rfl
  rw [hpq, hvis]
  have hfilter : g.nodes.filter (fun p => ¬ p.1 ∈ ([] : List String)) =
      g.nodes := by
    refine List.filter_eq_self.mpr ?_
    intro p _
    simp
  rw [hfilter]
  omega

/-! ## Claim C8: terminal step structure of the single-source engine -/

/-- C8, counterexample: with the empty-string target specified on the empty
graph, the queue empties without the target ever being selected, yet the
run ends in a `complete` step, not a `no-path` step — the exhaustion branch
tests JS truthiness of the target id, and `""` is falsy. -/
theorem dijkstra_empty_target_completes :
    ((generateDijkstraSteps ⟨[], [], [], false⟩ "A" (some "")).map
      (fun stp => stp.type)).getLast? = some StepType.complete := by
  decide

/-- C8 (amended): for every run of the single-source engine with a
non-empty target id, the run ends either in a `path-found` step (the
target was selected) or in a single `no-path` terminal, in which case no
`path-found` step occurs anywhere in the run; with no target (or the falsy
target `""`, by the counterexample) the run ends in a single `complete`
step after the queue empties. -/
theorem single_source_terminal (g : Graph) (s tv : String)
    (htv : tv ≠ "") :
    (∃ last, (generateDijkstraSteps g s (some tv)).getLast? = some last ∧
      (last.type = StepType.pathFound ∨
       (last.type = StepType.noPath ∧
        ∀ stp ∈ generateDijkstraSteps g s (some tv),
          stp.type ≠ StepType.pathFound))) ∧
    (∃ last2, (generateDijkstraSteps g s none).getLast? = some last2 ∧
      last2.type = StepType.complete) := by
  have hkeys : ∀ (t : Option String) v,
      (jsGet (dijkstraInit g s t).distances v).isSome = true ↔
        HasNode g v := by
    intro t v
    show (jsGet (initDistances g.nodes s) v).isSome = true ↔ HasNode g v
    rw [jsGet_initDistances, hasNode_iff]
    by_cases hm : v ∈ g.nodes.map Prod.fst
    · simp [hm]
    · simp [hm]
  constructor
  · obtain ⟨last, hlast, hord⟩ := dijkstraLoop_term g s (some tv)
      (dijkstraFuel g) (dijkstraInit g s (some tv)) (hkeys (some tv))
      (by
        intro tv2 htv2 _
        exact List.not_mem_nil tv2)
      (dijkstraFuel_sufficient g s (some tv))
    refine ⟨last, ?_, ?_⟩
    · unfold generateDijkstraSteps
      exact getLast_cons_of_getLast hlast
    · rcases hord with hord | ⟨hnp, _⟩
      · exact Or.inl hord
      · refine Or.inr ⟨hnp tv rfl htv, ?_⟩
        intro stp hstp htype
        unfold generateDijkstraSteps at hstp
        rw [List.mem_cons] at hstp
        rcases hstp with rfl | hstp
        · exact absurd htype (by simp [snap])
        · have := dijkstraLoop_found_last g s (some tv) (dijkstraFuel g)
            (dijkstraInit g s (some tv)) stp hstp htype
          rw [hlast, Option.some.injEq] at this
          subst this
          rw [htype] at hnp
          exact absurd (hnp tv rfl htv) (by simp)
  · obtain ⟨last2, hlast2, hord2⟩ := dijkstraLoop_term g s none
      (dijkstraFuel g) (dijkstraInit g s none) (hkeys none)
      (by
        intro tv2 htv2
        cases htv2)
      (dijkstraFuel_sufficient g s none)
    refine ⟨last2, ?_, ?_⟩
    · unfold generateDijkstraSteps
      exact getLast_cons_of_getLast hlast2
    · rcases hord2 with hord2 | ⟨_, hcp⟩
      · exfalso
        exact dijkstraLoop_none_no_found g s (dijkstraFuel g)
          (dijkstraInit g s none) last2 (List.mem_of_mem_getLast? hlast2)
          hord2
      · exact hcp rfl

/-- Witness for C8: the theorem applies at the concrete graph `gC3`. -/
theorem single_source_terminal_witness :
    ("T" : String) ≠ "" ∧
    ((∃ last, (generateDijkstraSteps gC3 "S" (some "T")).getLast? =
        some last ∧
      (last.type = StepType.pathFound ∨
       (last.type = StepType.noPath ∧
        ∀ stp ∈ generateDijkstraSteps gC3 "S" (some "T"),
          stp.type ≠ StepType.pathFound))) ∧
    (∃ last2, (generateDijkstraSteps gC3 "S" none).getLast? = some last2 ∧
      last2.type = StepType.complete)) :=
  ⟨by decide, single_source_terminal gC3 "S" "T" (by decide)⟩

/-! Lemmas for claim C6. -/

theorem not_mem_jsErase_self (s : List String) (x : String) :
    ¬ x ∈ jsErase s x := by
  rw [mem_jsErase]
  rintro ⟨_, h⟩
  exact h rfl

theorem mem_jsDelete {α : Type} {m : List (String × α)} {k : String}
    {p : String × α} :
    p ∈ jsDelete m k ↔ p ∈ m ∧ ¬ p.1 = k := by
  unfold jsDelete
  simp

theorem jsDelete_sublist {α : Type} (m : List (String × α)) (k : String) :
    List.Sublist (jsDelete m k) m :=
  List.filter_sublist m

theorem jsGet_jsDelete {α : Type} (m : List (String × α)) (k k' : String) :
    jsGet (jsDelete m k) k' = if k' = k then none else jsGet m k' := by
  by_cases hk : k' = k
  · subst hk
    rw [if_pos rfl, jsGet_eq_none]
    intro p hp
    rw [mem_jsDelete] at hp
    exact hp.2
  · rw [if_neg hk]
    unfold jsGet jsDelete
    rw [List.find?_filter]
    congr 1
    apply findCongr
    intro p _
    by_cases hp : p.1 = k'
    · simp [hp, hk]
    · simp [hp]

theorem jsDelete_keys {α : Type} (m : List (String × α)) (k : String) :
    (jsDelete m k).map Prod.fst =
      (m.map Prod.fst).filter (fun x => ¬ x = k) := by
  unfold jsDelete
  rw [List.filter_map]
  rfl

theorem jsSet_keys_present {α : Type} {m : List (String × α)} {k : String}
    (h : (jsGet m k).isSome = true) (v : α) :
    (jsSet m k v).map Prod.fst = m.map Prod.fst := by
  have hk : k ∈ m.map Prod.fst := jsGet_isSome_iff.mp h
  have hany : m.any (fun p => p.1 = k) = true := by
    rw [List.any_eq_true]
    obtain ⟨p, hp, hpk⟩ := List.mem_map.mp hk
    exact ⟨p, hp, by simpa using hpk⟩
  unfold jsSet
  rw [if_pos hany, List.map_map]
  apply List.map_congr_left
  intro p _
  by_cases hp : p.1 = k
  · simp [hp]
  · simp [hp]

theorem jsSet_fresh {α : Type} {m : List (String × α)} {k : String}
    (h : jsGet m k = none) (v : α) :
    jsSet m k v = m ++ [(k, v)] := by
  rw [jsGet_eq_none] at h
  unfold jsSet
  rw [if_neg]
  rw [List.any_eq_true]
  rintro ⟨p, hp, hpk⟩
  exact h p hp (by simpa using hpk)

theorem jsGet_of_mem_nodup {α : Type} {m : List (String × α)}
    (hn : (m.map Prod.fst).Nodup) {p : String × α} (hp : p ∈ m) :
    jsGet m p.1 = some p.2 := by
  have hs : (jsGet m p.1).isSome = true := jsGet_isSome_of_mem hp
  rcases hg : jsGet m p.1 with _ | v
  · rw [hg] at hs
    exact absurd hs (by simp)
  · have hmem := jsGet_mem hg
    have := List.inj_on_of_nodup_map hn hmem hp rfl
    rw [← this]

theorem nodup_keys_eq {α : Type} {m : List (String × α)}
    (hn : (m.map Prod.fst).Nodup) {p q : String × α}
    (hp : p ∈ m) (hq : q ∈ m) (h : p.1 = q.1) : p = q :=
  List.inj_on_of_nodup_map hn hp hq h

theorem nodup_refs_eq {m : List (String × Nat)}
    (hn : (m.map Prod.snd).Nodup) {p q : String × Nat}
    (hp : p ∈ m) (hq : q ∈ m) (h : p.2 = q.2) : p = q :=
  List.inj_on_of_nodup_map hn hp hq h

theorem storeSet_length (s : Store) (r : Nat) (v : List String) :
    (storeSet s r v).sets.length = s.sets.length :=
  List.length_set s.sets r v

theorem storeGet_storeSet (s : Store) (r : Nat) (v : List String)
    (hr : r < s.sets.length) (r' : Nat) :
    storeGet (storeSet s r v) r' = if r' = r then v else storeGet s r' := by
  unfold storeGet storeSet
  by_cases h : r' = r
  · subst h
    rw [if_pos rfl, List.getD_eq_getElem?_getD, List.getElem?_set_self hr]
    rfl
  · rw [if_neg h, List.getD_eq_getElem?_getD, List.getD_eq_getElem?_getD,
      List.getElem?_set_ne (fun hh => h hh.symm)]

theorem storeGet_storeDel (s : Store) (r : Nat) (x : String) (r' : Nat) :
    storeGet (storeDel s r x) r' =
      if r' = r then jsErase (storeGet s r) x else storeGet s r' := by
  unfold storeDel
  by_cases hr : r < s.sets.length
  · exact storeGet_storeSet s r _ hr r'
  · rw [Nat.not_lt] at hr
    have hset : storeSet s r (jsErase (storeGet s r) x) = s := by
      unfold storeSet
      rw [List.set_eq_of_length_le hr]
    rw [hset]
    by_cases h : r' = r
    · subst h
      have hg : storeGet s r' = [] := by
        unfold storeGet
        rw [List.getD_eq_getElem?_getD, List.getElem?_eq_none hr]
        rfl
      rw [if_pos rfl, hg]
      rfl
    · rw [if_neg h]

theorem storeGet_storeAdd (s : Store) (r : Nat) (x : String)
    (hr : r < s.sets.length) (r' : Nat) :
    storeGet (storeAdd s r x) r' =
      if r' = r then jsAdd (storeGet s r) x else storeGet s r' := by
  unfold storeAdd
  exact storeGet_storeSet s r _ hr r'

theorem storeAdd_length (s : Store) (r : Nat) (x : String) :
    (storeAdd s r x).sets.length = s.sets.length :=
  storeSet_length s r _

theorem storeDel_length (s : Store) (r : Nat) (x : String) :
    (storeDel s r x).sets.length = s.sets.length :=
  storeSet_length s r _

theorem storeAdd_sub (s : Store) (r : Nat) (x : String) (r' : Nat) :
    storeGet s r' ⊆ storeGet (storeAdd s r x) r' := by
  by_cases hr : r < s.sets.length
  · rw [storeGet_storeAdd s r x hr r']
    by_cases h : r' = r
    · subst h
      rw [if_pos rfl]
      exact jsAdd_sub
    · rw [if_neg h]
      exact fun y hy => hy
  · rw [Nat.not_lt] at hr
    have hset : storeAdd s r x = s := by
      unfold storeAdd storeSet
      rw [List.set_eq_of_length_le hr]
    rw [hset]
    exact fun y hy => hy

theorem storeDel_sub (s : Store) (r : Nat) (x : String) (r' : Nat) :
    storeGet (storeDel s r x) r' ⊆ storeGet s r' := by
  rw [storeGet_storeDel]
  by_cases h : r' = r
  · subst h
    rw [if_pos rfl]
    intro y hy
    exact (mem_jsErase.mp hy).1
  · rw [if_neg h]
    exact fun y hy => hy

theorem storeGet_alloc_lt {s : Store} {r : Nat} (hr : r < s.sets.length) :
    storeGet (storeAlloc s).1 r = storeGet s r := by
  unfold storeAlloc storeGet
  rw [List.getD_eq_getElem?_getD, List.getD_eq_getElem?_getD,
    List.getElem?_append_left hr]

theorem storeGet_alloc_new (s : Store) :
    storeGet (storeAlloc s).1 s.sets.length = [] := by
  unfold storeAlloc storeGet
  rw [List.getD_eq_getElem?_getD]
  rw [List.getElem?_append_right (Nat.le_refl _)]
  simp

theorem storeAlloc_length (s : Store) :
    ((storeAlloc s).1).sets.length = s.sets.length + 1 := by
  unfold storeAlloc
  simp

/-- `removeNode`, rephrased through the named loop body. -/
theorem removeNode_eq (s : Store) (g : StoreGraph) (nodeId : String) :
    removeNode s g nodeId =
      ((g.edges.foldl (rmStep g.adjacencyList nodeId) (s, g.edges)).1,
       { g with
         nodes := jsDelete g.nodes nodeId,
         edges :=
           (g.edges.foldl (rmStep g.adjacencyList nodeId) (s, g.edges)).2,
         adjacencyList := jsDelete g.adjacencyList nodeId }) := rfl

theorem rmStep_not {adj : List (String × Nat)} {nid : String}
    {p : String × Edge} (h : ¬ (p.2.source = nid ∨ p.2.target = nid))
    (acc : Store × List (String × Edge)) :
    rmStep adj nid acc p = acc := by
  simp only [rmStep, if_neg h]

theorem rmStep_some {adj : List (String × Nat)} {nid : String}
    {p : String × Edge} {r : Nat}
    (h : p.2.source = nid ∨ p.2.target = nid)
    (hadj : jsGet adj (if p.2.source = nid then p.2.target else p.2.source) =
      some r)
    (acc : Store × List (String × Edge)) :
    rmStep adj nid acc p = (storeDel acc.1 r p.1, jsDelete acc.2 p.1) := by
  simp only [rmStep, if_pos h, hadj]

theorem rmStep_none {adj : List (String × Nat)} {nid : String}
    {p : String × Edge}
    (h : p.2.source = nid ∨ p.2.target = nid)
    (hadj : jsGet adj (if p.2.source = nid then p.2.target else p.2.source) =
      none)
    (acc : Store × List (String × Edge)) :
    rmStep adj nid acc p = (acc.1, jsDelete acc.2 p.1) := by
  simp only [rmStep, if_pos h, hadj]

theorem rmFold_len (adj : List (String × Nat)) (nid : String) :
    ∀ (l : List (String × Edge)) (acc : Store × List (String × Edge)),
      ((l.foldl (rmStep adj nid) acc).1).sets.length = acc.1.sets.length := by
  intro l
  induction l with
  | nil => intro acc; rfl
  | cons p rest ih =>
    intro acc
    rw [List.foldl_cons, ih]
    by_cases h : p.2.source = nid ∨ p.2.target = nid
    · rcases hadj : jsGet adj
        (if p.2.source = nid then p.2.target else p.2.source) with _ | r
      · rw [rmStep_none h hadj]
      · rw [rmStep_some h hadj]
        exact storeDel_length _ _ _
    · rw [rmStep_not h]

theorem rmFold_store_sub (adj : List (String × Nat)) (nid : String) :
    ∀ (l : List (String × Edge)) (acc : Store × List (String × Edge))
      (r' : Nat),
      storeGet ((l.foldl (rmStep adj nid) acc).1) r' ⊆ storeGet acc.1 r' := by
  intro l
  induction l with
  | nil => intro acc r' y hy; exact hy
  | cons p rest ih =>
    intro acc r'
    rw [List.foldl_cons]
    refine (ih (rmStep adj nid acc p) r').trans ?_
    by_cases h : p.2.source = nid ∨ p.2.target = nid
    · rcases hadj : jsGet adj
        (if p.2.source = nid then p.2.target else p.2.source) with _ | r
      · rw [rmStep_none h hadj]
        exact fun y hy => hy
      · rw [rmStep_some h hadj]
        exact storeDel_sub _ _ _ _
    · rw [rmStep_not h]
      exact fun y hy => hy

theorem rmFold_edges_sublist (adj : List (String × Nat)) (nid : String) :
    ∀ (l : List (String × Edge)) (acc : Store × List (String × Edge)),
      List.Sublist ((l.foldl (rmStep adj nid) acc).2) acc.2 := by
  intro l
  induction l with
  | nil => intro acc; exact List.Sublist.refl _
  | cons p rest ih =>
    intro acc
    rw [List.foldl_cons]
    refine (ih (rmStep adj nid acc p)).trans ?_
    by_cases h : p.2.source = nid ∨ p.2.target = nid
    · rcases hadj : jsGet adj
        (if p.2.source = nid then p.2.target else p.2.source) with _ | r
      · rw [rmStep_none h hadj]
        exact jsDelete_sublist _ _
      · rw [rmStep_some h hadj]
        exact jsDelete_sublist _ _
    · rw [rmStep_not h]

theorem rmFold_get_eq (adj : List (String × Nat)) (nid : String) :
    ∀ (l : List (String × Edge)) (acc : Store × List (String × Edge))
      (k : String),
      (∀ p ∈ l, p.2.source = nid ∨ p.2.target = nid → ¬ p.1 = k) →
      jsGet ((l.foldl (rmStep adj nid) acc).2) k = jsGet acc.2 k := by
  intro l
  induction l with
  | nil => intro acc k _; rfl
  | cons p rest ih =>
    intro acc k hk
    rw [List.foldl_cons,
      ih (rmStep adj nid acc p) k (fun q hq => hk q (List.mem_cons_of_mem p hq))]
    by_cases h : p.2.source = nid ∨ p.2.target = nid
    · have hne : ¬ k = p.1 := fun hh =>
        hk p (List.mem_cons_self p rest) h hh.symm
      rcases hadj : jsGet adj
        (if p.2.source = nid then p.2.target else p.2.source) with _ | r
      · rw [rmStep_none h hadj]
        show jsGet (jsDelete acc.2 p.1) k = jsGet acc.2 k
        rw [jsGet_jsDelete, if_neg hne]
      · rw [rmStep_some h hadj]
        show jsGet (jsDelete acc.2 p.1) k = jsGet acc.2 k
        rw [jsGet_jsDelete, if_neg hne]
    · rw [rmStep_not h]

theorem rmFold_get_none (adj : List (String × Nat)) (nid : String) :
    ∀ (l : List (String × Edge)) (acc : Store × List (String × Edge))
      (k : String),
      jsGet acc.2 k = none →
      jsGet ((l.foldl (rmStep adj nid) acc).2) k = none := by
  intro l
  induction l with
  | nil => intro acc k h; exact h
  | cons p rest ih =>
    intro acc k hk
    rw [List.foldl_cons]
    refine ih (rmStep adj nid acc p) k ?_
    by_cases h : p.2.source = nid ∨ p.2.target = nid
    · rcases hadj : jsGet adj
        (if p.2.source = nid then p.2.target else p.2.source) with _ | r
      · rw [rmStep_none h hadj]
        show jsGet (jsDelete acc.2 p.1) k = none
        rw [jsGet_jsDelete]
        by_cases hkp : k = p.1
        · rw [if_pos hkp]
        · rw [if_neg hkp]
          exact hk
      · rw [rmStep_some h hadj]
        show jsGet (jsDelete acc.2 p.1) k = none
        rw [jsGet_jsDelete]
        by_cases hkp : k = p.1
        · rw [if_pos hkp]
        · rw [if_neg hkp]
          exact hk
    · rw [rmStep_not h]
      exact hk

theorem rmFold_kill_edge (adj : List (String × Nat)) (nid : String) :
    ∀ (l : List (String × Edge)) (acc : Store × List (String × Edge))
      (p0 : String × Edge),
      p0 ∈ l → (p0.2.source = nid ∨ p0.2.target = nid) →
      jsGet ((l.foldl (rmStep adj nid) acc).2) p0.1 = none := by
  intro l
  induction l with
  | nil => intro acc p0 hmem; exact absurd hmem (List.not_mem_nil p0)
  | cons p rest ih =>
    intro acc p0 hmem hinc
    rw [List.mem_cons] at hmem
    rw [List.foldl_cons]
    rcases hmem with rfl | hmem
    · refine rmFold_get_none adj nid rest (rmStep adj nid acc p0) p0.1 ?_
      rcases hadj : jsGet adj
        (if p0.2.source = nid then p0.2.target else p0.2.source) with _ | r
      · rw [rmStep_none hinc hadj]
        show jsGet (jsDelete acc.2 p0.1) p0.1 = none
        rw [jsGet_jsDelete, if_pos rfl]
      · rw [rmStep_some hinc hadj]
        show jsGet (jsDelete acc.2 p0.1) p0.1 = none
        rw [jsGet_jsDelete, if_pos rfl]
    · exact ih (rmStep adj nid acc p) p0 hmem hinc

theorem rmFold_mem_store (adj : List (String × Nat)) (nid : String) :
    ∀ (l : List (String × Edge)) (acc : Store × List (String × Edge))
      (r' : Nat) (k : String),
      k ∈ storeGet acc.1 r' →
      (∀ p ∈ l, p.2.source = nid ∨ p.2.target = nid → ¬ p.1 = k) →
      k ∈ storeGet ((l.foldl (rmStep adj nid) acc).1) r' := by
  intro l
  induction l with
  | nil => intro acc r' k hk _; exact hk
  | cons p rest ih =>
    intro acc r' k hk hkeys
    rw [List.foldl_cons]
    refine ih (rmStep adj nid acc p) r' k ?_
      (fun q hq => hkeys q (List.mem_cons_of_mem p hq))
    by_cases h : p.2.source = nid ∨ p.2.target = nid
    · have hne : k ≠ p.1 := fun hh =>
        hkeys p (List.mem_cons_self p rest) h hh.symm
      rcases hadj : jsGet adj
        (if p.2.source = nid then p.2.target else p.2.source) with _ | r
      · rw [rmStep_none h hadj]
        exact hk
      · rw [rmStep_some h hadj]
        show k ∈ storeGet (storeDel acc.1 r p.1) r'
        rw [storeGet_storeDel]
        by_cases hr : r' = r
        · rw [if_pos hr]
          rw [mem_jsErase]
          subst hr
          exact ⟨hk, hne⟩
        · rw [if_neg hr]
          exact hk
    · rw [rmStep_not h]
      exact hk

theorem rmFold_kill_adj (adj : List (String × Nat)) (nid : String) :
    ∀ (l : List (String × Edge)) (acc : Store × List (String × Edge))
      (p0 : String × Edge) (r : Nat),
      p0 ∈ l → (p0.2.source = nid ∨ p0.2.target = nid) →
      jsGet adj (if p0.2.source = nid then p0.2.target else p0.2.source) =
        some r →
      ¬ p0.1 ∈ storeGet ((l.foldl (rmStep adj nid) acc).1) r := by
  intro l
  induction l with
  | nil => intro acc p0 r hmem; exact absurd hmem (List.not_mem_nil p0)
  | cons p rest ih =>
    intro acc p0 r hmem hinc hadj
    rw [List.mem_cons] at hmem
    rw [List.foldl_cons]
    rcases hmem with rfl | hmem
    · rw [rmStep_some hinc hadj]
      intro hcon
      have hsub := rmFold_store_sub adj nid rest
        (storeDel acc.1 r p0.1, jsDelete acc.2 p0.1) r hcon
      rw [storeGet_storeDel, if_pos rfl] at hsub
      exact not_mem_jsErase_self _ _ hsub
    · exact ih (rmStep adj nid acc p) p0 r hmem hinc hadj

theorem addNode_eq_present {g : StoreGraph} {n : Node} {r : Nat}
    (h : jsGet g.adjacencyList n.id = some r) (s : Store) :
    addNode s g n = (s, { g with nodes := jsSet g.nodes n.id n }) := by
  simp only [addNode, h]

theorem addNode_eq_new {g : StoreGraph} {n : Node}
    (h : jsGet g.adjacencyList n.id = none) (s : Store) :
    addNode s g n =
      ((storeAlloc s).1,
       { g with
         nodes := jsSet g.nodes n.id n,
         adjacencyList := jsSet g.adjacencyList n.id s.sets.length }) := by
  simp only [addNode, h]
  rfl

theorem addEdge_eq_dir {g : StoreGraph} {e : Edge} {rs : Nat}
    (hs : jsGet g.adjacencyList e.source = some rs) (hdir : g.directed = true)
    (s : Store) :
    addEdge s g e =
      (storeAdd s rs e.id,
       { g with
         edges := jsSet g.edges e.id { e with directed := some g.directed },
         adjacencyList := g.adjacencyList }) := by
  simp only [addEdge, hs, hdir, if_true, Option.getD_some]

theorem addEdge_eq_undir {g : StoreGraph} {e : Edge} {rs rt : Nat}
    (hs : jsGet g.adjacencyList e.source = some rs)
    (ht : jsGet g.adjacencyList e.target = some rt)
    (hdir : g.directed = false) (s : Store) :
    addEdge s g e =
      (storeAdd (storeAdd s rs e.id) rt e.id,
       { g with
         edges := jsSet g.edges e.id { e with directed := some g.directed },
         adjacencyList := g.adjacencyList }) := by
  simp only [addEdge, hs, ht, hdir, Bool.false_eq_true, if_false,
    Option.getD_some]

theorem removeEdge_eq_absent {g : StoreGraph} {i : String}
    (h : jsGet g.edges i = none) (s : Store) :
    removeEdge s g i = (s, g) := by
  simp only [removeEdge, h]

theorem removeEdge_eq_dir {g : StoreGraph} {i : String} {e : Edge} {rs : Nat}
    (he : jsGet g.edges i = some e)
    (hs : jsGet g.adjacencyList e.source = some rs)
    (hdir : g.directed = true) (s : Store) :
    removeEdge s g i =
      (storeDel s rs i, { g with edges := jsDelete g.edges i }) := by
  simp only [removeEdge, he, hs, hdir, if_true]

theorem removeEdge_eq_undir {g : StoreGraph} {i : String} {e : Edge}
    {rs rt : Nat}
    (he : jsGet g.edges i = some e)
    (hs : jsGet g.adjacencyList e.source = some rs)
    (ht : jsGet g.adjacencyList e.target = some rt)
    (hdir : g.directed = false) (s : Store) :
    removeEdge s g i =
      (storeDel (storeDel s rs i) rt i,
       { g with edges := jsDelete g.edges i }) := by
  simp only [removeEdge, he, hs, ht, hdir, Bool.false_eq_true, if_false]

theorem sinv_empty (directed : Bool) :
    SInv emptyStore (createGraph directed) := by
  refine ⟨rfl, List.nodup_nil, ⟨List.nodup_nil, List.nodup_nil, ?_⟩, ?_, ?_⟩
  · intro p hp
    exact absurd hp (List.not_mem_nil p)
  · intro p hp
    exact absurd hp (List.not_mem_nil p)
  · intro q hq
    exact absurd hq (List.not_mem_nil q)

theorem sinv_graphInv {s : Store} {g : StoreGraph} (h : SInv s g) :
    GraphInv (observe s g) := by
  obtain ⟨hkeys, hen, hgr, hadj, hcov⟩ := h
  refine ⟨?_, ?_, ?_⟩
  · intro p hp eid heid
    have hobs : (observe s g).adjacencyList = observeAdj s g := rfl
    rw [hobs] at hp
    unfold observeAdj at hp
    obtain ⟨q, hq, hpq⟩ := List.mem_map.mp hp
    rw [← hpq] at heid
    obtain ⟨e, he, _⟩ := hadj q hq eid heid
    show (jsGet g.edges eid).isSome = true
    rw [he]
    rfl
  · intro p hp
    obtain ⟨h1, h2, _, _⟩ := hcov p hp
    exact ⟨h1, h2⟩
  · intro hdir p hp
    obtain ⟨_, _, ⟨rs, hrs, hmems⟩, hund⟩ := hcov p hp
    obtain ⟨rt, hrt, hmemt⟩ := hund hdir
    constructor
    · show p.1 ∈ (jsGet (observeAdj s g) p.2.source).getD []
      rw [jsGet_observeAdj, hrs]
      exact hmems
    · show p.1 ∈ (jsGet (observeAdj s g) p.2.target).getD []
      rw [jsGet_observeAdj, hrt]
      exact hmemt

theorem sinv_addNode {s : Store} {g : StoreGraph} (h : SInv s g) (n : Node) :
    SInv (addNode s g n).1 (addNode s g n).2 := by
  obtain ⟨hkeys, hen, hgr, hsnd, hcov⟩ := h
  rcases hadj : jsGet g.adjacencyList n.id with _ | r
  · rw [addNode_eq_new hadj]
    have hnidadj : ¬ n.id ∈ g.adjacencyList.map Prod.fst := by
      intro hmem
      have hs2 := jsGet_isSome_iff.mpr hmem
      rw [hadj] at hs2
      exact absurd hs2 (by simp)
    have hnidnodes : ¬ n.id ∈ g.nodes.map Prod.fst := by
      rw [hkeys]
      exact hnidadj
    have hnodesget : jsGet g.nodes n.id = none := by
      rcases hg : jsGet g.nodes n.id with _ | v
      · rfl
      · exact absurd (jsGet_isSome_iff.mp (by rw [hg]; rfl)) hnidnodes
    have hadjset : jsSet g.adjacencyList n.id s.sets.length =
        g.adjacencyList ++ [(n.id, s.sets.length)] := jsSet_fresh hadj _
    have hnodesset : jsSet g.nodes n.id n = g.nodes ++ [(n.id, n)] :=
      jsSet_fresh hnodesget n
    have h1 : (jsSet g.nodes n.id n).map Prod.fst =
        (jsSet g.adjacencyList n.id s.sets.length).map Prod.fst := by
      rw [hnodesset, hadjset, List.map_append, List.map_append, hkeys]
      rfl
    have h2 : ((jsSet g.adjacencyList n.id s.sets.length).map
        Prod.fst).Nodup := by
      rw [hadjset, List.map_append]
      simp only [List.nodup_append, List.map_cons, List.map_nil]
      refine ⟨hgr.1, List.nodup_singleton _, ?_⟩
      intro x hx hx2
      rw [List.mem_singleton] at hx2
      subst hx2
      exact hnidadj hx
    have h3 : ((jsSet g.adjacencyList n.id s.sets.length).map
        Prod.snd).Nodup := by
      rw [hadjset, List.map_append]
      simp only [List.nodup_append, List.map_cons, List.map_nil]
      refine ⟨hgr.2.1, List.nodup_singleton _, ?_⟩
      intro x hx hx2
      rw [List.mem_singleton] at hx2
      subst hx2
      obtain ⟨p, hp, hpx⟩ := List.mem_map.mp hx
      exact absurd hpx (Nat.ne_of_lt (hgr.2.2 p hp))
    have h4 : ∀ p ∈ jsSet g.adjacencyList n.id s.sets.length,
        p.2 < ((storeAlloc s).1).sets.length := by
      intro p hp
      rw [storeAlloc_length]
      rw [hadjset, List.mem_append] at hp
      rcases hp with hp | hp
      · exact Nat.lt_succ_of_lt (hgr.2.2 p hp)
      · rw [List.mem_singleton] at hp
        subst hp
        exact Nat.lt_succ_self _
    have h5 : ∀ p ∈ jsSet g.adjacencyList n.id s.sets.length,
        ∀ k ∈ storeGet (storeAlloc s).1 p.2,
        ∃ e, jsGet g.edges k = some e ∧
          (p.1 = e.source ∨ (g.directed = false ∧ p.1 = e.target)) := by
      intro p hp k hk
      rw [hadjset, List.mem_append] at hp
      rcases hp with hp | hp
      · rw [storeGet_alloc_lt (hgr.2.2 p hp)] at hk
        exact hsnd p hp k hk
      · rw [List.mem_singleton] at hp
        subst hp
        rw [storeGet_alloc_new] at hk
        exact absurd hk (List.not_mem_nil k)
    have h6 : ∀ q ∈ g.edges,
        (jsGet (jsSet g.nodes n.id n) q.2.source).isSome = true ∧
        (jsGet (jsSet g.nodes n.id n) q.2.target).isSome = true ∧
        (∃ r2, jsGet (jsSet g.adjacencyList n.id s.sets.length) q.2.source =
          some r2 ∧ q.1 ∈ storeGet (storeAlloc s).1 r2) ∧
        (g.directed = false →
          ∃ r2, jsGet (jsSet g.adjacencyList n.id s.sets.length) q.2.target =
            some r2 ∧ q.1 ∈ storeGet (storeAlloc s).1 r2) := by
      intro q hq
      obtain ⟨hq1, hq2, ⟨r1, hr1, hm1⟩, hq4⟩ := hcov q hq
      have hsne : ¬ q.2.source = n.id := by
        intro hc
        rw [hc, hadj] at hr1
        exact absurd hr1 (by simp)
      refine ⟨?_, ?_, ⟨r1, ?_, ?_⟩, ?_⟩
      · rw [jsGet_jsSet]
        by_cases hc : q.2.source = n.id
        · rw [if_pos hc]
          rfl
        · rw [if_neg hc]
          exact hq1
      · rw [jsGet_jsSet]
        by_cases hc : q.2.target = n.id
        · rw [if_pos hc]
          rfl
        · rw [if_neg hc]
          exact hq2
      · rw [jsGet_jsSet, if_neg hsne]
        exact hr1
      · rw [storeGet_alloc_lt (goodRefs_bound hgr hr1)]
        exact hm1
      · intro hdir
        obtain ⟨r2, hr2, hm2⟩ := hq4 hdir
        have htne : ¬ q.2.target = n.id := by
          intro hc
          rw [hc, hadj] at hr2
          exact absurd hr2 (by simp)
        refine ⟨r2, ?_, ?_⟩
        · rw [jsGet_jsSet, if_neg htne]
          exact hr2
        · rw [storeGet_alloc_lt (goodRefs_bound hgr hr2)]
          exact hm2
    exact ⟨h1, hen, ⟨h2, h3, h4⟩, h5, h6⟩
  · rw [addNode_eq_present hadj]
    have hnid : (jsGet g.nodes n.id).isSome = true := by
      rw [jsGet_isSome_iff, hkeys]
      exact jsGet_isSome_iff.mp (by rw [hadj]; rfl)
    have h1 : (jsSet g.nodes n.id n).map Prod.fst =
        g.adjacencyList.map Prod.fst := by
      rw [jsSet_keys_present hnid]
      exact hkeys
    have h6 : ∀ q ∈ g.edges,
        (jsGet (jsSet g.nodes n.id n) q.2.source).isSome = true ∧
        (jsGet (jsSet g.nodes n.id n) q.2.target).isSome = true ∧
        (∃ r2, jsGet g.adjacencyList q.2.source = some r2 ∧
          q.1 ∈ storeGet s r2) ∧
        (g.directed = false →
          ∃ r2, jsGet g.adjacencyList q.2.target = some r2 ∧
            q.1 ∈ storeGet s r2) := by
      intro q hq
      obtain ⟨hq1, hq2, hq3, hq4⟩ := hcov q hq
      refine ⟨?_, ?_, hq3, hq4⟩
      · rw [jsGet_jsSet]
        by_cases hc : q.2.source = n.id
        · rw [if_pos hc]
          rfl
        · rw [if_neg hc]
          exact hq1
      · rw [jsGet_jsSet]
        by_cases hc : q.2.target = n.id
        · rw [if_pos hc]
          rfl
        · rw [if_neg hc]
          exact hq2
    exact ⟨h1, hen, hgr, hsnd, h6⟩

theorem storeAdd_mem_of_ne {k x : String} (hne : ¬ k = x) (s : Store)
    (r r' : Nat) :
    k ∈ storeGet (storeAdd s r x) r' ↔ k ∈ storeGet s r' := by
  by_cases hr : r < s.sets.length
  · rw [storeGet_storeAdd s r x hr]
    by_cases h : r' = r
    · rw [if_pos h, mem_jsAdd, h]
      constructor
      · rintro (hk | hk)
        · exact hk
        · exact absurd hk hne
      · exact Or.inl
    · rw [if_neg h]
  · rw [Nat.not_lt] at hr
    have hset : storeAdd s r x = s := by
      unfold storeAdd storeSet
      rw [List.set_eq_of_length_le hr]
    rw [hset]

theorem storeAdd_mem_self {s : Store} {r : Nat} (hr : r < s.sets.length)
    (x : String) : x ∈ storeGet (storeAdd s r x) r := by
  rw [storeGet_storeAdd s r x hr, if_pos rfl, mem_jsAdd]
  exact Or.inr rfl

theorem sinv_addEdge {s : Store} {g : StoreGraph} (h : SInv s g) {e : Edge}
    (hsrc : (jsGet g.nodes e.source).isSome = true)
    (htgt : (jsGet g.nodes e.target).isSome = true)
    (hfresh : jsGet g.edges e.id = none) :
    SInv (addEdge s g e).1 (addEdge s g e).2 := by
  obtain ⟨hkeys, hen, hgr, hsnd, hcov⟩ := h
  have hrs0 : (jsGet g.adjacencyList e.source).isSome = true := by
    rw [jsGet_isSome_iff, ← hkeys]
    exact jsGet_isSome_iff.mp hsrc
  have hrt0 : (jsGet g.adjacencyList e.target).isSome = true := by
    rw [jsGet_isSome_iff, ← hkeys]
    exact jsGet_isSome_iff.mp htgt
  obtain ⟨rs, hrs⟩ := Option.isSome_iff_exists.mp hrs0
  obtain ⟨rt, hrt⟩ := Option.isSome_iff_exists.mp hrt0
  have hrslt : rs < s.sets.length := goodRefs_bound hgr hrs
  have hidkeys : ¬ e.id ∈ g.edges.map Prod.fst := by
    intro hmem
    have hs2 := jsGet_isSome_iff.mpr hmem
    rw [hfresh] at hs2
    exact absurd hs2 (by simp)
  have hset : jsSet g.edges e.id { e with directed := some g.directed } =
      g.edges ++ [(e.id, { e with directed := some g.directed })] :=
    jsSet_fresh hfresh _
  have hennew : ((jsSet g.edges e.id
      { e with directed := some g.directed }).map Prod.fst).Nodup := by
    rw [hset, List.map_append]
    simp only [List.nodup_append, List.map_cons, List.map_nil]
    refine ⟨hen, List.nodup_singleton _, ?_⟩
    intro x hx hx2
    rw [List.mem_singleton] at hx2
    subst hx2
    exact hidkeys hx
  rcases hdir : g.directed with _ | _
  · -- undirected: push to source's and target's sets
    rw [addEdge_eq_undir hrs hrt hdir]
    have hrtlt2 : rt < (storeAdd s rs e.id).sets.length := by
      rw [storeAdd_length]
      exact goodRefs_bound hgr hrt
    have hgr2 : GoodRefs (storeAdd (storeAdd s rs e.id) rt e.id) g := by
      refine ⟨hgr.1, hgr.2.1, ?_⟩
      intro p hp
      rw [storeAdd_length, storeAdd_length]
      exact hgr.2.2 p hp
    have hstale : ∀ k, ¬ k = e.id → ∀ x,
        (k ∈ storeGet (storeAdd (storeAdd s rs e.id) rt e.id) x ↔
          k ∈ storeGet s x) := by
      intro k hk x
      rw [storeAdd_mem_of_ne hk, storeAdd_mem_of_ne hk]
    have hmemsrc : e.id ∈
        storeGet (storeAdd (storeAdd s rs e.id) rt e.id) rs := by
      by_cases hreq : rs = rt
      · rw [hreq] at hrtlt2 ⊢
        exact storeAdd_mem_self hrtlt2 e.id
      · have hlt2 : rt < (storeAdd s rs e.id).sets.length := hrtlt2
        rw [storeGet_storeAdd _ rt e.id hlt2, if_neg hreq]
        exact storeAdd_mem_self hrslt e.id
    have hmemtgt : e.id ∈
        storeGet (storeAdd (storeAdd s rs e.id) rt e.id) rt :=
      storeAdd_mem_self hrtlt2 e.id
    have h4 : ∀ p ∈ g.adjacencyList,
        ∀ k ∈ storeGet (storeAdd (storeAdd s rs e.id) rt e.id) p.2,
        ∃ e2, jsGet (jsSet g.edges e.id
            { e with directed := some g.directed }) k = some e2 ∧
          (p.1 = e2.source ∨ (g.directed = false ∧ p.1 = e2.target)) := by
      intro p hp k hk
      by_cases hke : k = e.id
      · subst hke
        by_cases hprs : p.2 = rs
        · have hpeq : p = (e.source, rs) :=
            nodup_refs_eq hgr.2.1 hp (jsGet_mem hrs) (by rw [hprs])
          refine ⟨{ e with directed := some g.directed }, ?_, Or.inl ?_⟩
          · rw [jsGet_jsSet, if_pos rfl]
          · rw [hpeq]
        · by_cases hprt : p.2 = rt
          · have hpeq : p = (e.target, rt) :=
              nodup_refs_eq hgr.2.1 hp (jsGet_mem hrt) (by rw [hprt])
            refine ⟨{ e with directed := some g.directed }, ?_,
              Or.inr ⟨hdir, ?_⟩⟩
            · rw [jsGet_jsSet, if_pos rfl]
            · rw [hpeq]
          · rw [storeGet_storeAdd _ rt e.id hrtlt2, if_neg hprt,
              storeGet_storeAdd s rs e.id hrslt, if_neg hprs] at hk
            obtain ⟨e2, he2, _⟩ := hsnd p hp _ hk
            rw [hfresh] at he2
            exact absurd he2 (by simp)
      · rw [hstale k hke p.2] at hk
        obtain ⟨e2, he2, hd2⟩ := hsnd p hp k hk
        refine ⟨e2, ?_, hd2⟩
        rw [jsGet_jsSet, if_neg hke]
        exact he2
    have h5 : ∀ q ∈ jsSet g.edges e.id
        { e with directed := some g.directed },
        (jsGet g.nodes q.2.source).isSome = true ∧
        (jsGet g.nodes q.2.target).isSome = true ∧
        (∃ r2, jsGet g.adjacencyList q.2.source = some r2 ∧
          q.1 ∈ storeGet (storeAdd (storeAdd s rs e.id) rt e.id) r2) ∧
        (g.directed = false →
          ∃ r2, jsGet g.adjacencyList q.2.target = some r2 ∧
            q.1 ∈ storeGet (storeAdd (storeAdd s rs e.id) rt e.id) r2) := by
      rw [hset]
      intro q hq
      rw [List.mem_append] at hq
      rcases hq with hq | hq
      · obtain ⟨hq1, hq2, ⟨r1, hr1, hm1⟩, hq4⟩ := hcov q hq
        refine ⟨hq1, hq2,
          ⟨r1, hr1, storeAdd_sub _ _ _ _ (storeAdd_sub _ _ _ _ hm1)⟩, ?_⟩
        intro hdf
        obtain ⟨r2, hr2, hm2⟩ := hq4 hdf
        exact ⟨r2, hr2, storeAdd_sub _ _ _ _ (storeAdd_sub _ _ _ _ hm2)⟩
      · rw [List.mem_singleton] at hq
        subst hq
        exact ⟨hsrc, htgt, ⟨rs, hrs, hmemsrc⟩, fun _ => ⟨rt, hrt, hmemtgt⟩⟩
    exact ⟨hkeys, hennew, hgr2, h4, h5⟩
  · -- directed: push only to the source's set
    rw [addEdge_eq_dir hrs hdir]
    have hgr2 : GoodRefs (storeAdd s rs e.id) g := by
      refine ⟨hgr.1, hgr.2.1, ?_⟩
      intro p hp
      rw [storeAdd_length]
      exact hgr.2.2 p hp
    have h4 : ∀ p ∈ g.adjacencyList,
        ∀ k ∈ storeGet (storeAdd s rs e.id) p.2,
        ∃ e2, jsGet (jsSet g.edges e.id
            { e with directed := some g.directed }) k = some e2 ∧
          (p.1 = e2.source ∨ (g.directed = false ∧ p.1 = e2.target)) := by
      intro p hp k hk
      by_cases hke : k = e.id
      · subst hke
        by_cases hprs : p.2 = rs
        · have hpeq : p = (e.source, rs) :=
            nodup_refs_eq hgr.2.1 hp (jsGet_mem hrs) (by rw [hprs])
          refine ⟨{ e with directed := some g.directed }, ?_, Or.inl ?_⟩
          · rw [jsGet_jsSet, if_pos rfl]
          · rw [hpeq]
        · rw [storeGet_storeAdd s rs e.id hrslt, if_neg hprs] at hk
          obtain ⟨e2, he2, _⟩ := hsnd p hp _ hk
          rw [hfresh] at he2
          exact absurd he2 (by simp)
      · rw [storeAdd_mem_of_ne hke] at hk
        obtain ⟨e2, he2, hd2⟩ := hsnd p hp k hk
        refine ⟨e2, ?_, hd2⟩
        rw [jsGet_jsSet, if_neg hke]
        exact he2
    have h5 : ∀ q ∈ jsSet g.edges e.id
        { e with directed := some g.directed },
        (jsGet g.nodes q.2.source).isSome = true ∧
        (jsGet g.nodes q.2.target).isSome = true ∧
        (∃ r2, jsGet g.adjacencyList q.2.source = some r2 ∧
          q.1 ∈ storeGet (storeAdd s rs e.id) r2) ∧
        (g.directed = false →
          ∃ r2, jsGet g.adjacencyList q.2.target = some r2 ∧
            q.1 ∈ storeGet (storeAdd s rs e.id) r2) := by
      rw [hset]
      intro q hq
      rw [List.mem_append] at hq
      rcases hq with hq | hq
      · obtain ⟨hq1, hq2, ⟨r1, hr1, hm1⟩, hq4⟩ := hcov q hq
        refine ⟨hq1, hq2, ⟨r1, hr1, storeAdd_sub _ _ _ _ hm1⟩, ?_⟩
        intro hdf
        obtain ⟨r2, hr2, hm2⟩ := hq4 hdf
        exact ⟨r2, hr2, storeAdd_sub _ _ _ _ hm2⟩
      · rw [List.mem_singleton] at hq
        subst hq
        refine ⟨hsrc, htgt, ⟨rs, hrs, storeAdd_mem_self hrslt e.id⟩, ?_⟩
        intro hdf
        rw [hdir] at hdf
        exact absurd hdf (by simp)
    exact ⟨hkeys, hennew, hgr2, h4, h5⟩

theorem storeDel_mem_of_ne {k x : String} (hne : ¬ k = x) (s : Store)
    (r r' : Nat) :
    k ∈ storeGet (storeDel s r x) r' ↔ k ∈ storeGet s r' := by
  rw [storeGet_storeDel]
  by_cases h : r' = r
  · rw [if_pos h, mem_jsErase, h]
    constructor
    · exact fun hk => hk.1
    · exact fun hk => ⟨hk, hne⟩
  · rw [if_neg h]

theorem sinv_removeEdge {s : Store} {g : StoreGraph} (h : SInv s g)
    (i : String) :
    SInv (removeEdge s g i).1 (removeEdge s g i).2 := by
  obtain ⟨hkeys, hen, hgr, hsnd, hcov⟩ := h
  rcases he : jsGet g.edges i with _ | e
  · rw [removeEdge_eq_absent he]
    exact ⟨hkeys, hen, hgr, hsnd, hcov⟩
  · have hie : (i, e) ∈ g.edges := jsGet_mem he
    obtain ⟨hn1, hn2, ⟨rs, hrs, _⟩, hc4⟩ := hcov (i, e) hie
    have hennew : ((jsDelete g.edges i).map Prod.fst).Nodup :=
      List.Sublist.nodup (List.Sublist.map _ (jsDelete_sublist g.edges i)) hen
    rcases hdir : g.directed with _ | _
    · -- undirected
      obtain ⟨rt, hrt, _⟩ := hc4 hdir
      rw [removeEdge_eq_undir he hrs hrt hdir]
      have hgr2 : GoodRefs (storeDel (storeDel s rs i) rt i) g := by
        refine ⟨hgr.1, hgr.2.1, ?_⟩
        intro p hp
        rw [storeDel_length, storeDel_length]
        exact hgr.2.2 p hp
      have hnots : ¬ i ∈ storeGet (storeDel (storeDel s rs i) rt i) rs := by
        by_cases hreq : rs = rt
        · rw [storeGet_storeDel, if_pos hreq]
          exact not_mem_jsErase_self _ _
        · rw [storeGet_storeDel, if_neg hreq, storeGet_storeDel, if_pos rfl]
          exact not_mem_jsErase_self _ _
      have hnott : ¬ i ∈ storeGet (storeDel (storeDel s rs i) rt i) rt := by
        rw [storeGet_storeDel, if_pos rfl]
        exact not_mem_jsErase_self _ _
      have h4 : ∀ p ∈ g.adjacencyList,
          ∀ k ∈ storeGet (storeDel (storeDel s rs i) rt i) p.2,
          ∃ e2, jsGet (jsDelete g.edges i) k = some e2 ∧
            (p.1 = e2.source ∨ (g.directed = false ∧ p.1 = e2.target)) := by
        intro p hp k hk
        have hks : k ∈ storeGet s p.2 :=
          storeDel_sub s rs i p.2 (storeDel_sub _ rt i p.2 hk)
        obtain ⟨e2, he2, hd2⟩ := hsnd p hp k hks
        have hki : ¬ k = i := by
          intro hkeq
          subst hkeq
          rw [he] at he2
          have he2e : e2 = e := by
            have := Option.some.injEq e e2 ▸ he2
            exact (Option.some_inj.mp he2).symm
          subst he2e
          rcases hd2 with hd2 | ⟨_, hd2⟩
          · have hpg := jsGet_of_mem_nodup hgr.1 hp
            rw [hd2, hrs] at hpg
            have hp2 : p.2 = rs := (Option.some_inj.mp hpg).symm
            rw [hp2] at hk
            exact hnots hk
          · have hpg := jsGet_of_mem_nodup hgr.1 hp
            rw [hd2, hrt] at hpg
            have hp2 : p.2 = rt := (Option.some_inj.mp hpg).symm
            rw [hp2] at hk
            exact hnott hk
        refine ⟨e2, ?_, hd2⟩
        rw [jsGet_jsDelete, if_neg hki]
        exact he2
      have h5 : ∀ q ∈ jsDelete g.edges i,
          (jsGet g.nodes q.2.source).isSome = true ∧
          (jsGet g.nodes q.2.target).isSome = true ∧
          (∃ r2, jsGet g.adjacencyList q.2.source = some r2 ∧
            q.1 ∈ storeGet (storeDel (storeDel s rs i) rt i) r2) ∧
          (g.directed = false →
            ∃ r2, jsGet g.adjacencyList q.2.target = some r2 ∧
              q.1 ∈ storeGet (storeDel (storeDel s rs i) rt i) r2) := by
        intro q hq
        rw [mem_jsDelete] at hq
        obtain ⟨hqm, hqi⟩ := hq
        obtain ⟨hq1, hq2, ⟨r1, hr1, hm1⟩, hq4⟩ := hcov q hqm
        refine ⟨hq1, hq2, ⟨r1, hr1, ?_⟩, ?_⟩
        · rw [storeDel_mem_of_ne hqi, storeDel_mem_of_ne hqi]
          exact hm1
        · intro hdf
          obtain ⟨r2, hr2, hm2⟩ := hq4 hdf
          refine ⟨r2, hr2, ?_⟩
          rw [storeDel_mem_of_ne hqi, storeDel_mem_of_ne hqi]
          exact hm2
      exact ⟨hkeys, hennew, hgr2, h4, h5⟩
    · -- directed
      rw [removeEdge_eq_dir he hrs hdir]
      have hgr2 : GoodRefs (storeDel s rs i) g := by
        refine ⟨hgr.1, hgr.2.1, ?_⟩
        intro p hp
        rw [storeDel_length]
        exact hgr.2.2 p hp
      have hnots : ¬ i ∈ storeGet (storeDel s rs i) rs := by
        rw [storeGet_storeDel, if_pos rfl]
        exact not_mem_jsErase_self _ _
      have h4 : ∀ p ∈ g.adjacencyList,
          ∀ k ∈ storeGet (storeDel s rs i) p.2,
          ∃ e2, jsGet (jsDelete g.edges i) k = some e2 ∧
            (p.1 = e2.source ∨ (g.directed = false ∧ p.1 = e2.target)) := by
        intro p hp k hk
        have hks : k ∈ storeGet s p.2 := storeDel_sub s rs i p.2 hk
        obtain ⟨e2, he2, hd2⟩ := hsnd p hp k hks
        have hki : ¬ k = i := by
          intro hkeq
          subst hkeq
          rw [he] at he2
          have he2e : e2 = e := (Option.some_inj.mp he2).symm
          subst he2e
          rcases hd2 with hd2 | ⟨hdf, _⟩
          · have hpg := jsGet_of_mem_nodup hgr.1 hp
            rw [hd2, hrs] at hpg
            have hp2 : p.2 = rs := (Option.some_inj.mp hpg).symm
            rw [hp2] at hk
            exact hnots hk
          · rw [hdir] at hdf
            exact absurd hdf (by simp)
        refine ⟨e2, ?_, hd2⟩
        rw [jsGet_jsDelete, if_neg hki]
        exact he2
      have h5 : ∀ q ∈ jsDelete g.edges i,
          (jsGet g.nodes q.2.source).isSome = true ∧
          (jsGet g.nodes q.2.target).isSome = true ∧
          (∃ r2, jsGet g.adjacencyList q.2.source = some r2 ∧
            q.1 ∈ storeGet (storeDel s rs i) r2) ∧
          (g.directed = false →
            ∃ r2, jsGet g.adjacencyList q.2.target = some r2 ∧
              q.1 ∈ storeGet (storeDel s rs i) r2) := by
        intro q hq
        rw [mem_jsDelete] at hq
        obtain ⟨hqm, hqi⟩ := hq
        obtain ⟨hq1, hq2, ⟨r1, hr1, hm1⟩, hq4⟩ := hcov q hqm
        refine ⟨hq1, hq2, ⟨r1, hr1, ?_⟩, ?_⟩
        · rw [storeDel_mem_of_ne hqi]
          exact hm1
        · intro hdf
          obtain ⟨r2, hr2, hm2⟩ := hq4 hdf
          refine ⟨r2, hr2, ?_⟩
          rw [storeDel_mem_of_ne hqi]
          exact hm2
      exact ⟨hkeys, hennew, hgr2, h4, h5⟩

theorem sinv_removeNode {s : Store} {g : StoreGraph} (h : SInv s g)
    (nid : String) :
    SInv (removeNode s g nid).1 (removeNode s g nid).2 := by
  obtain ⟨hkeys, hen, hgr, hsnd, hcov⟩ := h
  rw [removeNode_eq]
  have h1 : (jsDelete g.nodes nid).map Prod.fst =
      (jsDelete g.adjacencyList nid).map Prod.fst := by
    rw [jsDelete_keys, jsDelete_keys, hkeys]
  have h2 : (((g.edges.foldl (rmStep g.adjacencyList nid)
      (s, g.edges)).2).map Prod.fst).Nodup :=
    List.Sublist.nodup
      (List.Sublist.map _ (rmFold_edges_sublist g.adjacencyList nid g.edges
        (s, g.edges))) hen
  have h3 : GoodRefs ((g.edges.foldl (rmStep g.adjacencyList nid)
      (s, g.edges)).1)
      { g with
        nodes := jsDelete g.nodes nid,
        edges := (g.edges.foldl (rmStep g.adjacencyList nid)
          (s, g.edges)).2,
        adjacencyList := jsDelete g.adjacencyList nid } := by
    refine ⟨?_, ?_, ?_⟩
    · show ((jsDelete g.adjacencyList nid).map Prod.fst).Nodup
      exact List.Sublist.nodup
        (List.Sublist.map _ (jsDelete_sublist g.adjacencyList nid)) hgr.1
    · show ((jsDelete g.adjacencyList nid).map Prod.snd).Nodup
      exact List.Sublist.nodup
        (List.Sublist.map _ (jsDelete_sublist g.adjacencyList nid)) hgr.2.1
    · intro p hp
      have hp2 : p ∈ g.adjacencyList := (mem_jsDelete.mp hp).1
      show p.2 < ((g.edges.foldl (rmStep g.adjacencyList nid)
        (s, g.edges)).1).sets.length
      rw [rmFold_len]
      exact hgr.2.2 p hp2
  have h4 : ∀ p ∈ jsDelete g.adjacencyList nid,
      ∀ k ∈ storeGet ((g.edges.foldl (rmStep g.adjacencyList nid)
        (s, g.edges)).1) p.2,
      ∃ e2, jsGet ((g.edges.foldl (rmStep g.adjacencyList nid)
          (s, g.edges)).2) k = some e2 ∧
        (p.1 = e2.source ∨ (g.directed = false ∧ p.1 = e2.target)) := by
    intro p hp0 k hk
    rw [mem_jsDelete] at hp0
    obtain ⟨hp, hpne⟩ := hp0
    have hks : k ∈ storeGet s p.2 :=
      rmFold_store_sub g.adjacencyList nid g.edges (s, g.edges) p.2 hk
    obtain ⟨e2, he2, hd2⟩ := hsnd p hp k hks
    have hke2 : (k, e2) ∈ g.edges := jsGet_mem he2
    by_cases hinc : e2.source = nid ∨ e2.target = nid
    · exfalso
      have hpadj : jsGet g.adjacencyList p.1 = some p.2 :=
        jsGet_of_mem_nodup hgr.1 hp
      rcases hd2 with hd2 | ⟨hdf, hd2⟩
      · have hsn : ¬ e2.source = nid := by
          rw [← hd2]
          exact hpne
        have hoth : jsGet g.adjacencyList
            (if (k, e2).2.source = nid then (k, e2).2.target
             else (k, e2).2.source) = some p.2 := by
          show jsGet g.adjacencyList
            (if e2.source = nid then e2.target else e2.source) = some p.2
          rw [if_neg hsn, ← hd2]
          exact hpadj
        exact rmFold_kill_adj g.adjacencyList nid g.edges (s, g.edges)
          (k, e2) p.2 hke2 hinc hoth hk
      · have htn : ¬ e2.target = nid := by
          rw [← hd2]
          exact hpne
        have hsn : e2.source = nid := by
          rcases hinc with h1 | h1
          · exact h1
          · exact absurd h1 htn
        have hoth : jsGet g.adjacencyList
            (if (k, e2).2.source = nid then (k, e2).2.target
             else (k, e2).2.source) = some p.2 := by
          show jsGet g.adjacencyList
            (if e2.source = nid then e2.target else e2.source) = some p.2
          rw [if_pos hsn, ← hd2]
          exact hpadj
        exact rmFold_kill_adj g.adjacencyList nid g.edges (s, g.edges)
          (k, e2) p.2 hke2 hinc hoth hk
    · refine ⟨e2, ?_, hd2⟩
      have hget : jsGet ((g.edges.foldl (rmStep g.adjacencyList nid)
          (s, g.edges)).2) k = jsGet g.edges k := by
        refine rmFold_get_eq g.adjacencyList nid g.edges (s, g.edges) k ?_
        intro q hq hqinc hqk
        have hqe : q = (k, e2) := nodup_keys_eq hen hq hke2 hqk
        rw [hqe] at hqinc
        exact hinc hqinc
      rw [hget]
      exact he2
  have h5 : ∀ q ∈ (g.edges.foldl (rmStep g.adjacencyList nid)
      (s, g.edges)).2,
      (jsGet (jsDelete g.nodes nid) q.2.source).isSome = true ∧
      (jsGet (jsDelete g.nodes nid) q.2.target).isSome = true ∧
      (∃ r2, jsGet (jsDelete g.adjacencyList nid) q.2.source = some r2 ∧
        q.1 ∈ storeGet ((g.edges.foldl (rmStep g.adjacencyList nid)
          (s, g.edges)).1) r2) ∧
      (g.directed = false →
        ∃ r2, jsGet (jsDelete g.adjacencyList nid) q.2.target = some r2 ∧
          q.1 ∈ storeGet ((g.edges.foldl (rmStep g.adjacencyList nid)
            (s, g.edges)).1) r2) := by
    intro q hq
    have hqm : q ∈ g.edges :=
      (rmFold_edges_sublist g.adjacencyList nid g.edges
        (s, g.edges)).subset hq
    have hqninc : ¬ (q.2.source = nid ∨ q.2.target = nid) := by
      intro hinc
      have hkill := rmFold_kill_edge g.adjacencyList nid g.edges
        (s, g.edges) q hqm hinc
      have hqs := jsGet_isSome_of_mem hq
      rw [hkill] at hqs
      exact absurd hqs (by simp)
    push_neg at hqninc
    obtain ⟨hqs, hqt⟩ := hqninc
    have hfresh : ∀ p ∈ g.edges,
        p.2.source = nid ∨ p.2.target = nid → ¬ p.1 = q.1 := by
      intro p hp hpinc hpk
      have hpe : p = q := nodup_keys_eq hen hp hqm hpk
      rw [hpe] at hpinc
      rcases hpinc with h1 | h1
      · exact hqs h1
      · exact hqt h1
    obtain ⟨hq1, hq2, ⟨r1, hr1, hm1⟩, hq4⟩ := hcov q hqm
    refine ⟨?_, ?_, ⟨r1, ?_, ?_⟩, ?_⟩
    · rw [jsGet_jsDelete, if_neg hqs]
      exact hq1
    · rw [jsGet_jsDelete, if_neg hqt]
      exact hq2
    · rw [jsGet_jsDelete, if_neg hqs]
      exact hr1
    · exact rmFold_mem_store g.adjacencyList nid g.edges (s, g.edges)
        r1 q.1 hm1 hfresh
    · intro hdf
      obtain ⟨r2, hr2, hm2⟩ := hq4 hdf
      refine ⟨r2, ?_, ?_⟩
      · rw [jsGet_jsDelete, if_neg hqt]
        exact hr2
      · exact rmFold_mem_store g.adjacencyList nid g.edges (s, g.edges)
          r2 q.1 hm2 hfresh
  exact ⟨h1, h2, h3, h4, h5⟩

theorem sinv_applyOps : ∀ (ops : List GOp) (sg : Store × StoreGraph),
    SInv sg.1 sg.2 → ValidSeq sg ops →
    SInv (ops.foldl applyOp sg).1 (ops.foldl applyOp sg).2 := by
  intro ops
  induction ops with
  | nil =>
    intro sg h _
    exact h
  | cons op rest ih =>
    intro sg h hv
    obtain ⟨hok, hv2⟩ := hv
    rw [List.foldl_cons]
    refine ih (applyOp sg op) ?_ hv2
    cases op with
    | addNodeOp n => exact sinv_addNode h n
    | removeNodeOp i => exact sinv_removeNode h i
    | addEdgeOp e =>
      obtain ⟨hs, ht, hf⟩ := hok
      exact sinv_addEdge h hs ht hf
    | removeEdgeOp i => exact sinv_removeEdge h i

/-! ## Claim C6: the graph invariant under edit sequences -/

/-- C6, counterexample: `addEdge` performs no endpoint check, so a single
`addEdge` on the empty graph is a reachable state whose edge has dangling
endpoints — the claimed invariant fails on graphs reachable by arbitrary
edit sequences. -/
theorem addEdge_dangling_endpoints :
    ¬ GraphInv
      (observe (applyOps false [GOp.addEdgeOp ⟨"e", "A", "B", 1, none⟩]).1
        (applyOps false [GOp.addEdgeOp ⟨"e", "A", "B", 1, none⟩]).2) := by
  unfold GraphInv HasNode
  decide

/-- C6 (amended): for every graph reachable from `createGraph` by a
sequence of edit calls each applied under its precondition (an added edge
must join two existing nodes and carry a fresh edge id — vacuous for the
other three operations), the observable graph satisfies the three-part
invariant: every edge id in any adjacency set names an edge of the edge
map, every edge's endpoints are nodes of the node map, and in an
undirected graph each edge's id appears in both endpoints' adjacency
sets.  Without the precondition the invariant fails (see the
counterexample): `addEdge` checks nothing. -/
theorem graph_edit_invariant (directed : Bool) (ops : List GOp)
    (hv : ValidSeq (emptyStore, createGraph directed) ops) :
    GraphInv (observe (applyOps directed ops).1 (applyOps directed ops).2) :=
  sinv_graphInv
    (sinv_applyOps ops (emptyStore, createGraph directed)
      (sinv_empty directed) hv)

/-- Witness for C6: the theorem applies to a concrete valid edit sequence
building a two-node, one-edge undirected graph. -/
theorem graph_edit_invariant_witness :
    ValidSeq (emptyStore, createGraph false)
      [GOp.addNodeOp ⟨"A", 0, 0, none⟩, GOp.addNodeOp ⟨"B", 0, 0, none⟩,
       GOp.addEdgeOp ⟨"e", "A", "B", 1, none⟩] ∧
    GraphInv (observe
      (applyOps false
        [GOp.addNodeOp ⟨"A", 0, 0, none⟩, GOp.addNodeOp ⟨"B", 0, 0, none⟩,
         GOp.addEdgeOp ⟨"e", "A", "B", 1, none⟩]).1
      (applyOps false
        [GOp.addNodeOp ⟨"A", 0, 0, none⟩, GOp.addNodeOp ⟨"B", 0, 0, none⟩,
         GOp.addEdgeOp ⟨"e", "A", "B", 1, none⟩]).2) := by
  have hv : ValidSeq (emptyStore, createGraph false)
      [GOp.addNodeOp ⟨"A", 0, 0, none⟩, GOp.addNodeOp ⟨"B", 0, 0, none⟩,
       GOp.addEdgeOp ⟨"e", "A", "B", 1, none⟩] := by
    refine ⟨trivial, trivial, ⟨?_, ?_, ?_⟩, trivial⟩
    · show (jsGet _ "A").isSome = true
      decide
    · show (jsGet _ "B").isSome = true
      decide
    · decide
  exact ⟨hv, graph_edit_invariant false
    [GOp.addNodeOp ⟨"A", 0, 0, none⟩, GOp.addNodeOp ⟨"B", 0, 0, none⟩,
     GOp.addEdgeOp ⟨"e", "A", "B", 1, none⟩] hv⟩
